import Mathlib

/-!
Verification of the Graph-Voyager algorithm trace engine.

This file gives a shallow embedding, in Lean 4, of the core of the
Graph-Voyager repository: the six step-generating graph algorithms of
src/algorithms/index.js (runBFS, runDFS, runDijkstra, runSCC,
runBellmanFord, runTopologicalSort) together with their helpers
(buildAdjacency, buildPath), and the step-normalization module
src/components/graph/lib/stateNormalization.js.

Modelling conventions:
  - JavaScript strings are Lean String values; node ids are strings.
  - A JavaScript plain object used as a string-keyed map is modelled as an
    insertion-ordered association list (Obj below).  JavaScript preserves
    insertion order for non-integer string keys, and both key enumeration
    (for-in, Object.keys) and lookups follow that order, so an ordered
    association list with update-in-place / append-if-new semantics is an
    exact model.
  - A JavaScript Set is modelled as an insertion-ordered duplicate-free
    list (setAdd appends only if absent, exactly like Set.prototype.add).
  - JavaScript numbers used by the engines are integers or Infinity; the
    type Dist below models this exactly (the engines only ever add and
    compare, and guard the Infinity cases the same way the source does).
  - A step object is modelled by the structure Step whose fields are all
    Option: none models an absent property (undefined), matching the
    partial-update contract of the source.  Object spread is Step.merge.
  - While loops and recursive DFS helpers are modelled with an explicit
    fuel parameter; the fuel chosen in each run function is proved (where
    a claim depends on it) to be large enough that the loop always reaches
    its own exit condition, so the embedding computes exactly what the
    source computes.
-/

namespace GraphVoyager

/-- Node ids are JavaScript strings. -/
abbrev NodeId := String

/-- A graph node.  The source model also carries x, y and label, but the
trace engine only ever reads the id field, so only it is modelled. -/
structure Node where
  id : NodeId
deriving DecidableEq, Repr

/-- A graph edge.  The source fields named from and to are called from_
and to_ here because both are reserved words in Lean.  A missing weight
(undefined) is modelled as none; the engines apply the JS default
weight ?? 1. -/
structure Edge where
  from_ : NodeId
  to_ : NodeId
  weight : Option Int := none
deriving DecidableEq, Repr

/-- AlgorithmOptions.  Each field may be absent (none = undefined/null);
the engines destructure with defaults exactly like the source. -/
structure Options where
  isDirected : Option Bool := none
  startNode : Option NodeId := none
  endNode : Option NodeId := none
deriving DecidableEq, Repr

/-- Truthiness of a nullable string, as JavaScript evaluates it in a
boolean position: null/undefined and the empty string are falsy. -/
def truthyId : Option NodeId → Bool
  | none => false
  | some s => !(s == "")

/-- Insertion-ordered string-keyed map: the model of a JS plain object. -/
abbrev Obj (α : Type) := List (NodeId × α)

/-- Property read o[k]: some value, or none for undefined. -/
def objGet {α : Type} (o : Obj α) (k : NodeId) : Option α :=
  (o.find? (fun p => p.1 == k)).map (fun p => p.2)

/-- Key-presence test (the truthiness test !o[k] used by the source is
only ever applied to array-valued entries, where presence = truthy). -/
def objHasKey {α : Type} (o : Obj α) (k : NodeId) : Bool :=
  o.any (fun p => p.1 == k)

/-- Property write o[k] = v: update in place if the key exists (keeping
its position, as JS does), otherwise append the new key at the end. -/
def objSet {α : Type} (o : Obj α) (k : NodeId) (v : α) : Obj α :=
  if objHasKey o k then o.map (fun p => if p.1 == k then (k, v) else p)
  else o ++ [(k, v)]

/-- Object.keys: the keys in insertion order. -/
def objKeys {α : Type} (o : Obj α) : List NodeId :=
  o.map (fun p => p.1)

/-- Set.prototype.add: append if not already a member. -/
def setAdd (s : List NodeId) (x : NodeId) : List NodeId :=
  if x ∈ s then s else s ++ [x]

/-- The set new Set(l): first occurrences in order. -/
def setOf (l : List NodeId) : List NodeId :=
  l.foldl setAdd []

/-- A JavaScript number as the engines use it: an integer or Infinity. -/
inductive Dist where
  | inf
  | fin (v : Int)
deriving DecidableEq, Repr

/-- Strict comparison a < b with JS Infinity semantics. -/
def Dist.lt : Dist → Dist → Bool
  | .fin a, .fin b => a < b
  | .fin _, .inf => true
  | .inf, _ => false

/-- Addition d + w of a possibly-infinite distance and a finite weight. -/
def Dist.add : Dist → Int → Dist
  | .inf, _ => .inf
  | .fin a, w => .fin (a + w)

/-- Rendering of a distance inside a result string: the source prints the
infinity symbol for Infinity and the decimal numeral otherwise. -/
def Dist.render : Dist → String
  | .inf => "∞"
  | .fin v => toString v

/-- A raw algorithm step: a partial state delta.  Every field is Option;
none models a property the step does not carry (undefined in JS).
current and previous-map values are themselves nullable, hence the nested
Option. -/
structure Step where
  visited : Option (List NodeId) := none
  current : Option (Option NodeId) := none
  queue : Option (List NodeId) := none
  path : Option (List NodeId) := none
  previous : Option (Obj (Option NodeId)) := none
  distances : Option (Obj Dist) := none
  discoveryTimes : Option (Obj Int) := none
  finishTimes : Option (Obj Int) := none
  finishOrderStack : Option (List NodeId) := none
  phase : Option String := none
  foundSccs : Option (List (List NodeId)) := none
  sccColors : Option (Obj String) := none
  showTransposed : Option Bool := none
  finished : Option Bool := none
  result : Option String := none
  order : Option (List NodeId) := none
  indegree : Option (Obj Int) := none
deriving DecidableEq, Repr

instance : Inhabited Step := ⟨{}⟩

/-- Object spread followed by explicit properties:
the step o wins on every property it defines, base fills the rest.
This models a literal of the form brace ...base, f1: v1, ... brace. -/
def Step.merge (base o : Step) : Step where
  visited := o.visited.orElse fun _ => base.visited
  current := o.current.orElse fun _ => base.current
  queue := o.queue.orElse fun _ => base.queue
  path := o.path.orElse fun _ => base.path
  previous := o.previous.orElse fun _ => base.previous
  distances := o.distances.orElse fun _ => base.distances
  discoveryTimes := o.discoveryTimes.orElse fun _ => base.discoveryTimes
  finishTimes := o.finishTimes.orElse fun _ => base.finishTimes
  finishOrderStack := o.finishOrderStack.orElse fun _ => base.finishOrderStack
  phase := o.phase.orElse fun _ => base.phase
  foundSccs := o.foundSccs.orElse fun _ => base.foundSccs
  sccColors := o.sccColors.orElse fun _ => base.sccColors
  showTransposed := o.showTransposed.orElse fun _ => base.showTransposed
  finished := o.finished.orElse fun _ => base.finished
  result := o.result.orElse fun _ => base.result
  order := o.order.orElse fun _ => base.order
  indegree := o.indegree.orElse fun _ => base.indegree

/-- The if-missing assignment of buildAdjacency: give k an empty list
unless it already has an entry. -/
def adjEnsure {α : Type} (a : Obj (List α)) (k : NodeId) : Obj (List α) :=
  if objHasKey a k then a else objSet a k []

/-- Array push on an adjacency entry: adj[k].push(v). -/
def adjAppend {α : Type} (a : Obj (List α)) (k : NodeId) (v : α) :
    Obj (List α) :=
  objSet a k ((objGet a k).getD [] ++ [v])

/-- Processing of one edge inside buildAdjacency (unweighted). -/
def adjEdgeStep (isDirected : Bool) (a : Obj (List NodeId)) (e : Edge) :
    Obj (List NodeId) :=
  let a := adjEnsure a e.from_
  let a := adjEnsure a e.to_
  let a := adjAppend a e.from_ e.to_
  if isDirected then a else adjAppend a e.to_ e.from_

/-- Adjacency construction (unweighted), from buildAdjacency in
src/algorithms/index.js.  Every declared node gets an entry first; then
each edge appends its target to the source's list (and conversely when
undirected), creating entries for undeclared endpoints on the fly exactly
as the source's if-missing assignments do. -/
def buildAdjacency (nodes : List Node) (edges : List Edge) (isDirected : Bool) :
    Obj (List NodeId) :=
  let adj := nodes.foldl (fun a n => objSet a n.id []) ([] : Obj (List NodeId))
  edges.foldl (adjEdgeStep isDirected) adj

/-- Processing of one edge inside buildAdjacency (weighted): neighbor
entries are (node, weight) pairs with weight ?? 1. -/
def adjEdgeStepW (isDirected : Bool) (a : Obj (List (NodeId × Int)))
    (e : Edge) : Obj (List (NodeId × Int)) :=
  let a := adjEnsure a e.from_
  let a := adjEnsure a e.to_
  let a := adjAppend a e.from_ (e.to_, e.weight.getD 1)
  if isDirected then a else adjAppend a e.to_ (e.from_, e.weight.getD 1)

/-- Adjacency construction, weighted variant (weighted = true in the
source). -/
def buildAdjacencyW (nodes : List Node) (edges : List Edge) (isDirected : Bool) :
    Obj (List (NodeId × Int)) :=
  let adj := nodes.foldl (fun a n => objSet a n.id [])
    ([] : Obj (List (NodeId × Int)))
  edges.foldl (adjEdgeStepW isDirected) adj

/-- Loop body of buildPath from src/algorithms/index.js: prepend cur, then
follow previous[cur]; stop on null or undefined.  The source loop has no
cycle guard, so it is modelled with fuel: none means the loop did not
reach its exit condition within fuel iterations (i.e. the source would
still be running). -/
def buildPathGo (previous : Obj (Option NodeId)) :
    Nat → NodeId → List NodeId → Option (List NodeId)
  | 0, _, _ => none
  | fuel+1, cur, path =>
    let path := cur :: path
    match objGet previous cur with
    | some (some nxt) => buildPathGo previous fuel nxt path
    | _ => some path

/-- buildPath(previous, targetNodeId) from src/algorithms/index.js.
Returns [] for a falsy target (null, undefined or the empty string). -/
def buildPath (previous : Obj (Option NodeId)) (targetNodeId : Option NodeId)
    (fuel : Nat) : Option (List NodeId) :=
  match targetNodeId with
  | none => some []
  | some t => if t == "" then some [] else buildPathGo previous fuel t []

/-- The engines' calls to buildPath: on the acyclic predecessor maps the
engines build, a fuel of one more than the number of keys always lets the
source loop reach its own exit, so this computes exactly the source
result there. -/
def buildPathD (previous : Obj (Option NodeId)) (target : Option NodeId) :
    List NodeId :=
  (buildPath previous target (previous.length + 1)).getD []

/-- The degenerate step sequence element pushed when no valid start node
exists (and in the engines' unreachable empty-steps fallbacks). -/
def finishedOnlyStep : Step := { finished := some true }

/-- Mutable state of the BFS while loop. -/
structure BfsState where
  queue : List NodeId
  visited : List NodeId
  previous : Obj (Option NodeId)
  steps : List Step
  found : Bool
deriving Repr

/-- Fuel for the BFS while loop: every loop iteration dequeues one
element and every id ever enqueued was freshly added to the visited set
(or is the start node), so the iteration count is bounded by the number
of ids occurring anywhere in the input. -/
def bfsFuel (nodes : List Node) (edges : List Edge) : Nat :=
  nodes.length + 2 * edges.length + 1

/-- The BFS while loop of runBFS.  One fuel unit per iteration: dequeue
u; if u is the end node, push the discovery step and stop (found); else
visit u's not-yet-visited neighbors in adjacency order, pushing one step
per discovery. -/
def bfsLoop (adj : Obj (List NodeId)) (endNode : Option NodeId) :
    Nat → BfsState → BfsState
  | 0, s => s
  | fuel+1, s =>
    match s.queue with
    | [] => s
    | u :: rest =>
      if some u = endNode then
        { s with
          queue := rest
          found := true
          steps := s.steps ++ [{
            visited := some s.visited
            current := some (some u)
            queue := some rest
            path := some (buildPathD s.previous (some u))
            previous := some s.previous }] }
      else
        let s1 := ((objGet adj u).getD []).foldl (fun (t : BfsState) v =>
          if v ∈ t.visited then t
          else
            let visited := setAdd t.visited v
            let previous := objSet t.previous v (some u)
            let queue := t.queue ++ [v]
            { t with
              visited := visited
              previous := previous
              queue := queue
              steps := t.steps ++ [{
                visited := some visited
                current := some (some v)
                queue := some queue
                path := some (buildPathD previous (some v))
                previous := some previous }] })
          { s with queue := rest }
        bfsLoop adj endNode fuel s1

/-- runBFS from src/algorithms/index.js. -/
def runBFS (nodes : List Node) (edges : List Edge) (options : Options) :
    List Step :=
  let isDirected := options.isDirected.getD false
  let adj := buildAdjacency nodes edges isDirected
  match options.startNode with
  | none => [finishedOnlyStep]
  | some startNode =>
    if startNode == "" ∨ ¬ nodes.any (fun n => n.id == startNode) then
      [finishedOnlyStep]
    else
      let queue := [startNode]
      let visited := setOf [startNode]
      let previous := objSet ([] : Obj (Option NodeId)) startNode none
      let steps : List Step := [{
        visited := some visited
        current := some (some startNode)
        queue := some queue
        path := some (buildPathD previous (some startNode))
        previous := some previous }]
      let fin := bfsLoop adj options.endNode (bfsFuel nodes edges)
        { queue := queue
          visited := visited
          previous := previous
          steps := steps
          found := false }
      if fin.found ∧ truthyId options.endNode then
        fin.steps ++ [Step.merge ((fin.steps.getLast?).getD {})
          { finished := some true
            path := some (buildPathD fin.previous options.endNode)
            previous := some fin.previous }]
      else if fin.steps.length > 0 then
        fin.steps ++ [Step.merge ((fin.steps.getLast?).getD {})
          { finished := some true, previous := some fin.previous }]
      else
        fin.steps ++ [finishedOnlyStep]

/-- Mutable state of the recursive DFS visit. -/
structure DfsState where
  visited : List NodeId
  previous : Obj (Option NodeId)
  time : Int
  discoveryTimes : Obj Int
  finishTimes : Obj Int
  steps : List Step
  found : Bool
deriving Repr

/-- Fuel for the DFS recursion: recursion depth is bounded by the number
of distinct ids, since every call pushes a fresh node into visited. -/
def dfsFuel (nodes : List Node) (edges : List Edge) : Nat :=
  nodes.length + 2 * edges.length + 1

/-- The dfsVisit closure of runDFS.  A call consumes one fuel unit per
recursion level.  Found short-circuiting mirrors the source: a call on a
found state returns immediately, a parent stops descending and does not
push its closing step once found is set. -/
def dfsVisit (adj : Obj (List NodeId)) (endNode : Option NodeId) :
    Nat → NodeId → DfsState → DfsState
  | 0, _, s => s
  | fuel+1, u, s =>
    if s.found then s
    else
      let time := s.time + 1
      let discoveryTimes := objSet s.discoveryTimes u time
      let visited := setAdd s.visited u
      let entry : Step := {
        visited := some visited
        current := some (some u)
        path := some (buildPathD s.previous (some u))
        discoveryTimes := some discoveryTimes
        finishTimes := some s.finishTimes
        previous := some s.previous }
      let s := { s with
        time := time
        discoveryTimes := discoveryTimes
        visited := visited
        steps := s.steps ++ [entry] }
      if some u = endNode then
        let time := s.time + 1
        let finishTimes := objSet s.finishTimes u time
        { s with
          time := time
          finishTimes := finishTimes
          found := true
          steps := s.steps ++ [Step.merge entry
            { finished := some true
              finishTimes := some finishTimes
              previous := some s.previous }] }
      else
        let s := ((objGet adj u).getD []).foldl (fun (t : DfsState) v =>
          if t.found then t
          else if v ∈ t.visited then t
          else dfsVisit adj endNode fuel v
            { t with previous := objSet t.previous v (some u) }) s
        if s.found then s
        else
          let time := s.time + 1
          let finishTimes := objSet s.finishTimes u time
          { s with
            time := time
            finishTimes := finishTimes
            steps := s.steps ++ [{
              visited := some s.visited
              current := some (some u)
              path := some (buildPathD s.previous (some u))
              discoveryTimes := some s.discoveryTimes
              finishTimes := some finishTimes
              previous := some s.previous }] }

/-- runDFS from src/algorithms/index.js. -/
def runDFS (nodes : List Node) (edges : List Edge) (options : Options) :
    List Step :=
  let isDirected := options.isDirected.getD false
  let adj := buildAdjacency nodes edges isDirected
  match options.startNode with
  | none => [finishedOnlyStep]
  | some startNode =>
    if startNode == "" ∨ ¬ nodes.any (fun n => n.id == startNode) then
      [finishedOnlyStep]
    else
      let s0 : DfsState := {
        visited := []
        previous := objSet ([] : Obj (Option NodeId)) startNode none
        time := 0
        discoveryTimes := []
        finishTimes := []
        steps := []
        found := false }
      let fin := dfsVisit adj options.endNode (dfsFuel nodes edges) startNode s0
      if fin.found then fin.steps
      else if fin.steps.length > 0 then
        fin.steps ++ [Step.merge (fin.steps.getLast?.getD {})
          { finished := some true, previous := some fin.previous }]
      else
        fin.steps ++ [finishedOnlyStep]

/-- Comparison a < b where the right side is a property read that may be
undefined: in JS a comparison with undefined is false. -/
def distLtOpt (a : Dist) (b : Option Dist) : Bool :=
  match b with
  | none => false
  | some d => Dist.lt a d

/-- Comparison a < b where the left side may be undefined. -/
def optDistLt (a : Option Dist) (b : Dist) : Bool :=
  match a with
  | none => false
  | some d => Dist.lt d b

/-- Rendering of distances[k] in a result string; an absent key would
print the text undefined in JS. -/
def renderDistLookup (d : Obj Dist) (k : NodeId) : String :=
  match objGet d k with
  | some dk => dk.render
  | none => "undefined"

/-- The target expression endNode-or-alt of the source (endNode || alt):
alt is used when endNode is null, undefined or the empty string. -/
def orNode (endNode : Option NodeId) (alt : NodeId) : Option NodeId :=
  if truthyId endNode then endNode else some alt

/-- Mutable state of the Dijkstra main loop. -/
structure DijState where
  distances : Obj Dist
  previous : Obj (Option NodeId)
  visited : List NodeId
  steps : List Step
deriving Repr

/-- The minimum-scan of Dijkstra: iterate the keys of distances in
insertion order, tracking the first strict improvement over the running
minimum (strictly-less, starting from Infinity, so an Infinity entry can
never be selected). -/
def dijkstraScanMin (distances : Obj Dist) (visited : List NodeId) :
    Option NodeId × Dist :=
  (objKeys distances).foldl (fun (acc : Option NodeId × Dist) id =>
    if id ∉ visited ∧ optDistLt (objGet distances id) acc.2 then
      (some id, (objGet distances id).getD Dist.inf)
    else acc) (none, Dist.inf)

/-- The while loop of runDijkstra.  Each iteration visits one more node,
so a fuel of nodes.length + 1 always reaches the loop's own exit. -/
def dijkstraLoop (nodes : List Node) (adj : Obj (List (NodeId × Int)))
    (endNode : Option NodeId) : Nat → DijState → DijState
  | 0, s => s
  | fuel+1, s =>
    if s.visited.length < nodes.length then
      let scan := dijkstraScanMin s.distances s.visited
      match scan.1 with
      | none => s
      | some current =>
        if objGet s.distances current = some Dist.inf then s
        else
          let visited := setAdd s.visited current
          let s := { s with
            visited := visited
            steps := s.steps ++ [{
              visited := some visited
              current := some (some current)
              distances := some s.distances
              path := some (buildPathD s.previous (orNode endNode current))
              previous := some s.previous }] }
          if some current = endNode then s
          else
            let s := ((objGet adj current).getD []).foldl
              (fun (t : DijState) vw =>
                if vw.1 ∈ t.visited then t
                else
                  let nd := Dist.add ((objGet t.distances current).getD Dist.inf) vw.2
                  if distLtOpt nd (objGet t.distances vw.1) then
                    let distances := objSet t.distances vw.1 nd
                    let previous := objSet t.previous vw.1 (some current)
                    { t with
                      distances := distances
                      previous := previous
                      steps := t.steps ++ [{
                        visited := some t.visited
                        current := some (some vw.1)
                        distances := some distances
                        path := some (buildPathD previous (orNode endNode vw.1)) }] }
                  else t) s
            dijkstraLoop nodes adj endNode fuel s
    else s

/-- runDijkstra from src/algorithms/index.js. -/
def runDijkstra (nodes : List Node) (edges : List Edge) (options : Options) :
    List Step :=
  let isDirected := options.isDirected.getD false
  let adj := buildAdjacencyW nodes edges isDirected
  match options.startNode with
  | none => [finishedOnlyStep]
  | some startNode =>
    if startNode == "" ∨ ¬ nodes.any (fun n => n.id == startNode) then
      [finishedOnlyStep]
    else
      let distances := nodes.foldl (fun d nn =>
        objSet d nn.id (if nn.id == startNode then Dist.fin 0 else Dist.inf))
        ([] : Obj Dist)
      let previous := nodes.foldl (fun p nn => objSet p nn.id none)
        ([] : Obj (Option NodeId))
      let fin := dijkstraLoop nodes adj options.endNode (nodes.length + 1)
        { distances := distances, previous := previous, visited := [], steps := [] }
      let result := if truthyId options.endNode then
          "Distance to " ++ options.endNode.getD "" ++ ": " ++
            renderDistLookup fin.distances (options.endNode.getD "")
        else "Finished"
      fin.steps ++ [Step.merge (fin.steps.getLast?.getD {})
        { finished := some true, result := some result,
          previous := some fin.previous }]

/-- Mutable state of the Bellman-Ford relaxation rounds. -/
structure BFState where
  distances : Obj Dist
  previous : Obj (Option NodeId)
  steps : List Step
  lastUpdated : Option NodeId
  updated : Bool
deriving Repr

/-- The visited set Bellman-Ford displays: the keys whose distance is
finite, in key order. -/
def finiteKeys (d : Obj Dist) : List NodeId :=
  setOf ((objKeys d).filter (fun id => !(objGet d id == some Dist.inf)))

/-- A single relaxation attempt over the directed pair (fromN, toN):
update distance, predecessor, lastUpdated and push a step when a strict
improvement is found.  Mirrors the guard distances[from] !== Infinity
followed by the strict comparison (an undefined operand also fails the
comparison in JS, which the Option match reproduces).

The source computes the displayed path with the unguarded buildPath; on a
cyclic predecessor map (possible once a negative cycle has been relaxed
around) that source loop never exits.  Here buildPathD truncates instead;
see the Bellman-Ford claims for how this divergence is treated. -/
def bfRelax (endNode : Option NodeId) (st : BFState) (fromN toN : NodeId)
    (weight : Int) : BFState :=
  match objGet st.distances fromN with
  | some (Dist.fin dfrom) =>
    if distLtOpt (Dist.fin (dfrom + weight)) (objGet st.distances toN) then
      let distances := objSet st.distances toN (Dist.fin (dfrom + weight))
      let previous := objSet st.previous toN (some fromN)
      { st with
        distances := distances
        previous := previous
        updated := true
        lastUpdated := some toN
        steps := st.steps ++ [{
          distances := some distances
          visited := some (finiteKeys distances)
          current := some (some toN)
          path := some (buildPathD previous (orNode endNode toN))
          previous := some previous }] }
    else st
  | _ => st

/-- One full relaxation round over the edge list; undirected graphs relax
each edge in both directions, in source order. -/
def bfRound (isDirected : Bool) (endNode : Option NodeId)
    (edgeList : List (NodeId × NodeId × Int)) (st : BFState) : BFState :=
  edgeList.foldl (fun st e =>
    let st := bfRelax endNode st e.1 e.2.1 e.2.2
    if isDirected then st else bfRelax endNode st e.2.1 e.1 e.2.2) st

/-- The outer rounds loop: at most nodes.length - 1 rounds, stopping
early after a round with no update. -/
def bfRounds (isDirected : Bool) (endNode : Option NodeId)
    (edgeList : List (NodeId × NodeId × Int)) : Nat → BFState → BFState
  | 0, st => st
  | k+1, st =>
    let st := bfRound isDirected endNode edgeList { st with updated := false }
    if st.updated then bfRounds isDirected endNode edgeList k st else st

/-- One improvement test of the negative-cycle scan. -/
def bfImproves (distances : Obj Dist) (fromN toN : NodeId) (weight : Int) :
    Bool :=
  match objGet distances fromN with
  | some (Dist.fin dfrom) =>
    distLtOpt (Dist.fin (dfrom + weight)) (objGet distances toN)
  | _ => false

/-- The post-relaxation negative-cycle scan: some edge (in either
direction when undirected) still admits a strict improvement. -/
def bfHasNegCycle (isDirected : Bool) (edgeList : List (NodeId × NodeId × Int))
    (distances : Obj Dist) : Bool :=
  edgeList.any (fun e => bfImproves distances e.1 e.2.1 e.2.2 ∨
    (¬isDirected ∧ bfImproves distances e.2.1 e.1 e.2.2))

/-- runBellmanFord from src/algorithms/index.js. -/
def runBellmanFord (nodes : List Node) (edges : List Edge) (options : Options) :
    List Step :=
  let isDirected := options.isDirected.getD false
  match options.startNode with
  | none => [finishedOnlyStep]
  | some startNode =>
    if startNode == "" ∨ ¬ nodes.any (fun n => n.id == startNode) then
      [finishedOnlyStep]
    else
      let distances := nodes.foldl (fun d nn =>
        objSet d nn.id (if nn.id == startNode then Dist.fin 0 else Dist.inf))
        ([] : Obj Dist)
      let previous := nodes.foldl (fun p nn => objSet p nn.id none)
        ([] : Obj (Option NodeId))
      let steps : List Step := [{
        distances := some distances
        visited := some (finiteKeys distances)
        current := some (some startNode)
        path := some []
        previous := some previous }]
      let edgeList := edges.map (fun e => (e.from_, e.to_, e.weight.getD 1))
      let fin := bfRounds isDirected options.endNode edgeList (nodes.length - 1)
        { distances := distances, previous := previous, steps := steps,
          lastUpdated := none, updated := false }
      let negativeCycle := bfHasNegCycle isDirected edgeList fin.distances
      let finalTarget := if truthyId options.endNode then options.endNode
        else if truthyId fin.lastUpdated then fin.lastUpdated else none
      let result := if negativeCycle then "Negative cycle detected"
        else if truthyId finalTarget then
          "Distance to " ++ finalTarget.getD "" ++ ": " ++
            renderDistLookup fin.distances (finalTarget.getD "")
        else "Finished"
      fin.steps ++ [{
        distances := some fin.distances
        visited := some (finiteKeys fin.distances)
        finished := some true
        result := some result
        path := some (buildPathD fin.previous finalTarget)
        previous := some fin.previous }]

/-- The fixed SCC color palette of the source. -/
def DEFAULT_COLORS : List String :=
  ["#f87171", "#fb923c", "#a3e635", "#4ade80", "#34d399", "#22d3ee",
   "#818cf8", "#a78bfa", "#f472b6", "#fb7185", "#e879f9", "#60a5fa",
   "#d946ef"]

/-- Mutable state of the first Kosaraju pass. -/
structure Scc1State where
  visited : List NodeId
  time : Int
  discoveryTimes : Obj Int
  finishTimes : Obj Int
  finishOrderStack : List NodeId
  steps : List Step
deriving Repr

/-- Fuel for the SCC depth-first passes: recursion depth is bounded by
the number of distinct ids, each level visiting a fresh node. -/
def sccFuel (nodes : List Node) (edges : List Edge) : Nat :=
  nodes.length + 2 * edges.length + 1

/-- Entry block of dfs1: bump time, record the discovery time, mark u
visited and push the entry step. -/
def sccDfs1Entry (u : NodeId) (s : Scc1State) : Scc1State :=
  let time := s.time + 1
  let discoveryTimes := objSet s.discoveryTimes u time
  let visited := setAdd s.visited u
  { s with
    time := time
    discoveryTimes := discoveryTimes
    visited := visited
    steps := s.steps ++ [{
      phase := some "dfs1"
      visited := some visited
      current := some (some u)
      finishOrderStack := some s.finishOrderStack
      foundSccs := some []
      sccColors := some []
      showTransposed := some false
      discoveryTimes := some discoveryTimes
      finishTimes := some s.finishTimes }] }

/-- Exit block of dfs1: bump time, record the finish time, push u on the
finish order stack and push the exit step. -/
def sccDfs1Exit (u : NodeId) (s : Scc1State) : Scc1State :=
  let time := s.time + 1
  let finishTimes := objSet s.finishTimes u time
  let finishOrderStack := s.finishOrderStack ++ [u]
  { s with
    time := time
    finishTimes := finishTimes
    finishOrderStack := finishOrderStack
    steps := s.steps ++ [{
      phase := some "dfs1"
      visited := some s.visited
      current := some (some u)
      finishOrderStack := some finishOrderStack
      foundSccs := some []
      sccColors := some []
      showTransposed := some false
      discoveryTimes := some s.discoveryTimes
      finishTimes := some finishTimes }] }

/-- The dfs1 closure of runSCC: first pass over the original adjacency,
recording discovery/finish times and pushing each node on the finish
order stack as its subtree is exhausted; one step on entry, one on exit. -/
def sccDfs1 (adj : Obj (List NodeId)) : Nat → NodeId → Scc1State → Scc1State
  | 0, _, s => s
  | fuel+1, u, s =>
    let s := sccDfs1Entry u s
    let s := ((objGet adj u).getD []).foldl
      (fun t v => if v ∈ t.visited then t else sccDfs1 adj fuel v t) s
    sccDfs1Exit u s

/-- Mutable state of the second Kosaraju pass.  In the source the current
bucket array is already an element of foundSccs (pushed by reference
before dfs2 starts); here foundSccs holds only the completed buckets and
bucket the in-progress one, so the JS value of foundSccs at any moment in
dfs2 is foundSccs ++ [bucket]. -/
structure Scc2State where
  visited : List NodeId
  time : Int
  discoveryTimes : Obj Int
  finishTimes : Obj Int
  foundSccs : List (List NodeId)
  bucket : List NodeId
  sccColors : Obj String
  sccIndex : Nat
  steps : List Step
deriving Repr

/-- Entry block of dfs2: bump time, record discovery, mark visited, push
u into the current bucket, color it, and push the entry step (note the
snapshot shows the in-progress bucket twice, see Scc2State). -/
def sccDfs2Entry (vizStack : List NodeId) (u : NodeId) (s : Scc2State) :
    Scc2State :=
  let time := s.time + 1
  let discoveryTimes := objSet s.discoveryTimes u time
  let visited := setAdd s.visited u
  let bucket := s.bucket ++ [u]
  let sccColors := objSet s.sccColors u
    ((DEFAULT_COLORS.get? (s.sccIndex % DEFAULT_COLORS.length)).getD "")
  { s with
    time := time
    discoveryTimes := discoveryTimes
    visited := visited
    bucket := bucket
    sccColors := sccColors
    steps := s.steps ++ [{
      phase := some "dfs2"
      visited := some visited
      current := some (some u)
      foundSccs := some (s.foundSccs ++ [bucket, bucket])
      sccColors := some sccColors
      showTransposed := some true
      finishOrderStack := some vizStack
      discoveryTimes := some discoveryTimes
      finishTimes := some s.finishTimes }] }

/-- Exit block of dfs2: bump time, record the finish time and push the
spread-of-last-step snapshot. -/
def sccDfs2Exit (u : NodeId) (s : Scc2State) : Scc2State :=
  let time := s.time + 1
  let finishTimes := objSet s.finishTimes u time
  { s with
    time := time
    finishTimes := finishTimes
    steps := s.steps ++ [Step.merge (s.steps.getLast?.getD {})
      { finishTimes := some finishTimes }] }

/-- The dfs2 closure of runSCC: second pass over the transposed
adjacency, filling the current bucket and color map.  The vizStack
argument is the value of the visualization stack at the moment of this
call (it does not change during one dfs2 run). -/
def sccDfs2 (adjT : Obj (List NodeId)) (vizStack : List NodeId) :
    Nat → NodeId → Scc2State → Scc2State
  | 0, _, s => s
  | fuel+1, u, s =>
    let s := sccDfs2Entry vizStack u s
    let s := ((objGet adjT u).getD []).foldl
      (fun t v => if v ∈ t.visited then t else sccDfs2 adjT vizStack fuel v t) s
    sccDfs2Exit u s

/-- The while loop of the second pass, iterating over the reversed finish
order stack (Array.pop takes the last element).  The head of the first
argument is the id just popped; the remaining stack, in original order,
is the reverse of the tail. -/
def sccPhase2Go (adjT : Obj (List NodeId)) (fuel : Nat) :
    List NodeId → Scc2State → Scc2State
  | [], s => s
  | u :: revRest, s =>
    if u ∈ s.visited then sccPhase2Go adjT fuel revRest s
    else
      let s := sccDfs2 adjT revRest.reverse fuel u { s with bucket := [] }
      sccPhase2Go adjT fuel revRest
        { s with
          foundSccs := s.foundSccs ++ [s.bucket]
          bucket := []
          sccIndex := s.sccIndex + 1 }

/-- runSCC from src/algorithms/index.js (Kosaraju).  The options argument
is accepted but never read: the direction is hard-coded to directed. -/
def runSCC (nodes : List Node) (edges : List Edge) (_options : Options) :
    List Step :=
  let adj := buildAdjacency nodes edges true
  let adjT := nodes.foldl (fun a nn => objSet a nn.id [])
    ([] : Obj (List NodeId))
  let adjT := edges.foldl (fun a e =>
    adjAppend (adjEnsure a e.to_) e.to_ e.from_) adjT
  let p1 := nodes.foldl
    (fun s nn => if nn.id ∈ s.visited then s
      else sccDfs1 adj (sccFuel nodes edges) nn.id s)
    { visited := [], time := 0, discoveryTimes := [], finishTimes := [],
      finishOrderStack := [], steps := [] }
  let steps := p1.steps ++ [{
    phase := some "transpose"
    showTransposed := some true
    finishOrderStack := some p1.finishOrderStack
    visited := some []
    current := some none
    foundSccs := some []
    sccColors := some []
    discoveryTimes := some []
    finishTimes := some [] }]
  let p2 := sccPhase2Go adjT (sccFuel nodes edges) p1.finishOrderStack.reverse
    { visited := [], time := 0, discoveryTimes := [], finishTimes := [],
      foundSccs := [], bucket := [], sccColors := [], sccIndex := 0,
      steps := steps }
  p2.steps ++ [{
    phase := some "finished"
    visited := some p2.visited
    current := some none
    foundSccs := some p2.foundSccs
    sccColors := some p2.sccColors
    showTransposed := some false
    finishOrderStack := some []
    finished := some true
    result := some ("Found " ++ toString p2.foundSccs.length ++ " SCCs.")
    discoveryTimes := some p2.discoveryTimes
    finishTimes := some p2.finishTimes }]

/-- Mutable state of the Kahn topological sort loop. -/
structure TopoState where
  queue : List NodeId
  indegree : Obj Int
  order : List NodeId
  stepsInner : List Step
deriving Repr

/-- Fuel for the topological sort loop: every iteration dequeues one id
and every id is enqueued at most once (its indegree counter passes
through zero at most once), so the indegree key count bounds the
iteration count. -/
def topoFuel (nodes : List Node) (edges : List Edge) : Nat :=
  nodes.length + edges.length + 1

/-- The while loop of runTopologicalSort: dequeue u, append it to the
order, then decrement each successor's indegree (one step per decrement)
and enqueue successors that reach zero (one step per enqueue). -/
def topoLoop (adj : Obj (List NodeId)) : Nat → TopoState → TopoState
  | 0, s => s
  | fuel+1, s =>
    match s.queue with
    | [] => s
    | u :: rest =>
      let order := s.order ++ [u]
      let s := { s with
        queue := rest
        order := order
        stepsInner := s.stepsInner ++ [{
          queue := some rest
          indegree := some s.indegree
          current := some (some u)
          order := some order }] }
      let s := ((objGet adj u).getD []).foldl (fun (t : TopoState) v =>
        let indegree := objSet t.indegree v ((objGet t.indegree v).getD 0 - 1)
        let t := { t with
          indegree := indegree
          stepsInner := t.stepsInner ++ [{
            queue := some t.queue
            indegree := some indegree
            current := some (some u)
            order := some t.order }] }
        if objGet t.indegree v = some 0 then
          let queue := t.queue ++ [v]
          { t with
            queue := queue
            stepsInner := t.stepsInner ++ [{
              queue := some queue
              indegree := some indegree
              current := some (some v)
              order := some t.order }] }
        else t) s
      topoLoop adj fuel s

/-- runTopologicalSort from src/algorithms/index.js (Kahn).  The
isDirected option defaults to true here (unlike the other engines). -/
def runTopologicalSort (nodes : List Node) (edges : List Edge)
    (options : Options) : List Step :=
  let isDirected := options.isDirected.getD true
  if !isDirected then
    [{ finished := some true
       result := some "Topological sort requires a directed graph. Enable 'Directed Graph' mode."
       order := some [] }]
  else
    let adj := buildAdjacency nodes edges isDirected
    let indegree := nodes.foldl (fun d nn => objSet d nn.id 0) ([] : Obj Int)
    let indegree := edges.foldl (fun d e =>
      let d := if objHasKey d e.to_ then d else objSet d e.to_ 0
      objSet d e.to_ ((objGet d e.to_).getD 0 + 1)) indegree
    let queue := (objKeys indegree).filter (fun id => objGet indegree id = some 0)
    let s0 : TopoState := {
      queue := queue
      indegree := indegree
      order := []
      stepsInner := [{
        queue := some queue
        indegree := some indegree
        order := some [] }] }
    let fin := topoLoop adj (topoFuel nodes edges) s0
    if fin.order.length ≠ nodes.length then
      fin.stepsInner ++ [{
        finished := some true
        result := some "Graph has at least one cycle (topological sort not possible)"
        order := some fin.order }]
    else
      fin.stepsInner ++ [{
        finished := some true
        result := some "Topological order computed"
        order := some fin.order }]

/-!
The step-normalization module,
src/components/graph/lib/stateNormalization.js.

The source functions accept dynamically-typed values (Set vs Array vs
keyed object) and coerce them to one canonical shape.  In this embedding
step fields already carry the canonical shape the engines emit (a Set is
a duplicate-free insertion-ordered list, a map is an Obj), so in each
function the branch that applies is the one for that canonical type; the
dead branches for the other runtime types are noted in the doc comments.
-/

/-- The fully merged renderer-facing state. -/
structure VizState where
  visited : List NodeId
  queue : List NodeId
  path : List NodeId
  distances : Obj Dist
  sccColors : Obj String
  previous : Obj (Option NodeId)
  order : List NodeId
  current : Option NodeId
  phase : Option String
  finishOrderStack : List NodeId
  foundSccs : List (List NodeId)
  showTransposed : Bool
  discoveryTimes : Obj Int
  finishTimes : Obj Int
  finished : Bool
  result : Option String
deriving DecidableEq, Repr

/-- The context argument of the normalizer. -/
structure Context where
  endNode : Option NodeId := none
deriving DecidableEq, Repr

/-- normalizeVisited: a present value goes through new Set(value) (for a
Set argument this reproduces it element-for-element, for an array it
keeps first occurrences, which setOf computes); an absent value falls
back to a copy of the previous set. -/
def normalizeVisited (visited : Option (List NodeId))
    (prevVisited : List NodeId) : List NodeId :=
  match visited with
  | some s => setOf s
  | none => prevVisited

/-- normalizeQueue: a present array is copied, an absent one falls back
to a copy of the previous queue. -/
def normalizeQueue (queue : Option (List NodeId)) (prevQueue : List NodeId) :
    List NodeId :=
  match queue with
  | some q => q
  | none => prevQueue

/-- normalizeDistances: a present plain object is copied, an absent one
falls back to a copy of the previous map. -/
def normalizeDistances (distances : Option (Obj Dist))
    (prevDistances : Obj Dist) : Obj Dist :=
  match distances with
  | some d => d
  | none => prevDistances

/-- normalizeMapLikeObject: a present Map or plain object is copied to a
plain object, an absent one falls back to a copy of the previous map. -/
def normalizeMapLikeObject {α : Type} (mapLike : Option (Obj α))
    (prev : Obj α) : Obj α :=
  match mapLike with
  | some m => m
  | none => prev

/-- normalizeSccColors delegates to normalizeMapLikeObject. -/
def normalizeSccColors (sccColors : Option (Obj String)) (prev : Obj String) :
    Obj String :=
  normalizeMapLikeObject sccColors prev

/-- normalizePrevious delegates to normalizeMapLikeObject. -/
def normalizePrevious (previous : Option (Obj (Option NodeId)))
    (prev : Obj (Option NodeId)) : Obj (Option NodeId) :=
  normalizeMapLikeObject previous prev

/-- toArrayFromUnknown restricted to a value that is already an array:
the source returns a shallow copy. -/
def toArrayFromUnknown (value : List NodeId) : List NodeId :=
  value

/-- normalizePath: a present value goes through toArrayFromUnknown, an
absent one falls back to a copy of the previous path. -/
def normalizePath (path : Option (List NodeId)) (prevPath : List NodeId) :
    List NodeId :=
  match path with
  | some p => toArrayFromUnknown p
  | none => prevPath

/-- Auxiliary strict-decrease lemma for the cycle-guarded walk: marking a
key as seen strictly shrinks the unseen-keys list. -/
theorem length_filter_notMem_cons_lt (keys : List NodeId) (seen : List NodeId)
    (cur : NodeId) (hmem : cur ∈ keys) (hns : cur ∉ seen) :
    (keys.filter (fun k => decide (k ∉ cur :: seen))).length <
      (keys.filter (fun k => decide (k ∉ seen))).length := by
  induction keys with
  | nil => cases hmem
  | cons a keys ih =>
    simp only [List.filter_cons]
    by_cases hac : a = cur
    · subst hac
      have h1 : (decide (a ∉ a :: seen)) = false := by simp
      have h2 : (decide (a ∉ seen)) = true := by simpa using hns
      rw [h1, h2]
      have hsub : (keys.filter (fun k => decide (k ∉ a :: seen))).length ≤
          (keys.filter (fun k => decide (k ∉ seen))).length :=
        (List.monotone_filter_right keys (fun x hx => by
          simp only [decide_eq_true_eq, List.mem_cons] at hx ⊢
          exact fun hxs => hx (Or.inr hxs))).length_le
      simpa using Nat.lt_succ_of_le hsub
    · have hmem' : cur ∈ keys := by
        rcases List.mem_cons.mp hmem with h | h
        · exact absurd h.symm hac
        · exact h
      have hlt := ih hmem'
      by_cases has2 : a ∈ seen
      · have h1 : (decide (a ∉ cur :: seen)) = false := by
          simp [List.mem_cons, has2]
        have h2 : (decide (a ∉ seen)) = false := by simpa using has2
        rw [h1, h2]
        exact hlt
      · have h2 : (decide (a ∉ seen)) = true := by simpa using has2
        by_cases has1 : a ∈ cur :: seen
        · have h1 : (decide (a ∉ cur :: seen)) = false := by
            simp only [decide_eq_false_iff_not, not_not]
            exact has1
          rw [h1, h2]
          exact Nat.lt_succ_of_lt hlt
        · have h1 : (decide (a ∉ cur :: seen)) = true := by simpa using has1
          rw [h1, h2]
          simpa using hlt

/-- Loop body of buildPathFromPrevious from stateNormalization.js: walk
the predecessor map backward, prepending each node, stopping at null,
undefined, or an already-seen node (the cycle guard).  The guard makes
the walk genuinely terminating, which the well-founded recursion on the
unseen-keys count witnesses. -/
def buildPathFromPreviousGo (previous : Obj (Option NodeId))
    (seen : List NodeId) (cur : NodeId) (path : List NodeId) : List NodeId :=
  if h : cur ∈ seen then path
  else
    match h2 : objGet previous cur with
    | some (some nxt) => buildPathFromPreviousGo previous (cur :: seen) nxt (cur :: path)
    | some none => cur :: path
    | none => cur :: path
termination_by ((objKeys previous).filter (fun k => decide (k ∉ seen))).length
decreasing_by
  have hkey : cur ∈ objKeys previous := by
    unfold objGet at h2
    unfold objKeys
    rcases hfind : previous.find? (fun p => p.1 == cur) with _ | p
    · rw [hfind] at h2; cases h2
    · have := List.find?_some hfind
      have hmem := List.mem_of_find?_eq_some hfind
      simp only [beq_iff_eq] at this
      subst this
      exact List.mem_map_of_mem _ hmem
  exact length_filter_notMem_cons_lt _ seen cur hkey h

/-- buildPathFromPrevious(previous, target): returns [] when the target
is null or undefined (a weak-equality check, so an empty-string target is
walked), else runs the guarded backward walk. -/
def buildPathFromPrevious (previous : Obj (Option NodeId))
    (target : Option NodeId) : List NodeId :=
  match target with
  | none => []
  | some t => buildPathFromPreviousGo previous [] t []

/-- choosePathTarget: explicit endNode if truthy, then the current node
if truthy, then the most recently inserted key of the predecessor map,
else null. -/
def choosePathTarget (previous : Obj (Option NodeId))
    (endNode cur : Option NodeId) : Option NodeId :=
  if truthyId endNode then endNode
  else if truthyId cur then cur
  else
    match (objKeys previous).getLast? with
    | some k => some k
    | none => none

/-- reconstructPathIfMissing: keep a nonempty explicit path; otherwise
pick a target (falsy target means []) and run the guarded walk. -/
def reconstructPathIfMissing (path : List NodeId)
    (previous : Obj (Option NodeId)) (endNode cur : Option NodeId) :
    List NodeId :=
  let pathArr := toArrayFromUnknown path
  if pathArr.length > 0 then pathArr
  else
    let target := choosePathTarget previous endNode cur
    if truthyId target then
      let rebuilt := buildPathFromPrevious previous target
      if rebuilt.length > 0 then rebuilt else []
    else []

/-- normalizeOrder: toArrayFromUnknown of the given order. -/
def normalizeOrder (order : List NodeId) : List NodeId :=
  toArrayFromUnknown order

/-- normalizeStepAgainstPrev(step, prevState, context) from
stateNormalization.js: the pure merge of one raw step into the running
visualization state.  Collection fields are normalized with
carry-forward; a missing-or-empty path is reconstructed from the merged
predecessor map with target preference endNode, then the step's current
(falling back to the previous state's current when the step leaves it
null or undefined), then the newest key of the predecessor map; order and
the scalar passthrough keys are copied only when the step defines them. -/
def normalizeStepAgainstPrev (step : Step) (prevState : VizState)
    (context : Context) : VizState :=
  let endNode := context.endNode
  let visited := normalizeVisited step.visited prevState.visited
  let queue := normalizeQueue step.queue prevState.queue
  let distances := normalizeDistances step.distances prevState.distances
  let sccColors := normalizeSccColors step.sccColors prevState.sccColors
  let previous := normalizePrevious step.previous prevState.previous
  let path0 := normalizePath step.path prevState.path
  let hintCur : Option NodeId := match step.current with
    | some (some c) => some c
    | _ => prevState.current
  let path := if path0.length = 0 then
      reconstructPathIfMissing path0 previous endNode hintCur
    else path0
  { visited := visited
    queue := queue
    path := path
    distances := distances
    sccColors := sccColors
    previous := previous
    order := match step.order with
      | some o => normalizeOrder o
      | none => prevState.order
    current := match step.current with
      | some c => c
      | none => prevState.current
    phase := match step.phase with
      | some p => some p
      | none => prevState.phase
    finishOrderStack := match step.finishOrderStack with
      | some f => f
      | none => prevState.finishOrderStack
    foundSccs := match step.foundSccs with
      | some f => f
      | none => prevState.foundSccs
    showTransposed := match step.showTransposed with
      | some b => b
      | none => prevState.showTransposed
    discoveryTimes := match step.discoveryTimes with
      | some d => d
      | none => prevState.discoveryTimes
    finishTimes := match step.finishTimes with
      | some f => f
      | none => prevState.finishTimes
    finished := match step.finished with
      | some b => b
      | none => prevState.finished
    result := match step.result with
      | some r => some r
      | none => prevState.result }

/-! Basic lemmas about the object and set models. -/

theorem objGet_cons {α : Type} (p : NodeId × α) (o : Obj α) (k : NodeId) :
    objGet (p :: o) k = if p.1 == k then some p.2 else objGet o k := by
  unfold objGet
  rw [List.find?_cons]
  by_cases h : p.1 == k
  · simp [h]
  · simp only [h]
    simp at h
    simp [h]

theorem objHasKey_cons {α : Type} (p : NodeId × α) (o : Obj α) (k : NodeId) :
    objHasKey (p :: o) k = (p.1 == k || objHasKey o k) := by
  unfold objHasKey
  simp [List.any_cons]

theorem objHasKey_append {α : Type} (o o' : Obj α) (k : NodeId) :
    objHasKey (o ++ o') k = (objHasKey o k || objHasKey o' k) := by
  unfold objHasKey
  simp [List.any_append]

theorem objGet_append {α : Type} (o o' : Obj α) (k : NodeId) :
    objGet (o ++ o') k =
      if objHasKey o k then objGet o k else objGet o' k := by
  induction o with
  | nil => simp [objGet, objHasKey]
  | cons p o ih =>
    rw [List.cons_append, objGet_cons, objGet_cons, objHasKey_cons]
    by_cases h : p.1 == k
    · simp [h]
    · simp only [h, Bool.false_or, if_false]
      exact ih

theorem objHasKey_iff {α : Type} (o : Obj α) (k : NodeId) :
    objHasKey o k = true ↔ (objGet o k).isSome := by
  induction o with
  | nil => simp [objHasKey, objGet]
  | cons p o ih =>
    rw [objHasKey_cons, objGet_cons]
    by_cases h : p.1 == k
    · simp [h]
    · simp only [h, Bool.false_or, if_false]
      exact ih

theorem objGet_eq_none_of_not_hasKey {α : Type} {o : Obj α} {k : NodeId}
    (h : objHasKey o k = false) : objGet o k = none := by
  rcases hg : objGet o k with _ | v
  · rfl
  · exfalso
    have := (objHasKey_iff o k).mpr (by simp [hg])
    rw [h] at this
    cases this

theorem objGet_mapUpdate {α : Type} (o : Obj α) (k : NodeId) (v : α)
    (k' : NodeId) :
    objGet (o.map (fun p => if p.1 == k then (k, v) else p)) k' =
      if k' = k then (if objHasKey o k then some v else none)
      else objGet o k' := by
  induction o with
  | nil =>
    by_cases h : k' = k <;> simp [objGet, objHasKey, h]
  | cons p o ih =>
    rw [List.map_cons]
    by_cases hp : p.1 = k
    · have hpb : (p.1 == k) = true := by simpa using hp
      rw [if_pos hpb, objGet_cons, objGet_cons, objHasKey_cons, hpb, ih]
      by_cases hk : k' = k
      · subst hk
        simp [hp]
      · have h1 : (k == k') = false := by
          simpa using fun hkk => hk hkk.symm
        have h2 : (p.1 == k') = false := by
          rw [hp]; exact h1
        simp [h1, h2, hk]
    · have hpb : (p.1 == k) = false := by simpa using hp
      rw [if_neg (by simp [hpb]), objGet_cons, objGet_cons, objHasKey_cons,
        hpb, ih]
      by_cases hk : k' = k
      · subst hk
        simp [hpb]
      · simp [hk]

theorem objGet_objSet_self {α : Type} (o : Obj α) (k : NodeId) (v : α) :
    objGet (objSet o k v) k = some v := by
  unfold objSet
  by_cases h : objHasKey o k
  · rw [if_pos h, objGet_mapUpdate, if_pos rfl, if_pos h]
  · rw [if_neg h, objGet_append]
    have h' : objHasKey o k = false := by simpa using h
    rw [h']
    simp [objGet_cons]

theorem objGet_objSet_ne {α : Type} (o : Obj α) (k k' : NodeId) (v : α)
    (h : k' ≠ k) : objGet (objSet o k v) k' = objGet o k' := by
  unfold objSet
  by_cases hk : objHasKey o k
  · rw [if_pos hk, objGet_mapUpdate, if_neg h]
  · rw [if_neg hk, objGet_append]
    by_cases hk' : objHasKey o k'
    · rw [if_pos hk']
    · rw [if_neg hk', objGet_cons]
      have hne : (k == k') = false := by
        simpa using fun hkk => h hkk.symm
      rw [hne, if_neg (by simp)]
      exact (objGet_eq_none_of_not_hasKey (by simpa using hk')).symm

theorem objKeys_mapUpdate {α : Type} (o : Obj α) (k : NodeId) (v : α) :
    objKeys (o.map (fun p => if p.1 == k then (k, v) else p)) = objKeys o := by
  unfold objKeys
  rw [List.map_map]
  apply List.map_congr_left
  intro p _
  by_cases hp : p.1 = k
  · simp [hp]
  · simp [hp]

theorem objKeys_objSet {α : Type} (o : Obj α) (k : NodeId) (v : α) :
    objKeys (objSet o k v) =
      if objHasKey o k then objKeys o else objKeys o ++ [k] := by
  unfold objSet
  by_cases h : objHasKey o k
  · rw [if_pos h, if_pos h, objKeys_mapUpdate]
  · rw [if_neg h, if_neg h]
    unfold objKeys
    simp

theorem objHasKey_objSet {α : Type} (o : Obj α) (k : NodeId) (v : α)
    (k' : NodeId) :
    objHasKey (objSet o k v) k' = (objHasKey o k' || (k' == k)) := by
  by_cases hk : k' = k
  · subst hk
    have : (objGet (objSet o k' v) k').isSome := by
      rw [objGet_objSet_self]; rfl
    have h1 := (objHasKey_iff (objSet o k' v) k').mpr this
    simp [h1]
  · have h1 : objGet (objSet o k v) k' = objGet o k' := objGet_objSet_ne o k k' v hk
    have hne : (k' == k) = false := by simpa using hk
    rw [hne, Bool.or_false]
    rcases hg : objGet o k' with _ | w
    · have ha : objHasKey o k' = false := by
        by_contra hc
        have := (objHasKey_iff o k').mp (by simpa using hc)
        rw [hg] at this
        cases this
      have hb : objHasKey (objSet o k v) k' = false := by
        by_contra hc
        have := (objHasKey_iff _ k').mp (by simpa using hc)
        rw [h1, hg] at this
        cases this
      rw [ha, hb]
    · have ha : objHasKey o k' = true := (objHasKey_iff o k').mpr (by simp [hg])
      have hb : objHasKey (objSet o k v) k' = true :=
        (objHasKey_iff _ k').mpr (by simp [h1, hg])
      rw [ha, hb]

theorem objKeys_nodup_objSet {α : Type} (o : Obj α) (k : NodeId) (v : α)
    (h : (objKeys o).Nodup) : (objKeys (objSet o k v)).Nodup := by
  rw [objKeys_objSet]
  by_cases hk : objHasKey o k
  · rw [if_pos hk]; exact h
  · rw [if_neg hk]
    rw [List.nodup_append]
    refine ⟨h, List.nodup_singleton k, ?_⟩
    intro x hx
    simp only [List.mem_singleton]
    intro hxk
    subst hxk
    rcases List.mem_map.mp (show x ∈ o.map (fun p => p.1) from hx)
      with ⟨q, hq, hqx⟩
    have hfs : (List.find? (fun p => p.1 == x) o).isSome := by
      rw [List.find?_isSome]
      exact ⟨q, hq, by simp [hqx]⟩
    have : (objGet o x).isSome := by
      unfold objGet
      rcases Option.isSome_iff_exists.mp hfs with ⟨q2, hq2⟩
      rw [hq2]
      rfl
    exact hk (by simpa using (objHasKey_iff o x).mpr this)

/-! Claim C10: the SCC engine ignores its options argument. -/

/-- C10: for every node list, edge list and any two options values, runSCC
returns identical step sequences: the engine never reads its options
argument (direction is hard-coded to directed), so the caller's start
node, end node and direction flag have no influence on its output. -/
theorem C10_scc_ignores_options (nodes : List Node) (edges : List Edge)
    (o1 o2 : Options) : runSCC nodes edges o1 = runSCC nodes edges o2 := rfl

/-! Claim C1: the normalizer's partial-update contract. -/

/-- Closed form of merging the empty step: every field is carried from the
previous state except path, which is rebuilt when the carried path is
empty. -/
theorem normalize_empty_step (s : VizState) (c : Context) :
    normalizeStepAgainstPrev {} s c =
      { s with path := if s.path.length = 0 then
          reconstructPathIfMissing s.path s.previous c.endNode s.current
        else s.path } := by
  cases s
  rfl

/-- C1 counterexample: merging the empty step against a state with an
empty path, a nonempty predecessor map and no current node rebuilds a
nonempty path (target = newest key of previous), so the merged state is
not equal to the input state. -/
theorem C1_counterexample :
    normalizeStepAgainstPrev {}
      { visited := [], queue := [], path := [], distances := [],
        sccColors := [], previous := [("A", none)], order := [],
        current := none, phase := none, finishOrderStack := [],
        foundSccs := [], showTransposed := false, discoveryTimes := [],
        finishTimes := [], finished := false, result := none } {} ≠
      { visited := [], queue := [], path := [], distances := [],
        sccColors := [], previous := [("A", none)], order := [],
        current := none, phase := none, finishOrderStack := [],
        foundSccs := [], showTransposed := false, discoveryTimes := [],
        finishTimes := [], finished := false, result := none } := by
  have h1 : buildPathFromPreviousGo [("A", none)] [] "A" [] = ["A"] := by
    unfold buildPathFromPreviousGo
    rfl
  intro h
  have h2 := congrArg VizState.path h
  have h3 : (normalizeStepAgainstPrev {}
      { visited := [], queue := [], path := [], distances := [],
        sccColors := [], previous := [("A", none)], order := [],
        current := none, phase := none, finishOrderStack := [],
        foundSccs := [], showTransposed := false, discoveryTimes := [],
        finishTimes := [], finished := false, result := none }
      ({} : Context)).path =
      (if (buildPathFromPreviousGo [("A", none)] [] "A" []).length > 0
        then buildPathFromPreviousGo [("A", none)] [] "A" [] else []) := rfl
  rw [h3, h1] at h2
  simp at h2

/-- C1 (amended): every field the step omits, other than path, is carried
into the merged state with the previous state's value; an omitted path is
carried unchanged whenever the previous path is nonempty; and merging the
empty step returns a state equal to the input whenever the input's path
is nonempty, or no reconstruction target is truthy (context endNode
falsy, state current falsy and the previous map supplying no truthy last
key).  When the carried path is empty and such a target exists, the
normalizer instead rebuilds the path from the predecessor map, so the
merge is not the identity there. -/
theorem C1_normalizer_partial_update (p : Step) (s : VizState) (c : Context) :
    (p.visited = none → (normalizeStepAgainstPrev p s c).visited = s.visited) ∧
    (p.queue = none → (normalizeStepAgainstPrev p s c).queue = s.queue) ∧
    (p.distances = none →
      (normalizeStepAgainstPrev p s c).distances = s.distances) ∧
    (p.previous = none →
      (normalizeStepAgainstPrev p s c).previous = s.previous) ∧
    (p.sccColors = none →
      (normalizeStepAgainstPrev p s c).sccColors = s.sccColors) ∧
    (p.order = none → (normalizeStepAgainstPrev p s c).order = s.order) ∧
    (p.current = none → (normalizeStepAgainstPrev p s c).current = s.current) ∧
    (p.phase = none → (normalizeStepAgainstPrev p s c).phase = s.phase) ∧
    (p.finishOrderStack = none →
      (normalizeStepAgainstPrev p s c).finishOrderStack = s.finishOrderStack) ∧
    (p.foundSccs = none →
      (normalizeStepAgainstPrev p s c).foundSccs = s.foundSccs) ∧
    (p.showTransposed = none →
      (normalizeStepAgainstPrev p s c).showTransposed = s.showTransposed) ∧
    (p.discoveryTimes = none →
      (normalizeStepAgainstPrev p s c).discoveryTimes = s.discoveryTimes) ∧
    (p.finishTimes = none →
      (normalizeStepAgainstPrev p s c).finishTimes = s.finishTimes) ∧
    (p.finished = none →
      (normalizeStepAgainstPrev p s c).finished = s.finished) ∧
    (p.result = none → (normalizeStepAgainstPrev p s c).result = s.result) ∧
    (p.path = none → s.path ≠ [] →
      (normalizeStepAgainstPrev p s c).path = s.path) ∧
    (s.path ≠ [] → normalizeStepAgainstPrev {} s c = s) ∧
    (truthyId (choosePathTarget s.previous c.endNode s.current) = false →
      normalizeStepAgainstPrev {} s c = s) := by
  refine ⟨?_, ?_, ?_, ?_, ?_, ?_, ?_, ?_, ?_, ?_, ?_, ?_, ?_, ?_, ?_, ?_,
    ?_, ?_⟩
  · intro h
    have hp : (normalizeStepAgainstPrev p s c).visited =
      normalizeVisited p.visited s.visited := rfl
    rw [hp, h]
    rfl
  · intro h
    have hp : (normalizeStepAgainstPrev p s c).queue =
      normalizeQueue p.queue s.queue := rfl
    rw [hp, h]
    rfl
  · intro h
    have hp : (normalizeStepAgainstPrev p s c).distances =
      normalizeDistances p.distances s.distances := rfl
    rw [hp, h]
    rfl
  · intro h
    have hp : (normalizeStepAgainstPrev p s c).previous =
      normalizePrevious p.previous s.previous := rfl
    rw [hp, h]
    rfl
  · intro h
    have hp : (normalizeStepAgainstPrev p s c).sccColors =
      normalizeSccColors p.sccColors s.sccColors := rfl
    rw [hp, h]
    rfl
  · intro h
    have hp : (normalizeStepAgainstPrev p s c).order =
      (match p.order with
        | some o => normalizeOrder o
        | none => s.order) := rfl
    rw [hp, h]
  · intro h
    have hp : (normalizeStepAgainstPrev p s c).current =
      (match p.current with
        | some cu => cu
        | none => s.current) := rfl
    rw [hp, h]
  · intro h
    have hp : (normalizeStepAgainstPrev p s c).phase =
      (match p.phase with
        | some ph => some ph
        | none => s.phase) := rfl
    rw [hp, h]
  · intro h
    have hp : (normalizeStepAgainstPrev p s c).finishOrderStack =
      (match p.finishOrderStack with
        | some f => f
        | none => s.finishOrderStack) := rfl
    rw [hp, h]
  · intro h
    have hp : (normalizeStepAgainstPrev p s c).foundSccs =
      (match p.foundSccs with
        | some f => f
        | none => s.foundSccs) := rfl
    rw [hp, h]
  · intro h
    have hp : (normalizeStepAgainstPrev p s c).showTransposed =
      (match p.showTransposed with
        | some b => b
        | none => s.showTransposed) := rfl
    rw [hp, h]
  · intro h
    have hp : (normalizeStepAgainstPrev p s c).discoveryTimes =
      (match p.discoveryTimes with
        | some d => d
        | none => s.discoveryTimes) := rfl
    rw [hp, h]
  · intro h
    have hp : (normalizeStepAgainstPrev p s c).finishTimes =
      (match p.finishTimes with
        | some f => f
        | none => s.finishTimes) := rfl
    rw [hp, h]
  · intro h
    have hp : (normalizeStepAgainstPrev p s c).finished =
      (match p.finished with
        | some b => b
        | none => s.finished) := rfl
    rw [hp, h]
  · intro h
    have hp : (normalizeStepAgainstPrev p s c).result =
      (match p.result with
        | some r => some r
        | none => s.result) := rfl
    rw [hp, h]
  · intro h hne
    have hp : (normalizeStepAgainstPrev p s c).path =
      (if (normalizePath p.path s.path).length = 0 then
        reconstructPathIfMissing (normalizePath p.path s.path)
          (normalizePrevious p.previous s.previous) c.endNode
          (match p.current with
            | some (some cu) => some cu
            | _ => s.current)
      else normalizePath p.path s.path) := rfl
    rw [hp, h]
    have hlen : ¬ (normalizePath none s.path).length = 0 := by
      simpa [normalizePath, List.length_eq_zero] using hne
    rw [if_neg hlen]
    rfl
  · intro hne
    rw [normalize_empty_step]
    rw [if_neg (by simpa [List.length_eq_zero] using hne)]
  · intro htar
    rw [normalize_empty_step]
    by_cases hlen : s.path.length = 0
    · rw [if_pos hlen]
      have hpath : s.path = [] := List.length_eq_zero.mp hlen
      have hrec : reconstructPathIfMissing s.path s.previous c.endNode
          s.current = [] := by
        simp [reconstructPathIfMissing, toArrayFromUnknown, hpath, htar]
      rw [hrec, ← hpath]
    · rw [if_neg hlen]

/-- C1 witness: the amended theorem applied at a state with a nonempty
path, where merging the empty step is the identity. -/
theorem C1_witness :
    normalizeStepAgainstPrev {}
      { visited := ["A", "B"], queue := [], path := ["A", "B"],
        distances := [], sccColors := [], previous := [("A", none), ("B", some "A")],
        order := [], current := some "B", phase := none, finishOrderStack := [],
        foundSccs := [], showTransposed := false, discoveryTimes := [],
        finishTimes := [], finished := false, result := none } {} =
      { visited := ["A", "B"], queue := [], path := ["A", "B"],
        distances := [], sccColors := [], previous := [("A", none), ("B", some "A")],
        order := [], current := some "B", phase := none, finishOrderStack := [],
        foundSccs := [], showTransposed := false, discoveryTimes := [],
        finishTimes := [], finished := false, result := none } :=
  (C1_normalizer_partial_update {} _ {}).2.2.2.2.2.2.2.2.2.2.2.2.2.2.2.2.1
    (by decide)

/-! Claim C8: termination of path reconstruction. -/

/-- Keys of a map are exactly the ids whose property read succeeds. -/
theorem mem_objKeys_of_objGet_some {α : Type} {o : Obj α} {k : NodeId}
    {v : α} (h : objGet o k = some v) : k ∈ objKeys o := by
  unfold objGet at h
  rcases hfind : o.find? (fun p => p.1 == k) with _ | p
  · rw [hfind] at h; cases h
  · have hpk := List.find?_some hfind
    have hmem := List.mem_of_find?_eq_some hfind
    simp only [beq_iff_eq] at hpk
    subst hpk
    exact List.mem_map_of_mem _ hmem

/-- Helper: on the two-cycle predecessor map the unguarded source walk
alternates between the two keys forever, for any fuel. -/
theorem buildPathGo_cyclic_none :
    ∀ (fuel : Nat) (cur : NodeId) (acc : List NodeId),
      cur = "A" ∨ cur = "B" →
      buildPathGo [("A", some "B"), ("B", some "A")] fuel cur acc = none := by
  intro fuel
  induction fuel with
  | zero =>
    intro cur acc _
    rfl
  | succ n ih =>
    rintro cur acc (rfl | rfl)
    · exact ih "B" _ (Or.inr rfl)
    · exact ih "A" _ (Or.inl rfl)

/-- Non-dependent unfolding equation for the guarded walk. -/
theorem buildPathFromPreviousGo_eq (previous : Obj (Option NodeId))
    (seen : List NodeId) (cur : NodeId) (path : List NodeId) :
    buildPathFromPreviousGo previous seen cur path =
      if cur ∈ seen then path
      else
        match objGet previous cur with
        | some (some nxt) =>
          buildPathFromPreviousGo previous (cur :: seen) nxt (cur :: path)
        | _ => cur :: path := by
  rw [buildPathFromPreviousGo]
  by_cases h : cur ∈ seen
  · rw [dif_pos h, if_pos h]
  · rw [dif_neg h, if_neg h]
    split
    · next nxt heq => rw [heq]
    · next heq => rw [heq]
    · next heq => rw [heq]

/-- Length bound on the guarded walk: each iteration prepends one node
and marks one fresh key as seen, so the result is bounded by the unseen
key count. -/
theorem buildPathFromPreviousGo_length_le (previous : Obj (Option NodeId))
    (seen : List NodeId) (cur : NodeId) (path : List NodeId) :
    (buildPathFromPreviousGo previous seen cur path).length ≤
      path.length +
        ((objKeys previous).filter (fun k => decide (k ∉ seen))).length + 1 := by
  induction seen, cur, path using buildPathFromPreviousGo.induct previous with
  | case1 seen cur path h =>
    rw [buildPathFromPreviousGo, dif_pos h]
    omega
  | case2 seen cur path h nxt h2 ih =>
    rw [buildPathFromPreviousGo, dif_neg h]
    rw [h2]
    have hkey : cur ∈ objKeys previous := mem_objKeys_of_objGet_some h2
    have hlt := length_filter_notMem_cons_lt (objKeys previous) seen cur hkey h
    have := ih
    simp only [List.length_cons] at this ⊢
    omega
  | case3 seen cur path h h2 =>
    rw [buildPathFromPreviousGo, dif_neg h, h2]
    simp only [List.length_cons]
    omega
  | case4 seen cur path h h2 =>
    rw [buildPathFromPreviousGo, dif_neg h, h2]
    simp only [List.length_cons]
    omega

/-- C8 counterexample: the engine-side buildPath (src/algorithms/index.js)
has no cycle guard.  On the cyclic predecessor map with A mapped to B and
B mapped to A, and target A, its loop never reaches a null/undefined
value, so the walk does not terminate: the fuel-indexed model returns no
result even after a hundred iterations (and none for any other fuel, by
buildPathGo_cyclic_none), while the guarded buildPathFromPrevious stops
at the already-seen node and returns B then A.  This falsifies the claim
that path reconstruction terminates on every predecessor map with an
already-seen guard. -/
theorem C8_counterexample :
    buildPath [("A", some "B"), ("B", some "A")] (some "A") 100 =
      none ∧
    buildPathD [("A", some "B"), ("B", some "A")] (some "A") = [] ∧
    buildPathFromPrevious [("A", some "B"), ("B", some "A")] (some "A") =
      ["B", "A"] := by
  refine ⟨?_, ?_, ?_⟩
  · show buildPathGo [("A", some "B"), ("B", some "A")] 100 "A" [] =
      none
    exact buildPathGo_cyclic_none 100 "A" [] (Or.inl rfl)
  · show (buildPath [("A", some "B"), ("B", some "A")] (some "A")
      3).getD [] = []
    have h3 : buildPath [("A", some "B"), ("B", some "A")] (some "A") 3 =
        none := by
      show buildPathGo [("A", some "B"), ("B", some "A")] 3 "A" [] = none
      exact buildPathGo_cyclic_none 3 "A" [] (Or.inl rfl)
    rw [h3]
    rfl
  · show buildPathFromPreviousGo [("A", some "B"), ("B", some "A")] []
      "A" [] = ["B", "A"]
    have h1 : objGet [(("A" : NodeId), some "B"), ("B", some "A")] "A" =
        some (some "B") := rfl
    have h2 : objGet [(("A" : NodeId), some "B"), ("B", some "A")] "B" =
        some (some "A") := rfl
    rw [buildPathFromPreviousGo_eq, if_neg (by simp), h1]
    show buildPathFromPreviousGo [("A", some "B"), ("B", some "A")] ["A"]
      "B" ["A"] = ["B", "A"]
    rw [buildPathFromPreviousGo_eq, if_neg (by simp), h2]
    show buildPathFromPreviousGo [("A", some "B"), ("B", some "A")]
      ["B", "A"] "A" ["B", "A"] = ["B", "A"]
    rw [buildPathFromPreviousGo_eq, if_pos (by simp)]

/-- C8 (amended): the normalizer's reconstructor buildPathFromPrevious is
the one with the already-seen cycle guard: it terminates on every
predecessor map and every target (its result length is bounded by the key
count plus one), and returns [] on a null/undefined target.  The
engine-side buildPath has no guard: it stops only when the chain reaches
null or undefined, hence terminates on acyclic chains (but not on cyclic
ones, see the counterexample).  Both reconstructors satisfy the two spec
examples: reconstruction over the empty map with null target gives [],
and over the map B mapped to A, A mapped to null with target B gives
[A, B]. -/
theorem C8_path_reconstruction (previous : Obj (Option NodeId)) :
    (∀ target : Option NodeId,
      (buildPathFromPrevious previous target).length ≤ previous.length + 1) ∧
    buildPathFromPrevious previous none = [] ∧
    buildPathFromPrevious [("B", some "A"), ("A", none)] (some "B") =
      ["A", "B"] ∧
    (∀ fuel : Nat, buildPath previous none fuel = some []) ∧
    buildPathD [("B", some "A"), ("A", none)] (some "B") = ["A", "B"] := by
  refine ⟨?_, rfl, ?_, fun _ => rfl, rfl⟩
  · intro target
    match target with
    | none => simp [buildPathFromPrevious]
    | some t =>
      have h := buildPathFromPreviousGo_length_le previous [] t []
      have hfle : ((objKeys previous).filter
          (fun k => decide (k ∉ ([] : List NodeId)))).length ≤
          previous.length := by
        calc ((objKeys previous).filter
            (fun k => decide (k ∉ ([] : List NodeId)))).length
            ≤ (objKeys previous).length := (List.filter_sublist _).length_le
          _ = previous.length := by simp [objKeys]
      show (buildPathFromPreviousGo previous [] t []).length ≤ _
      simp only [List.length_nil, Nat.zero_add] at h
      omega
  · show buildPathFromPreviousGo [("B", some "A"), ("A", none)] [] "B" [] =
      ["A", "B"]
    have h1 : objGet [(("B" : NodeId), some "A"), ("A", none)] "B" =
      some (some "A") := rfl
    have h2 : objGet [(("B" : NodeId), some "A"), ("A", none)] "A" =
      some none := rfl
    rw [buildPathFromPreviousGo_eq, if_neg (by simp), h1]
    show buildPathFromPreviousGo [("B", some "A"), ("A", none)] ["B"] "A"
      ["B"] = ["A", "B"]
    rw [buildPathFromPreviousGo_eq, if_neg (by simp), h2]

/-! Claim C9: dangling edges are not dropped by adjacency construction. -/

/-- C9 counterexample: with the single declared node A and the edge from
A to the undeclared id X, runBFS started at A places X in the visited set
of its final step - an engine does place an undeclared id in a step's
visited set, because adjacency construction kept the dangling edge. -/
theorem C9_counterexample :
    ((runBFS [⟨"A"⟩] [{ from_ := "A", to_ := "X" }]
      { isDirected := some true, startNode := some "A" }).getLast?.getD
        {}).visited = some ["A", "X"] := by
  rfl

/-- Membership in an adjacency entry survives adjEnsure. -/
theorem mem_adjEnsure {α : Type} (a : Obj (List α)) (k k' : NodeId) (x : α)
    (h : x ∈ (objGet a k).getD []) :
    x ∈ (objGet (adjEnsure a k') k).getD [] := by
  unfold adjEnsure
  by_cases hk : objHasKey a k'
  · rw [if_pos hk]; exact h
  · rw [if_neg hk]
    by_cases hkk : k = k'
    · subst hkk
      rw [objGet_eq_none_of_not_hasKey (by simpa using hk)] at h
      cases h
    · rw [objGet_objSet_ne a k' k _ hkk]
      exact h

/-- Membership in an adjacency entry survives adjAppend. -/
theorem mem_adjAppend {α : Type} (a : Obj (List α)) (k k' : NodeId)
    (x v : α) (h : x ∈ (objGet a k).getD []) :
    x ∈ (objGet (adjAppend a k' v) k).getD [] := by
  unfold adjAppend
  by_cases hkk : k = k'
  · subst hkk
    rw [objGet_objSet_self]
    simp only [Option.getD_some]
    exact List.mem_append_left _ h
  · rw [objGet_objSet_ne a k' k _ hkk]
    exact h

/-- adjAppend puts its value into the entry of its key. -/
theorem mem_adjAppend_self {α : Type} (a : Obj (List α)) (k : NodeId)
    (v : α) : v ∈ (objGet (adjAppend a k v) k).getD [] := by
  unfold adjAppend
  rw [objGet_objSet_self]
  simp

/-- Membership in an adjacency entry survives one whole edge step. -/
theorem mem_adjEdgeStep (isDirected : Bool) (a : Obj (List NodeId))
    (e : Edge) (k : NodeId) (x : NodeId)
    (h : x ∈ (objGet a k).getD []) :
    x ∈ (objGet (adjEdgeStep isDirected a e) k).getD [] := by
  unfold adjEdgeStep
  by_cases hd : isDirected
  · rw [if_pos hd]
    exact mem_adjAppend _ _ _ _ _ (mem_adjEnsure _ _ _ _ (mem_adjEnsure _ _ _ _ h))
  · rw [if_neg hd]
    exact mem_adjAppend _ _ _ _ _
      (mem_adjAppend _ _ _ _ _ (mem_adjEnsure _ _ _ _ (mem_adjEnsure _ _ _ _ h)))

/-- Membership in an adjacency entry survives folding any further edges. -/
theorem mem_foldl_adjEdgeStep (isDirected : Bool) (edges : List Edge)
    (a : Obj (List NodeId)) (k : NodeId) (x : NodeId)
    (h : x ∈ (objGet a k).getD []) :
    x ∈ (objGet (edges.foldl (adjEdgeStep isDirected) a) k).getD [] := by
  induction edges generalizing a with
  | nil => exact h
  | cons e es ih =>
    rw [List.foldl_cons]
    exact ih _ (mem_adjEdgeStep isDirected a e k x h)

/-- Processing an edge makes its target a member of its source's entry
(and conversely when undirected). -/
theorem mem_adjEdgeStep_self (isDirected : Bool) (a : Obj (List NodeId))
    (e : Edge) :
    e.to_ ∈ (objGet (adjEdgeStep isDirected a e) e.from_).getD [] ∧
    (isDirected = false →
      e.from_ ∈ (objGet (adjEdgeStep isDirected a e) e.to_).getD []) := by
  unfold adjEdgeStep
  constructor
  · by_cases hd : isDirected
    · rw [if_pos hd]
      exact mem_adjAppend_self _ _ _
    · rw [if_neg hd]
      exact mem_adjAppend _ _ _ _ _ (mem_adjAppend_self _ _ _)
  · intro hd
    rw [hd]
    simp only [Bool.false_eq_true, if_false]
    exact mem_adjAppend_self _ _ _

/-- C9 (amended): adjacency construction does not drop an edge whose from
or to id fails to reference a declared node: every edge, dangling or not,
contributes its target to its source's adjacency list (and its source to
its target's list when undirected), with missing entries created on the
fly; consequently an engine can carry an undeclared id into a step (the
counterexample shows runBFS visiting one). -/
theorem C9_adjacency_keeps_dangling (nodes : List Node) (edges : List Edge)
    (isDirected : Bool) (e : Edge) (he : e ∈ edges) :
    e.to_ ∈ (objGet (buildAdjacency nodes edges isDirected) e.from_).getD [] ∧
    (isDirected = false →
      e.from_ ∈ (objGet (buildAdjacency nodes edges isDirected) e.to_).getD []) := by
  rcases List.append_of_mem he with ⟨l1, l2, rfl⟩
  unfold buildAdjacency
  rw [List.foldl_append, List.foldl_cons]
  constructor
  · exact mem_foldl_adjEdgeStep isDirected l2 _ _ _
      (mem_adjEdgeStep_self isDirected _ e).1
  · intro hd
    exact mem_foldl_adjEdgeStep isDirected l2 _ _ _
      ((mem_adjEdgeStep_self isDirected _ e).2 hd)

/-- C9 witness: the amended theorem applied to the dangling edge from A
to the undeclared X. -/
theorem C9_witness :
    "X" ∈ (objGet (buildAdjacency [⟨"A"⟩] [{ from_ := "A", to_ := "X" }]
      true) "A").getD [] :=
  (C9_adjacency_keeps_dangling [⟨"A"⟩] [{ from_ := "A", to_ := "X" }] true
    { from_ := "A", to_ := "X" } (by decide)).1

/-! Claims C2 and C7: Bellman-Ford does not return on a negative cycle
whose relaxation makes the predecessor map cyclic, because the source
computes displayed paths with the unguarded buildPath. -/

/-- The two-node directed negative cycle used as failing input. -/
def negCycleNodes : List Node := [⟨"A"⟩, ⟨"B"⟩]

/-- Its edges: A to B and B to A, both with weight -1. -/
def negCycleEdges : List Edge :=
  [{ from_ := "A", to_ := "B", weight := some (-1) },
   { from_ := "B", to_ := "A", weight := some (-1) }]

/-- Options: directed, start A, no end node. -/
def negCycleOptions : Options :=
  { isDirected := some true, startNode := some "A" }

/-- C2 (code-bug evidence): on the two-node negative cycle with start A
and no end node, relaxation makes the predecessor map cyclic (the model's
final step carries previous with A mapped to B and B mapped to A, and the
path target falls back to the last updated node A), and the source's
unguarded buildPath walk over that map reaches no exit for any iteration
bound.  The real runBellmanFord therefore never returns a step array at
all on this input - in particular not one ending in a finished step - so
the every-engine-always-returns-a-finished-trace claim fails on the code.
The model result shown here is what the source would return if its path
walk were cut off. -/
theorem C2_bellman_ford_never_returns :
    ((runBellmanFord negCycleNodes negCycleEdges
        negCycleOptions).getLast?.getD {}).previous =
      some [("A", some "B"), ("B", some "A")] ∧
    (∀ fuel : Nat,
      buildPath [("A", some "B"), ("B", some "A")] (some "A") fuel = none) := by
  constructor
  · rfl
  · intro fuel
    show buildPathGo [("A", some "B"), ("B", some "A")] fuel "A" [] = none
    exact buildPathGo_cyclic_none fuel "A" [] (Or.inl rfl)

/-- C7 (code-bug evidence): on the same failing input the negative-cycle
scan does fire - the truncated model's final step carries the result
string reporting the negative cycle - but the source never delivers that
step: constructing it evaluates the unguarded buildPath over the cyclic
predecessor map with target A, which reaches no exit for any iteration
bound, so the real engine does not return. -/
theorem C7_negcycle_detected_but_unreturned :
    ((runBellmanFord negCycleNodes negCycleEdges
        negCycleOptions).getLast?.getD {}).result =
      some "Negative cycle detected" ∧
    (∀ fuel : Nat, buildPathGo [("A", some "B"), ("B", some "A")] fuel "A" []
      = none) := by
  constructor
  · rfl
  · intro fuel
    exact buildPathGo_cyclic_none fuel "A" [] (Or.inl rfl)

/-! Claim C5: the SCC buckets partition the node set.  The development
follows the two Kosaraju passes: the first pass puts every node on the
finish-order stack exactly once, the second pass assigns every stack
element to exactly one bucket. -/

/-- Number of ids of the universe U not yet visited: the termination and
fuel-sufficiency measure of all depth-first recursions. -/
def countUnvisited (U visited : List NodeId) : Nat :=
  (U.filter (fun x => decide (x ∉ visited))).length

/-- Generic strict filter-length comparison: if p implies q, and some
list element satisfies q but not p, the p-filter is strictly shorter. -/
theorem length_filter_lt_of_imp (l : List NodeId) (p q : NodeId → Bool)
    (himp : ∀ a, p a = true → q a = true) (a : NodeId) (ha : a ∈ l)
    (hqa : q a = true) (hpa : p a = false) :
    (l.filter p).length < (l.filter q).length := by
  induction l with
  | nil => cases ha
  | cons b l ih =>
    simp only [List.filter_cons]
    by_cases hb : b = a
    · subst hb
      rw [hpa, hqa]
      have : (l.filter p).length ≤ (l.filter q).length :=
        (List.monotone_filter_right l himp).length_le
      simpa using Nat.lt_succ_of_le this
    · have hmem : a ∈ l := by
        rcases List.mem_cons.mp ha with h | h
        · exact absurd h.symm hb
        · exact h
      have hlt := ih hmem
      rcases hq : q b with _ | _
      · have hp : p b = false := by
          rcases hp2 : p b with _ | _
          · rfl
          · rw [himp b hp2] at hq; cases hq
        rw [hp]
        exact hlt
      · rcases hp : p b with _ | _
        · exact Nat.lt_succ_of_lt hlt
        · simpa using hlt

/-- Visiting more nodes cannot increase the unvisited count. -/
theorem countUnvisited_mono (U : List NodeId) {visited visited' : List NodeId}
    (h : ∀ x, x ∈ visited → x ∈ visited') :
    countUnvisited U visited' ≤ countUnvisited U visited := by
  unfold countUnvisited
  refine (List.monotone_filter_right U ?_).length_le
  intro a ha
  simp only [decide_eq_true_eq] at ha ⊢
  exact fun hmem => ha (h a hmem)

/-- Newly visiting a universe element strictly decreases the count. -/
theorem countUnvisited_lt (U : List NodeId) {visited visited' : List NodeId}
    {u : NodeId} (hu : u ∈ U) (hnv : u ∉ visited) (hv : u ∈ visited')
    (h : ∀ x, x ∈ visited → x ∈ visited') :
    countUnvisited U visited' < countUnvisited U visited := by
  unfold countUnvisited
  refine length_filter_lt_of_imp U _ _ ?_ u hu ?_ ?_
  · intro a ha
    simp only [decide_eq_true_eq] at ha ⊢
    exact fun hmem => ha (h a hmem)
  · simpa using hnv
  · simpa using hv

/-- Membership after a set add. -/
theorem mem_setAdd (s : List NodeId) (y x : NodeId) :
    x ∈ setAdd s y ↔ x ∈ s ∨ x = y := by
  unfold setAdd
  by_cases h : y ∈ s
  · rw [if_pos h]
    constructor
    · exact Or.inl
    · rintro (hx | rfl)
      · exact hx
      · exact h
  · rw [if_neg h]
    simp [List.mem_append]

/-- A set add keeps previous members. -/
theorem subset_setAdd (s : List NodeId) (y : NodeId) :
    ∀ x, x ∈ s → x ∈ setAdd s y := by
  intro x hx
  exact (mem_setAdd s y x).mpr (Or.inl hx)

/-- The added element is a member. -/
theorem self_mem_setAdd (s : List NodeId) (y : NodeId) : y ∈ setAdd s y :=
  (mem_setAdd s y y).mpr (Or.inr rfl)

/-- Invariant-carrying postcondition of a first-pass DFS fragment: the
visited set grows within the universe U, the finish-order stack stays a
duplicate-free list of visited nodes, and the stack gains exactly the
newly visited nodes. -/
def Scc1Fold (U : List NodeId) (t t' : Scc1State) : Prop :=
  (∀ x, x ∈ t.visited → x ∈ t'.visited) ∧
  (∀ x, x ∈ t'.visited → x ∈ U) ∧
  (∀ x, x ∈ t'.finishOrderStack → x ∈ t'.visited) ∧
  t'.finishOrderStack.Nodup ∧
  (∀ x, x ∈ t'.finishOrderStack ↔
    x ∈ t.finishOrderStack ∨ (x ∈ t'.visited ∧ x ∉ t.visited))

theorem Scc1Fold.rfl {U : List NodeId} {t : Scc1State}
    (hU : ∀ x, x ∈ t.visited → x ∈ U)
    (hstack : ∀ x, x ∈ t.finishOrderStack → x ∈ t.visited)
    (hnodup : t.finishOrderStack.Nodup) : Scc1Fold U t t := by
  refine ⟨fun x hx => hx, hU, hstack, hnodup, ?_⟩
  intro x
  constructor
  · exact Or.inl
  · rintro (hx | ⟨hv, hnv⟩)
    · exact hx
    · exact absurd hv hnv

theorem scc1Fold_trans {U : List NodeId} {a b c : Scc1State}
    (h1 : Scc1Fold U a b) (h2 : Scc1Fold U b c) : Scc1Fold U a c := by
  obtain ⟨m1, u1, s1, n1, i1⟩ := h1
  obtain ⟨m2, u2, s2, n2, i2⟩ := h2
  refine ⟨fun x hx => m2 x (m1 x hx), u2, s2, n2, ?_⟩
  intro x
  rw [i2, i1]
  constructor
  · rintro ((hx | ⟨hv, hnv⟩) | ⟨hv, hnv⟩)
    · exact Or.inl hx
    · exact Or.inr ⟨m2 x hv, hnv⟩
    · exact Or.inr ⟨hv, fun hmem => hnv (m1 x hmem)⟩
  · rintro (hx | ⟨hv, hnv⟩)
    · exact Or.inl (Or.inl hx)
    · by_cases hb : x ∈ b.visited
      · exact Or.inl (Or.inr ⟨hb, hnv⟩)
      · exact Or.inr ⟨hv, hb⟩

/-- Core first-pass lemma: with fuel exceeding the unvisited count, dfs1
visits u, preserves the stack invariants and grows the stack by exactly
the newly visited nodes. -/
theorem sccDfs1_spec (adj : Obj (List NodeId)) (U : List NodeId)
    (hadj : ∀ k x, x ∈ (objGet adj k).getD [] → x ∈ U) :
    ∀ (fuel : Nat) (u : NodeId) (s : Scc1State),
      u ∈ U → u ∉ s.visited →
      (∀ x, x ∈ s.visited → x ∈ U) →
      (∀ x, x ∈ s.finishOrderStack → x ∈ s.visited) →
      s.finishOrderStack.Nodup →
      countUnvisited U s.visited < fuel →
      Scc1Fold U s (sccDfs1 adj fuel u s) ∧
        u ∈ (sccDfs1 adj fuel u s).visited := by
  intro fuel
  induction fuel with
  | zero =>
    intro u s _ _ _ _ _ hcount
    exact absurd hcount (Nat.not_lt_zero _)
  | succ m ih =>
    intro u s hu hnv hvU hstack hnodup hcount
    -- the state after the entry block
    set t0 := sccDfs1Entry u s with ht0
    have ht0v : t0.visited = setAdd s.visited u := rfl
    have ht0s : t0.finishOrderStack = s.finishOrderStack := rfl
    have ht0vU : ∀ x, x ∈ t0.visited → x ∈ U := by
      intro x hx
      rw [ht0v] at hx
      rcases (mem_setAdd _ _ _).mp hx with hx | rfl
      · exact hvU x hx
      · exact hu
    have ht0stack : ∀ x, x ∈ t0.finishOrderStack → x ∈ t0.visited := by
      intro x hx
      rw [ht0s] at hx
      rw [ht0v]
      exact subset_setAdd _ _ x (hstack x hx)
    have ht0nodup : t0.finishOrderStack.Nodup := by
      rw [ht0s]; exact hnodup
    have ht0count : countUnvisited U t0.visited < m := by
      have hlt : countUnvisited U t0.visited < countUnvisited U s.visited := by
        refine countUnvisited_lt U hu hnv ?_ ?_
        · rw [ht0v]; exact self_mem_setAdd _ _
        · rw [ht0v]; exact subset_setAdd _ _
      omega
    -- the neighbor fold preserves the invariants
    have hfold : ∀ (nbrs : List NodeId) (t : Scc1State),
        (∀ x, x ∈ nbrs → x ∈ U) →
        (∀ x, x ∈ t.visited → x ∈ U) →
        (∀ x, x ∈ t.finishOrderStack → x ∈ t.visited) →
        t.finishOrderStack.Nodup →
        countUnvisited U t.visited < m →
        Scc1Fold U t (nbrs.foldl
          (fun t v => if v ∈ t.visited then t else sccDfs1 adj m v t) t) := by
      intro nbrs
      induction nbrs with
      | nil =>
        intro t _ hU hst hnd _
        exact Scc1Fold.rfl hU hst hnd
      | cons v vs ihv =>
        intro t hns hU hst hnd hcnt
        rw [List.foldl_cons]
        by_cases hv : v ∈ t.visited
        · rw [if_pos hv]
          exact ihv t (fun x hx => hns x (List.mem_cons_of_mem _ hx)) hU hst
            hnd hcnt
        · rw [if_neg hv]
          have hvU2 : v ∈ U := hns v (List.mem_cons_self _ _)
          obtain ⟨hf1, hmem1⟩ := ih v t hvU2 hv hU hst hnd hcnt
          have hcnt1 : countUnvisited U (sccDfs1 adj m v t).visited < m :=
            Nat.lt_of_le_of_lt (countUnvisited_mono U hf1.1) hcnt
          have hrest := ihv (sccDfs1 adj m v t)
            (fun x hx => hns x (List.mem_cons_of_mem _ hx)) hf1.2.1
            hf1.2.2.1 hf1.2.2.2.1 hcnt1
          exact scc1Fold_trans hf1 hrest
    have hF := hfold ((objGet adj u).getD []) t0 (fun x hx => hadj u x hx)
      ht0vU ht0stack ht0nodup ht0count
    -- name the state after the fold
    set t1 := ((objGet adj u).getD []).foldl
      (fun t v => if v ∈ t.visited then t else sccDfs1 adj m v t) t0 with ht1
    have hshow : sccDfs1 adj (m+1) u s = sccDfs1Exit u t1 := rfl
    rw [hshow]
    have hexv : (sccDfs1Exit u t1).visited = t1.visited := rfl
    have hexs : (sccDfs1Exit u t1).finishOrderStack =
      t1.finishOrderStack ++ [u] := rfl
    have humem : u ∈ t1.visited := hF.1 u (by
      rw [ht0v]; exact self_mem_setAdd _ _)
    have hunotstack : u ∉ t1.finishOrderStack := by
      intro hmem
      rcases (hF.2.2.2.2 u).mp hmem with hx | ⟨_, hnv2⟩
      · rw [ht0s] at hx
        exact hnv (hstack u hx)
      · exact hnv2 (by rw [ht0v]; exact self_mem_setAdd _ _)
    refine ⟨⟨?_, ?_, ?_, ?_, ?_⟩, ?_⟩
    · intro x hx
      rw [hexv]
      exact hF.1 x (by rw [ht0v]; exact subset_setAdd _ _ x hx)
    · intro x hx
      rw [hexv] at hx
      exact hF.2.1 x hx
    · intro x hx
      rw [hexs] at hx
      rw [hexv]
      rcases List.mem_append.mp hx with hx | hx
      · exact hF.2.2.1 x hx
      · rw [List.mem_singleton.mp hx]
        exact humem
    · rw [hexs]
      rw [List.nodup_append]
      exact ⟨hF.2.2.2.1, List.nodup_singleton u, by
        intro x hx
        simp only [List.mem_singleton]
        intro hxu
        subst hxu
        exact hunotstack hx⟩
    · intro x
      rw [hexs, hexv, List.mem_append, List.mem_singleton]
      rw [hF.2.2.2.2 x, ht0s, ht0v]
      constructor
      · rintro ((hx | ⟨hv1, hnv1⟩) | rfl)
        · exact Or.inl hx
        · refine Or.inr ⟨hv1, fun hmem => hnv1 (subset_setAdd _ _ x hmem)⟩
        · exact Or.inr ⟨humem, hnv⟩
      · rintro (hx | ⟨hv1, hnv1⟩)
        · exact Or.inl (Or.inl hx)
        · by_cases hxu : x = u
          · exact Or.inr hxu
          · refine Or.inl (Or.inr ⟨hv1, fun hmem => ?_⟩)
            rcases (mem_setAdd _ _ _).mp hmem with hx2 | hx2
            · exact hnv1 hx2
            · exact hxu hx2
    · rw [hexv]
      exact humem

/-- Values added to an entry by adjEnsure come from the old entry. -/
theorem mem_objGet_adjEnsure {α : Type} (a : Obj (List α)) (k' k : NodeId)
    (x : α) (h : x ∈ (objGet (adjEnsure a k') k).getD []) :
    x ∈ (objGet a k).getD [] := by
  unfold adjEnsure at h
  by_cases hk : objHasKey a k'
  · rwa [if_pos hk] at h
  · rw [if_neg hk] at h
    by_cases hkk : k = k'
    · subst hkk
      rw [objGet_objSet_self] at h
      cases h
    · rwa [objGet_objSet_ne a k' k _ hkk] at h

/-- Values in an entry after adjAppend: the old values or the new one. -/
theorem mem_objGet_adjAppend {α : Type} (a : Obj (List α)) (k' : NodeId)
    (v : α) (k : NodeId) (x : α)
    (h : x ∈ (objGet (adjAppend a k' v) k).getD []) :
    x ∈ (objGet a k).getD [] ∨ x = v := by
  unfold adjAppend at h
  by_cases hkk : k = k'
  · subst hkk
    rw [objGet_objSet_self] at h
    simp only [Option.getD_some] at h
    rcases List.mem_append.mp h with h | h
    · exact Or.inl h
    · exact Or.inr (List.mem_singleton.mp h)
  · rw [objGet_objSet_ne a k' k _ hkk] at h
    exact Or.inl h

/-- Values in an entry after one edge step: the old values or the edge's
endpoints. -/
theorem mem_objGet_adjEdgeStep (d : Bool) (a : Obj (List NodeId)) (e : Edge)
    (k x : NodeId) (h : x ∈ (objGet (adjEdgeStep d a e) k).getD []) :
    x ∈ (objGet a k).getD [] ∨ x = e.to_ ∨ x = e.from_ := by
  unfold adjEdgeStep at h
  by_cases hd : d
  · rw [if_pos hd] at h
    rcases mem_objGet_adjAppend _ _ _ _ _ h with h | h
    · exact Or.inl (mem_objGet_adjEnsure _ _ _ _
        (mem_objGet_adjEnsure _ _ _ _ h))
    · exact Or.inr (Or.inl h)
  · rw [if_neg hd] at h
    rcases mem_objGet_adjAppend _ _ _ _ _ h with h | h
    · rcases mem_objGet_adjAppend _ _ _ _ _ h with h | h
      · exact Or.inl (mem_objGet_adjEnsure _ _ _ _
          (mem_objGet_adjEnsure _ _ _ _ h))
      · exact Or.inr (Or.inl h)
    · exact Or.inr (Or.inr h)

/-- Values in an entry after folding edges: the old ones or endpoints of
some processed edge. -/
theorem mem_objGet_foldl_adjEdgeStep (d : Bool) (edges : List Edge)
    (a : Obj (List NodeId)) (k x : NodeId)
    (h : x ∈ (objGet (edges.foldl (adjEdgeStep d) a) k).getD []) :
    x ∈ (objGet a k).getD [] ∨ ∃ e, e ∈ edges ∧ (x = e.to_ ∨ x = e.from_) := by
  induction edges generalizing a with
  | nil => exact Or.inl h
  | cons e es ih =>
    rw [List.foldl_cons] at h
    rcases ih _ h with h2 | ⟨e2, he2, hx⟩
    · rcases mem_objGet_adjEdgeStep d a e k x h2 with h3 | h3
      · exact Or.inl h3
      · exact Or.inr ⟨e, List.mem_cons_self _ _, h3⟩
    · exact Or.inr ⟨e2, List.mem_cons_of_mem _ he2, hx⟩

/-- The node-initialization fold leaves every entry empty. -/
theorem objGet_foldl_init_nil {α : Type} (ns : List Node) :
    ∀ (a : Obj (List α)), (∀ k, (objGet a k).getD [] = []) →
      ∀ k, (objGet (ns.foldl (fun a n => objSet a n.id ([] : List α)) a) k).getD []
        = [] := by
  induction ns with
  | nil =>
    intro a ha k
    exact ha k
  | cons n ns ih =>
    intro a ha k
    rw [List.foldl_cons]
    refine ih _ ?_ k
    intro k2
    by_cases hk : k2 = n.id
    · subst hk
      rw [objGet_objSet_self]
      rfl
    · rw [objGet_objSet_ne _ _ _ _ hk]
      exact ha k2

/-- With declared edges, all adjacency values are declared node ids. -/
theorem buildAdjacency_values (nodes : List Node) (edges : List Edge)
    (isDirected : Bool)
    (hdecl : ∀ e, e ∈ edges → e.from_ ∈ nodes.map Node.id ∧
      e.to_ ∈ nodes.map Node.id) :
    ∀ k x, x ∈ (objGet (buildAdjacency nodes edges isDirected) k).getD [] →
      x ∈ nodes.map Node.id := by
  intro k x h
  unfold buildAdjacency at h
  rcases mem_objGet_foldl_adjEdgeStep isDirected edges _ k x h with h2 | ⟨e, he, hx⟩
  · rw [objGet_foldl_init_nil nodes ([] : Obj (List NodeId)) (fun _ => rfl) k] at h2
    cases h2
  · rcases hx with rfl | rfl
    · exact (hdecl e he).2
    · exact (hdecl e he).1

/-- One step of the transposed-adjacency fold: values are the old ones or
the edge source. -/
theorem mem_objGet_adjTStep (a : Obj (List NodeId)) (e : Edge) (k x : NodeId)
    (h : x ∈ (objGet (adjAppend (adjEnsure a e.to_) e.to_ e.from_) k).getD []) :
    x ∈ (objGet a k).getD [] ∨ x = e.from_ := by
  rcases mem_objGet_adjAppend _ _ _ _ _ h with h | h
  · exact Or.inl (mem_objGet_adjEnsure _ _ _ _ h)
  · exact Or.inr h

/-- With declared edges, all transposed-adjacency values are declared. -/
theorem sccAdjT_values (nodes : List Node) (edges : List Edge)
    (hdecl : ∀ e, e ∈ edges → e.from_ ∈ nodes.map Node.id ∧
      e.to_ ∈ nodes.map Node.id) :
    ∀ k x, x ∈ (objGet (edges.foldl
      (fun a e => adjAppend (adjEnsure a e.to_) e.to_ e.from_)
      (nodes.foldl (fun a nn => objSet a nn.id []) ([] : Obj (List NodeId))))
        k).getD [] →
      x ∈ nodes.map Node.id := by
  have hfold : ∀ (es : List Edge) (a : Obj (List NodeId)) (k x : NodeId),
      x ∈ (objGet (es.foldl
        (fun a e => adjAppend (adjEnsure a e.to_) e.to_ e.from_) a) k).getD [] →
      x ∈ (objGet a k).getD [] ∨ ∃ e, e ∈ es ∧ x = e.from_ := by
    intro es
    induction es with
    | nil =>
      intro a k x h
      exact Or.inl h
    | cons e es ih =>
      intro a k x h
      rw [List.foldl_cons] at h
      rcases ih _ k x h with h2 | ⟨e2, he2, hx⟩
      · rcases mem_objGet_adjTStep a e k x h2 with h3 | h3
        · exact Or.inl h3
        · exact Or.inr ⟨e, List.mem_cons_self _ _, h3⟩
      · exact Or.inr ⟨e2, List.mem_cons_of_mem _ he2, hx⟩
  intro k x h
  rcases hfold edges _ k x h with h2 | ⟨e, he, rfl⟩
  · rw [objGet_foldl_init_nil nodes ([] : Obj (List NodeId)) (fun _ => rfl) k] at h2
    cases h2
  · exact (hdecl e he).1

/-- Postcondition of a second-pass DFS fragment: visited grows within U,
the in-progress bucket is a duplicate-free list of visited nodes gaining
exactly the newly visited ones, and the committed buckets and color index
are untouched. -/
def Scc2Fold (U : List NodeId) (t t' : Scc2State) : Prop :=
  (∀ x, x ∈ t.visited → x ∈ t'.visited) ∧
  (∀ x, x ∈ t'.visited → x ∈ U) ∧
  (∀ x, x ∈ t'.bucket → x ∈ t'.visited) ∧
  t'.bucket.Nodup ∧
  (∀ x, x ∈ t'.bucket ↔ x ∈ t.bucket ∨ (x ∈ t'.visited ∧ x ∉ t.visited)) ∧
  t'.foundSccs = t.foundSccs ∧
  t'.sccIndex = t.sccIndex

theorem Scc2Fold.refl {U : List NodeId} {t : Scc2State}
    (hU : ∀ x, x ∈ t.visited → x ∈ U)
    (hb : ∀ x, x ∈ t.bucket → x ∈ t.visited)
    (hnodup : t.bucket.Nodup) : Scc2Fold U t t := by
  refine ⟨fun x hx => hx, hU, hb, hnodup, ?_, Eq.refl _, Eq.refl _⟩
  intro x
  constructor
  · exact Or.inl
  · rintro (hx | ⟨hv, hnv⟩)
    · exact hx
    · exact absurd hv hnv

theorem scc2Fold_trans {U : List NodeId} {a b c : Scc2State}
    (h1 : Scc2Fold U a b) (h2 : Scc2Fold U b c) : Scc2Fold U a c := by
  obtain ⟨m1, u1, s1, n1, i1, f1, x1⟩ := h1
  obtain ⟨m2, u2, s2, n2, i2, f2, x2⟩ := h2
  refine ⟨fun x hx => m2 x (m1 x hx), u2, s2, n2, ?_, f2.trans f1,
    x2.trans x1⟩
  intro x
  rw [i2, i1]
  constructor
  · rintro ((hx | ⟨hv, hnv⟩) | ⟨hv, hnv⟩)
    · exact Or.inl hx
    · exact Or.inr ⟨m2 x hv, hnv⟩
    · exact Or.inr ⟨hv, fun hmem => hnv (m1 x hmem)⟩
  · rintro (hx | ⟨hv, hnv⟩)
    · exact Or.inl (Or.inl hx)
    · by_cases hb2 : x ∈ b.visited
      · exact Or.inl (Or.inr ⟨hb2, hnv⟩)
      · exact Or.inr ⟨hv, hb2⟩

/-- Core second-pass lemma: with fuel exceeding the unvisited count, dfs2
visits u and grows the current bucket by exactly the newly visited nodes,
leaving committed buckets untouched. -/
theorem sccDfs2_spec (adjT : Obj (List NodeId)) (vizStack U : List NodeId)
    (hadjT : ∀ k x, x ∈ (objGet adjT k).getD [] → x ∈ U) :
    ∀ (fuel : Nat) (u : NodeId) (s : Scc2State),
      u ∈ U → u ∉ s.visited →
      (∀ x, x ∈ s.visited → x ∈ U) →
      (∀ x, x ∈ s.bucket → x ∈ s.visited) →
      s.bucket.Nodup →
      countUnvisited U s.visited < fuel →
      Scc2Fold U s (sccDfs2 adjT vizStack fuel u s) ∧
        u ∈ (sccDfs2 adjT vizStack fuel u s).visited := by
  intro fuel
  induction fuel with
  | zero =>
    intro u s _ _ _ _ _ hcount
    exact absurd hcount (Nat.not_lt_zero _)
  | succ m ih =>
    intro u s hu hnv hvU hbucket hnodup hcount
    set t0 := sccDfs2Entry vizStack u s with ht0
    have ht0v : t0.visited = setAdd s.visited u := rfl
    have ht0b : t0.bucket = s.bucket ++ [u] := rfl
    have ht0f : t0.foundSccs = s.foundSccs := rfl
    have ht0x : t0.sccIndex = s.sccIndex := rfl
    have hunotb : u ∉ s.bucket := fun hmem => hnv (hbucket u hmem)
    have hentry : Scc2Fold U s t0 := by
      refine ⟨?_, ?_, ?_, ?_, ?_, ht0f, ht0x⟩
      · intro x hx
        rw [ht0v]
        exact subset_setAdd _ _ x hx
      · intro x hx
        rw [ht0v] at hx
        rcases (mem_setAdd _ _ _).mp hx with hx | rfl
        · exact hvU x hx
        · exact hu
      · intro x hx
        rw [ht0b] at hx
        rw [ht0v]
        rcases List.mem_append.mp hx with hx | hx
        · exact subset_setAdd _ _ x (hbucket x hx)
        · rw [List.mem_singleton.mp hx]
          exact self_mem_setAdd _ _
      · rw [ht0b, List.nodup_append]
        exact ⟨hnodup, List.nodup_singleton u, by
          intro x hx
          simp only [List.mem_singleton]
          intro hxu
          subst hxu
          exact hunotb hx⟩
      · intro x
        rw [ht0b, ht0v, List.mem_append, List.mem_singleton]
        constructor
        · rintro (hx | rfl)
          · exact Or.inl hx
          · exact Or.inr ⟨self_mem_setAdd _ _, hnv⟩
        · rintro (hx | ⟨hv, hnv2⟩)
          · exact Or.inl hx
          · rcases (mem_setAdd _ _ _).mp hv with hx2 | hx2
            · exact absurd hx2 hnv2
            · exact Or.inr hx2
    have ht0count : countUnvisited U t0.visited < m := by
      have hlt : countUnvisited U t0.visited < countUnvisited U s.visited := by
        refine countUnvisited_lt U hu hnv ?_ ?_
        · rw [ht0v]; exact self_mem_setAdd _ _
        · rw [ht0v]; exact subset_setAdd _ _
      omega
    have hfold : ∀ (nbrs : List NodeId) (t : Scc2State),
        (∀ x, x ∈ nbrs → x ∈ U) →
        (∀ x, x ∈ t.visited → x ∈ U) →
        (∀ x, x ∈ t.bucket → x ∈ t.visited) →
        t.bucket.Nodup →
        countUnvisited U t.visited < m →
        Scc2Fold U t (nbrs.foldl
          (fun t v => if v ∈ t.visited then t
            else sccDfs2 adjT vizStack m v t) t) := by
      intro nbrs
      induction nbrs with
      | nil =>
        intro t _ hU hb hnd _
        exact Scc2Fold.refl hU hb hnd
      | cons v vs ihv =>
        intro t hns hU hb hnd hcnt
        rw [List.foldl_cons]
        by_cases hv : v ∈ t.visited
        · rw [if_pos hv]
          exact ihv t (fun x hx => hns x (List.mem_cons_of_mem _ hx)) hU hb
            hnd hcnt
        · rw [if_neg hv]
          have hvU2 : v ∈ U := hns v (List.mem_cons_self _ _)
          obtain ⟨hf1, _⟩ := ih v t hvU2 hv hU hb hnd hcnt
          have hcnt1 : countUnvisited U
              (sccDfs2 adjT vizStack m v t).visited < m :=
            Nat.lt_of_le_of_lt (countUnvisited_mono U hf1.1) hcnt
          exact scc2Fold_trans hf1 (ihv _
            (fun x hx => hns x (List.mem_cons_of_mem _ hx)) hf1.2.1
            hf1.2.2.1 hf1.2.2.2.1 hcnt1)
    have hF := hfold ((objGet adjT u).getD []) t0 (fun x hx => hadjT u x hx)
      hentry.2.1 hentry.2.2.1 hentry.2.2.2.1 ht0count
    set t1 := ((objGet adjT u).getD []).foldl
      (fun t v => if v ∈ t.visited then t else sccDfs2 adjT vizStack m v t)
      t0 with ht1
    have hshow : sccDfs2 adjT vizStack (m+1) u s = sccDfs2Exit u t1 := rfl
    rw [hshow]
    have hexv : (sccDfs2Exit u t1).visited = t1.visited := rfl
    have hexb : (sccDfs2Exit u t1).bucket = t1.bucket := rfl
    have hexf : (sccDfs2Exit u t1).foundSccs = t1.foundSccs := rfl
    have hexx : (sccDfs2Exit u t1).sccIndex = t1.sccIndex := rfl
    have hpost : Scc2Fold U t1 (sccDfs2Exit u t1) := by
      refine ⟨?_, ?_, ?_, ?_, ?_, hexf, hexx⟩
      · intro x hx; rwa [hexv]
      · intro x hx; rw [hexv] at hx; exact hF.2.1 x hx
      · intro x hx; rw [hexb] at hx; rw [hexv]; exact hF.2.2.1 x hx
      · rw [hexb]; exact hF.2.2.2.1
      · intro x
        rw [hexb, hexv]
        constructor
        · exact Or.inl
        · rintro (hx | ⟨hv, hnv2⟩)
          · exact hx
          · exact absurd hv hnv2
    refine ⟨scc2Fold_trans (scc2Fold_trans hentry hF) hpost, ?_⟩
    rw [hexv]
    exact hF.1 u (by rw [ht0v]; exact self_mem_setAdd _ _)

/-- The unvisited count never exceeds the universe size. -/
theorem countUnvisited_le_length (U visited : List NodeId) :
    countUnvisited U visited ≤ U.length := by
  unfold countUnvisited
  exact (List.filter_sublist _).length_le

/-- Second-pass loop lemma: popping the whole stack leaves every popped
id visited, and maintains that the committed buckets' concatenation is a
duplicate-free enumeration of exactly the visited set. -/
theorem sccPhase2Go_spec (adjT : Obj (List NodeId)) (U : List NodeId)
    (hadjT : ∀ k x, x ∈ (objGet adjT k).getD [] → x ∈ U) (fuel : Nat)
    (hfuel : U.length < fuel) :
    ∀ (revStack : List NodeId) (s : Scc2State),
      (∀ x, x ∈ revStack → x ∈ U) →
      (∀ x, x ∈ s.visited → x ∈ U) →
      s.foundSccs.flatten.Nodup →
      (∀ x, x ∈ s.foundSccs.flatten ↔ x ∈ s.visited) →
      (∀ x, x ∈ s.visited →
        x ∈ (sccPhase2Go adjT fuel revStack s).visited) ∧
      (∀ x, x ∈ (sccPhase2Go adjT fuel revStack s).visited → x ∈ U) ∧
      (sccPhase2Go adjT fuel revStack s).foundSccs.flatten.Nodup ∧
      (∀ x, x ∈ (sccPhase2Go adjT fuel revStack s).foundSccs.flatten ↔
        x ∈ (sccPhase2Go adjT fuel revStack s).visited) ∧
      (∀ x, x ∈ revStack → x ∈ (sccPhase2Go adjT fuel revStack s).visited) := by
  intro revStack
  induction revStack with
  | nil =>
    intro s _ hU hnd hiff
    refine ⟨fun x hx => hx, hU, hnd, hiff, ?_⟩
    intro x hx
    cases hx
  | cons u rest ih =>
    intro s hrs hU hnd hiff
    show _ ∧ _
    rw [sccPhase2Go]
    by_cases hv : u ∈ s.visited
    · rw [if_pos hv]
      obtain ⟨hm, hsU, hsnd, hsiff, hall⟩ := ih s
        (fun x hx => hrs x (List.mem_cons_of_mem _ hx)) hU hnd hiff
      refine ⟨hm, hsU, hsnd, hsiff, ?_⟩
      intro x hx
      rcases List.mem_cons.mp hx with rfl | hx
      · exact hm x hv
      · exact hall x hx
    · rw [if_neg hv]
      set s1 : Scc2State := { s with bucket := [] } with hs1
      have hs1v : s1.visited = s.visited := rfl
      have hs1f : s1.foundSccs = s.foundSccs := rfl
      have hcnt : countUnvisited U s1.visited < fuel :=
        Nat.lt_of_le_of_lt (countUnvisited_le_length U _) hfuel
      obtain ⟨hF, humem⟩ := sccDfs2_spec adjT rest.reverse U hadjT fuel u s1
        (hrs u (List.mem_cons_self _ _)) (by rw [hs1v]; exact hv)
        (by rw [hs1v]; exact hU) (by intro x hx; cases hx)
        List.nodup_nil hcnt
      set s2 := sccDfs2 adjT rest.reverse fuel u s1 with hs2
      set s3 : Scc2State := { s2 with
        foundSccs := s2.foundSccs ++ [s2.bucket]
        bucket := []
        sccIndex := s2.sccIndex + 1 } with hs3
      have hs3v : s3.visited = s2.visited := rfl
      have hs3j : s3.foundSccs.flatten = s.foundSccs.flatten ++ s2.bucket := by
        show (s2.foundSccs ++ [s2.bucket]).flatten = _
        rw [List.flatten_append, hF.2.2.2.2.2.1, hs1f]
        simp
      have hbk : ∀ x, x ∈ s2.bucket ↔ x ∈ s2.visited ∧ x ∉ s.visited := by
        intro x
        rw [hF.2.2.2.2.1 x]
        constructor
        · rintro (hx | hx)
          · cases hx
          · rwa [hs1v] at hx
        · intro hx
          rw [hs1v]
          exact Or.inr hx
      have hs3U : ∀ x, x ∈ s3.visited → x ∈ U := by
        intro x hx
        rw [hs3v] at hx
        exact hF.2.1 x hx
      have hs3nd : s3.foundSccs.flatten.Nodup := by
        rw [hs3j, List.nodup_append]
        refine ⟨hnd, hF.2.2.2.1, ?_⟩
        intro x hx
        intro hxb
        have := (hbk x).mp hxb
        exact this.2 ((hiff x).mp hx)
      have hs3iff : ∀ x, x ∈ s3.foundSccs.flatten ↔ x ∈ s3.visited := by
        intro x
        rw [hs3j, hs3v, List.mem_append, hiff x, hbk x]
        constructor
        · rintro (hx | ⟨hv2, _⟩)
          · exact hF.1 x (by rw [hs1v]; exact hx)
          · exact hv2
        · intro hx
          by_cases hxs : x ∈ s.visited
          · exact Or.inl hxs
          · exact Or.inr ⟨hx, hxs⟩
      obtain ⟨hm, hfU, hfnd, hfiff, hall⟩ := ih s3
        (fun x hx => hrs x (List.mem_cons_of_mem _ hx)) hs3U hs3nd hs3iff
      refine ⟨?_, hfU, hfnd, hfiff, ?_⟩
      · intro x hx
        refine hm x ?_
        rw [hs3v]
        exact hF.1 x (by rw [hs1v]; exact hx)
      · intro x hx
        rcases List.mem_cons.mp hx with rfl | hx
        · exact hm x (by rw [hs3v]; exact humem)
        · exact hall x hx

/-- First-pass driver lemma: folding dfs1 over the node list visits every
node and leaves the stack a duplicate-free enumeration of the visited
set (relative to the invariants of the start state). -/
theorem sccPass1_spec (adj : Obj (List NodeId)) (U : List NodeId)
    (hadj : ∀ k x, x ∈ (objGet adj k).getD [] → x ∈ U) (fuel : Nat)
    (hfuel : U.length < fuel) :
    ∀ (ns : List Node) (s : Scc1State),
      (∀ n, n ∈ ns → n.id ∈ U) →
      (∀ x, x ∈ s.visited → x ∈ U) →
      (∀ x, x ∈ s.finishOrderStack → x ∈ s.visited) →
      s.finishOrderStack.Nodup →
      Scc1Fold U s (ns.foldl (fun s nn =>
        if nn.id ∈ s.visited then s else sccDfs1 adj fuel nn.id s) s) ∧
      (∀ n, n ∈ ns → n.id ∈ (ns.foldl (fun s nn =>
        if nn.id ∈ s.visited then s else sccDfs1 adj fuel nn.id s) s).visited) := by
  intro ns
  induction ns with
  | nil =>
    intro s _ hU hst hnd
    exact ⟨Scc1Fold.rfl hU hst hnd, fun n hn => absurd hn (List.not_mem_nil _)⟩
  | cons n ns ih =>
    intro s hns hU hst hnd
    rw [List.foldl_cons]
    by_cases hv : n.id ∈ s.visited
    · rw [if_pos hv]
      obtain ⟨hF, hall⟩ := ih s (fun n2 hn2 => hns n2 (List.mem_cons_of_mem _ hn2))
        hU hst hnd
      refine ⟨hF, ?_⟩
      intro n2 hn2
      rcases List.mem_cons.mp hn2 with rfl | hn2
      · exact hF.1 _ hv
      · exact hall n2 hn2
    · rw [if_neg hv]
      have hcnt : countUnvisited U s.visited < fuel :=
        Nat.lt_of_le_of_lt (countUnvisited_le_length U _) hfuel
      obtain ⟨hF1, hmem1⟩ := sccDfs1_spec adj U hadj fuel n.id s
        (hns n (List.mem_cons_self _ _)) hv hU hst hnd hcnt
      obtain ⟨hF2, hall⟩ := ih (sccDfs1 adj fuel n.id s)
        (fun n2 hn2 => hns n2 (List.mem_cons_of_mem _ hn2)) hF1.2.1
        hF1.2.2.1 hF1.2.2.2.1
      refine ⟨scc1Fold_trans hF1 hF2, ?_⟩
      intro n2 hn2
      rcases List.mem_cons.mp hn2 with rfl | hn2
      · exact hF2.1 _ hmem1
      · exact hall n2 hn2

/-- C5: for every graph whose edges reference declared node ids, the
buckets carried by the final step of runSCC partition the node set: their
concatenation is duplicate-free and contains exactly the declared ids;
and on the directed 3-cycle A to B to C to A exactly one bucket is
produced, of size 3. -/
theorem C5_scc_buckets_partition (nodes : List Node) (edges : List Edge)
    (options : Options)
    (hdecl : ∀ e, e ∈ edges → e.from_ ∈ nodes.map Node.id ∧
      e.to_ ∈ nodes.map Node.id) :
    (∃ last sccs, (runSCC nodes edges options).getLast? = some last ∧
      last.foundSccs = some sccs ∧
      sccs.flatten.Nodup ∧
      (∀ x, x ∈ sccs.flatten ↔ x ∈ nodes.map Node.id)) ∧
    ((runSCC [⟨"A"⟩, ⟨"B"⟩, ⟨"C"⟩]
      [{ from_ := "A", to_ := "B" }, { from_ := "B", to_ := "C" },
       { from_ := "C", to_ := "A" }] {}).getLast?.getD {}).foundSccs =
      some [["A", "C", "B"]] := by
  constructor
  · set U := nodes.map Node.id with hU
    set adj := buildAdjacency nodes edges true with hadjdef
    set adjT := edges.foldl
      (fun a e => adjAppend (adjEnsure a e.to_) e.to_ e.from_)
      (nodes.foldl (fun a nn => objSet a nn.id [])
        ([] : Obj (List NodeId))) with hadjTdef
    have hadj : ∀ k x, x ∈ (objGet adj k).getD [] → x ∈ U :=
      buildAdjacency_values nodes edges true hdecl
    have hadjT : ∀ k x, x ∈ (objGet adjT k).getD [] → x ∈ U :=
      sccAdjT_values nodes edges hdecl
    have hfuel : U.length < sccFuel nodes edges := by
      unfold sccFuel
      rw [hU]
      simp only [List.length_map]
      omega
    set s0 : Scc1State := {
      visited := []
      time := 0
      discoveryTimes := []
      finishTimes := []
      finishOrderStack := []
      steps := [] } with hs0
    set p1 := nodes.foldl (fun s nn =>
      if nn.id ∈ s.visited then s
      else sccDfs1 adj (sccFuel nodes edges) nn.id s) s0 with hp1
    obtain ⟨hF1, hall1⟩ := sccPass1_spec adj U hadj (sccFuel nodes edges)
      hfuel nodes s0 (fun n hn => List.mem_map_of_mem _ hn)
      (fun x hx => absurd hx (List.not_mem_nil _))
      (fun x hx => absurd hx (List.not_mem_nil _)) List.nodup_nil
    have hstackiff : ∀ x, x ∈ p1.finishOrderStack ↔ x ∈ p1.visited := by
      intro x
      rw [hF1.2.2.2.2 x]
      constructor
      · rintro (hx | ⟨hv, _⟩)
        · cases hx
        · exact hv
      · intro hx
        exact Or.inr ⟨hx, List.not_mem_nil _⟩
    set s20 : Scc2State := {
      visited := []
      time := 0
      discoveryTimes := []
      finishTimes := []
      foundSccs := []
      bucket := []
      sccColors := []
      sccIndex := 0
      steps := p1.steps ++ [{
        phase := some "transpose"
        showTransposed := some true
        finishOrderStack := some p1.finishOrderStack
        visited := some []
        current := some none
        foundSccs := some []
        sccColors := some []
        discoveryTimes := some []
        finishTimes := some [] }] } with hs20
    set p2 := sccPhase2Go adjT (sccFuel nodes edges)
      p1.finishOrderStack.reverse s20 with hp2
    obtain ⟨hm2, h2U, h2nd, h2iff, h2all⟩ := sccPhase2Go_spec adjT U hadjT
      (sccFuel nodes edges) hfuel p1.finishOrderStack.reverse s20
      (fun x hx => hF1.2.1 x (hF1.2.2.1 x (List.mem_reverse.mp hx)))
      (fun x hx => absurd hx (List.not_mem_nil _)) List.nodup_nil
      (fun x => Iff.rfl)
    have hrun : runSCC nodes edges options = p2.steps ++ [{
        phase := some "finished"
        visited := some p2.visited
        current := some none
        foundSccs := some p2.foundSccs
        sccColors := some p2.sccColors
        showTransposed := some false
        finishOrderStack := some []
        finished := some true
        result := some ("Found " ++ toString p2.foundSccs.length ++ " SCCs.")
        discoveryTimes := some p2.discoveryTimes
        finishTimes := some p2.finishTimes }] := rfl
    refine ⟨{
        phase := some "finished"
        visited := some p2.visited
        current := some none
        foundSccs := some p2.foundSccs
        sccColors := some p2.sccColors
        showTransposed := some false
        finishOrderStack := some []
        finished := some true
        result := some ("Found " ++ toString p2.foundSccs.length ++ " SCCs.")
        discoveryTimes := some p2.discoveryTimes
        finishTimes := some p2.finishTimes }, p2.foundSccs, ?_, rfl, h2nd, ?_⟩
    · rw [hrun, List.getLast?_concat]
    · intro x
      rw [h2iff x]
      constructor
      · intro hx
        exact h2U x hx
      · intro hx
        rcases List.mem_map.mp hx with ⟨n, hn, rfl⟩
        refine h2all n.id ?_
        rw [List.mem_reverse, hstackiff]
        exact hall1 n hn
  · rfl

/-- C5 witness: the partition theorem applied to the directed 3-cycle. -/
theorem C5_witness :
    (∃ last sccs, (runSCC [⟨"A"⟩, ⟨"B"⟩, ⟨"C"⟩]
      [{ from_ := "A", to_ := "B" }, { from_ := "B", to_ := "C" },
       { from_ := "C", to_ := "A" }] {}).getLast? = some last ∧
      last.foundSccs = some sccs ∧
      sccs.flatten.Nodup ∧
      (∀ x, x ∈ sccs.flatten ↔
        x ∈ ([⟨"A"⟩, ⟨"B"⟩, ⟨"C"⟩] : List Node).map Node.id)) ∧
    ((runSCC [⟨"A"⟩, ⟨"B"⟩, ⟨"C"⟩]
      [{ from_ := "A", to_ := "B" }, { from_ := "B", to_ := "C" },
       { from_ := "C", to_ := "A" }] {}).getLast?.getD {}).foundSccs =
      some [["A", "C", "B"]] :=
  C5_scc_buckets_partition [⟨"A"⟩, ⟨"B"⟩, ⟨"C"⟩]
    [{ from_ := "A", to_ := "B" }, { from_ := "B", to_ := "C" },
     { from_ := "C", to_ := "A" }] {} (by decide)

/-! Claim C4: Kahn topological sort.  Spec-side notions: a directed edge
test, chains (consecutive directed edges), cycles (closed chains), and
the occurs-strictly-before relation on the output order. -/

/-- There is a directed edge from u to v. -/
def edgeB (edges : List Edge) (u v : NodeId) : Bool :=
  edges.any (fun e => e.from_ == u && e.to_ == v)

/-- The list is a chain of consecutive directed edges. -/
def chainB (edges : List Edge) : List NodeId → Bool
  | [] => true
  | [_] => true
  | u :: v :: rest => edgeB edges u v && chainB edges (v :: rest)

/-- A directed cycle: a closed chain of at least one edge. -/
def IsCycle (edges : List Edge) (l : List NodeId) : Prop :=
  chainB edges l = true ∧ 2 ≤ l.length ∧ l.head? = l.getLast?

/-- The graph contains a directed cycle. -/
def HasCycle (edges : List Edge) : Prop :=
  ∃ l, IsCycle edges l

/-- u occurs at a strictly earlier position than v in l. -/
def before (l : List NodeId) (u v : NodeId) : Prop :=
  ∃ i j : Nat, i < j ∧ l.get? i = some u ∧ l.get? j = some v

theorem before_append (l l' : List NodeId) (u v : NodeId)
    (h : before l u v) : before (l ++ l') u v := by
  obtain ⟨i, j, hij, hi, hj⟩ := h
  rcases List.get?_eq_some.mp hi with ⟨hlt1, _⟩
  rcases List.get?_eq_some.mp hj with ⟨hlt2, _⟩
  exact ⟨i, j, hij, by rw [List.get?_append hlt1]; exact hi,
    by rw [List.get?_append hlt2]; exact hj⟩

/-- Any member of l occurs before a newly appended element. -/
theorem before_append_new (l : List NodeId) (u v : NodeId) (hu : u ∈ l) :
    before (l ++ [v]) u v := by
  rcases List.mem_iff_get?.mp hu with ⟨i, hi⟩
  rcases List.get?_eq_some.mp hi with ⟨hlt, _⟩
  refine ⟨i, l.length, hlt, ?_, ?_⟩
  · rw [List.get?_append hlt]; exact hi
  · rw [List.get?_append_right (Nat.le_refl _)]
    simp

/-- In a duplicate-free list an element has a unique index. -/
theorem get?_inj_of_nodup {l : List NodeId} (h : l.Nodup) {i j : Nat}
    {a : NodeId} (hi : l.get? i = some a) (hj : l.get? j = some a) :
    i = j := by
  rcases List.get?_eq_some.mp hi with ⟨hlt1, h1⟩
  rcases List.get?_eq_some.mp hj with ⟨hlt2, h2⟩
  have := List.Nodup.get_inj_iff h (i := ⟨i, hlt1⟩) (j := ⟨j, hlt2⟩)
  simpa using this.mp (h1.trans h2.symm)

/-- The before relation is transitive on duplicate-free lists. -/
theorem before_trans {l : List NodeId} (hnd : l.Nodup) {u v w : NodeId}
    (h1 : before l u v) (h2 : before l v w) : before l u w := by
  obtain ⟨i, j, hij, hi, hj⟩ := h1
  obtain ⟨i2, j2, hij2, hi2, hj2⟩ := h2
  have : j = i2 := get?_inj_of_nodup hnd hj hi2
  exact ⟨i, j2, by omega, hi, hj2⟩

/-- The before relation is irreflexive on duplicate-free lists. -/
theorem before_irrefl {l : List NodeId} (hnd : l.Nodup) (u : NodeId) :
    ¬ before l u u := by
  rintro ⟨i, j, hij, hi, hj⟩
  have : i = j := get?_inj_of_nodup hnd hi hj
  omega

/-- Splitting a true boolean conjunction. -/
theorem bool_and_split {a b : Bool} (h : (a && b) = true) :
    a = true ∧ b = true := by
  simp only [Bool.and_eq_true] at h
  exact h

/-- Unfolding equation for a two-or-more-element chain. -/
theorem chainB_cons_cons (edges : List Edge) (u v : NodeId)
    (rest : List NodeId) : chainB edges (u :: v :: rest) =
      (edgeB edges u v && chainB edges (v :: rest)) := rfl

/-- Chains survive dropping a suffix of the underlying list. -/
theorem chainB_of_append_left (edges : List Edge) :
    ∀ (a b : List NodeId), chainB edges (a ++ b) = true → chainB edges a = true := by
  intro a
  induction a with
  | nil => intro b _; rfl
  | cons x a ih =>
    intro b h
    match a with
    | [] => rfl
    | y :: a2 =>
      rw [List.cons_append, List.cons_append, chainB_cons_cons] at h
      rcases bool_and_split h with ⟨h1, h2⟩
      rw [chainB_cons_cons, h1, ih b (by rw [List.cons_append]; exact h2)]
      rfl

/-- Chains survive dropping a front part of the underlying list. -/
theorem chainB_of_append_right (edges : List Edge) :
    ∀ (a b : List NodeId), chainB edges (a ++ b) = true → chainB edges b = true := by
  intro a
  induction a with
  | nil => intro b h; exact h
  | cons x a ih =>
    intro b h
    refine ih b ?_
    match a, b with
    | [], [] => rfl
    | [], y :: b2 =>
      rw [List.cons_append, List.nil_append, chainB_cons_cons] at h
      rw [List.nil_append]
      exact (bool_and_split h).2
    | y :: a2, b =>
      rw [List.cons_append, List.cons_append, chainB_cons_cons] at h
      rw [List.cons_append]
      exact (bool_and_split h).2

/-- A chain that continues into a nonempty suffix can be cut right after
the suffix's first element. -/
theorem chainB_cut (edges : List Edge) :
    ∀ (d : List NodeId) (x : NodeId) (c : List NodeId),
      chainB edges (d ++ x :: c) = true → chainB edges (d ++ [x]) = true := by
  intro d
  induction d with
  | nil => intro x c _; rfl
  | cons y d ih =>
    intro x c h
    match d with
    | [] =>
      rw [List.cons_append, List.nil_append, chainB_cons_cons] at h
      rw [List.cons_append, List.nil_append, chainB_cons_cons,
        (bool_and_split h).1]
      rfl
    | z :: d2 =>
      rw [List.cons_append, List.cons_append, chainB_cons_cons] at h
      rcases bool_and_split h with ⟨h1, h2⟩
      have h3 : chainB edges (z :: (d2 ++ [x])) = true := by
        rw [← List.cons_append]
        exact ih x c (by rw [List.cons_append]; exact h2)
      rw [List.cons_append, List.cons_append, chainB_cons_cons, h1, h3]
      rfl

/-- A list that is not duplicate-free splits around a repeated element. -/
theorem exists_dup_split {l : List NodeId} (h : ¬ l.Nodup) :
    ∃ (a : List NodeId) (x : NodeId) (b c : List NodeId),
      l = a ++ x :: b ++ x :: c := by
  induction l with
  | nil => exact absurd List.nodup_nil h
  | cons y l ih =>
    by_cases hy : y ∈ l
    · rcases List.append_of_mem hy with ⟨b, c, rfl⟩
      exact ⟨[], y, b, c, rfl⟩
    · have : ¬ l.Nodup := by
        intro hnd
        exact h (List.nodup_cons.mpr ⟨hy, hnd⟩)
      rcases ih this with ⟨a, x, b, c, rfl⟩
      exact ⟨y :: a, x, b, c, rfl⟩

/-- If every element of a nonempty set R has an in-neighbor inside R,
the graph has a directed cycle (build an ever-longer backward chain
inside R and close it at a repeated node). -/
theorem hasCycle_of_closed_in_neighbors (edges : List Edge) (R : List NodeId)
    (hne : R ≠ []) (hstep : ∀ v, v ∈ R → ∃ u, u ∈ R ∧ edgeB edges u v = true) :
    HasCycle edges := by
  -- arbitrarily long chains inside R
  have hchains : ∀ n : Nat, ∃ l : List NodeId, l.length = n + 1 ∧
      chainB edges l = true ∧ (∀ x, x ∈ l → x ∈ R) := by
    intro n
    induction n with
    | zero =>
      match R, hne with
      | v :: R2, _ =>
        exact ⟨[v], rfl, rfl, by
          intro x hx
          rw [List.mem_singleton.mp hx]
          exact List.mem_cons_self _ _⟩
    | succ n ihn =>
      obtain ⟨l, hlen, hchain, hmem⟩ := ihn
      match l, hlen with
      | h :: t, hlen =>
        obtain ⟨u, huR, hedge⟩ := hstep h (hmem h (List.mem_cons_self _ _))
        refine ⟨u :: h :: t, by simpa using hlen, ?_, ?_⟩
        · rw [chainB_cons_cons, hedge, hchain]
          rfl
        · intro x hx
          rcases List.mem_cons.mp hx with rfl | hx
          · exact huR
          · exact hmem x hx
  obtain ⟨l, hlen, hchain, hmem⟩ := hchains (R.length + 1)
  have hnotnodup : ¬ l.Nodup := by
    intro hnd
    have h1 : l.length = l.toFinset.card := (List.toFinset_card_of_nodup hnd).symm
    have h2 : l.toFinset ⊆ R.toFinset := by
      intro x hx
      rw [List.mem_toFinset] at hx ⊢
      exact hmem x hx
    have h3 : l.toFinset.card ≤ R.toFinset.card := Finset.card_le_card h2
    have h4 : R.toFinset.card ≤ R.length := R.toFinset_card_le
    omega
  obtain ⟨a, x, b, c, rfl⟩ := exists_dup_split hnotnodup
  have hchain2 : chainB edges (x :: b ++ x :: c) = true := by
    refine chainB_of_append_right edges a _ ?_
    rw [show a ++ (x :: b ++ x :: c) = a ++ x :: b ++ x :: c by simp]
    exact hchain
  have hcut : chainB edges ((x :: b) ++ [x]) = true := by
    refine chainB_cut edges (x :: b) x c ?_
    rw [List.cons_append]
    exact hchain2
  refine ⟨(x :: b) ++ [x], hcut, by simp, ?_⟩
  rw [List.getLast?_concat]
  rfl

/-- Keys of an object are the ids with entries. -/
theorem mem_objKeys_iff_hasKey {α : Type} (o : Obj α) (k : NodeId) :
    k ∈ objKeys o ↔ objHasKey o k = true := by
  constructor
  · intro hk
    rcases List.mem_map.mp hk with ⟨p, hp, hpk⟩
    unfold objHasKey
    rw [List.any_eq_true]
    exact ⟨p, hp, by simp [hpk]⟩
  · intro hk
    unfold objHasKey at hk
    rw [List.any_eq_true] at hk
    rcases hk with ⟨p, hp, hpk⟩
    simp only [beq_iff_eq] at hpk
    rw [← hpk]
    exact List.mem_map_of_mem _ hp

/-- Reading a declared id in the node-initialization fold gives the seed
value. -/
theorem objGet_init_const {α : Type} (v0 : α) :
    ∀ (ns : List Node) (a : Obj α) (u : NodeId),
      (u ∈ ns.map Node.id ∨ objGet a u = some v0) →
      objGet (ns.foldl (fun a n => objSet a n.id v0) a) u = some v0 := by
  intro ns
  induction ns with
  | nil =>
    intro a u h
    rcases h with h | h
    · cases h
    · exact h
  | cons n ns ih =>
    intro a u h
    rw [List.foldl_cons]
    by_cases hu : u = n.id
    · subst hu
      exact ih _ n.id (Or.inr (objGet_objSet_self _ _ _))
    · rcases h with h | h
      · rcases List.mem_map.mp h with ⟨n2, hn2, hn2u⟩
        rcases List.mem_cons.mp hn2 with rfl | hn2
        · exact absurd hn2u.symm hu
        · refine ih _ u (Or.inl ?_)
          rw [← hn2u]
          exact List.mem_map_of_mem _ hn2
      · exact ih _ u (Or.inr (by rw [objGet_objSet_ne _ _ _ _ hu]; exact h))

/-- Presence of keys after the node-initialization fold. -/
theorem objHasKey_init_const {α : Type} (v0 : α) :
    ∀ (ns : List Node) (a : Obj α) (u : NodeId),
      objHasKey (ns.foldl (fun a n => objSet a n.id v0) a) u =
        (objHasKey a u || decide (u ∈ ns.map Node.id)) := by
  intro ns
  induction ns with
  | nil =>
    intro a u
    simp
  | cons n ns ih =>
    intro a u
    rw [List.foldl_cons, ih]
    rw [objHasKey_objSet]
    by_cases hu : u = n.id
    · subst hu
      simp
    · have h1 : (u == n.id) = false := by simpa using hu
      simp [h1, hu]

/-- Keys stay duplicate-free through the node-initialization fold. -/
theorem objKeys_nodup_init_const {α : Type} (v0 : α) :
    ∀ (ns : List Node) (a : Obj α), (objKeys a).Nodup →
      (objKeys (ns.foldl (fun a n => objSet a n.id v0) a)).Nodup := by
  intro ns
  induction ns with
  | nil =>
    intro a h
    exact h
  | cons n ns ih =>
    intro a h
    rw [List.foldl_cons]
    exact ih _ (objKeys_nodup_objSet _ _ _ h)

/-- Existing entries survive adjEnsure unchanged. -/
theorem objGet_adjEnsure_of_some {α : Type} (a : Obj (List α)) (k' k : NodeId)
    (l : List α) (h : objGet a k = some l) :
    objGet (adjEnsure a k') k = some l := by
  unfold adjEnsure
  by_cases hk : objHasKey a k'
  · rw [if_pos hk]; exact h
  · rw [if_neg hk]
    by_cases hkk : k = k'
    · subst hkk
      exact absurd ((objHasKey_iff a k).mpr (by simp [h])) (by simpa using hk)
    · rw [objGet_objSet_ne _ _ _ _ hkk]; exact h

/-- Directed adjacency: folding the edges appends exactly the targets of
the edges leaving u, in order. -/
theorem objGet_foldl_adjEdgeStep_directed :
    ∀ (edges : List Edge) (a : Obj (List NodeId)) (u : NodeId)
      (l : List NodeId), objGet a u = some l →
      objGet (edges.foldl (adjEdgeStep true) a) u =
        some (l ++ (edges.filter (fun e => e.from_ == u)).map
          (fun e => e.to_)) := by
  intro edges
  induction edges with
  | nil =>
    intro a u l h
    simpa using h
  | cons e es ih =>
    intro a u l h
    rw [List.foldl_cons]
    have h1 : objGet (adjEnsure (adjEnsure a e.from_) e.to_) u = some l :=
      objGet_adjEnsure_of_some _ _ _ _ (objGet_adjEnsure_of_some _ _ _ _ h)
    by_cases hu : e.from_ = u
    · have hstep : objGet (adjEdgeStep true a e) u = some (l ++ [e.to_]) := by
        show objGet (adjAppend (adjEnsure (adjEnsure a e.from_) e.to_)
          e.from_ e.to_) u = _
        subst hu
        unfold adjAppend
        rw [objGet_objSet_self, h1]
        rfl
      rw [ih _ u (l ++ [e.to_]) hstep]
      rw [List.filter_cons]
      have : (e.from_ == u) = true := by simpa using hu
      rw [this]
      simp
    · have hstep : objGet (adjEdgeStep true a e) u = some l := by
        show objGet (adjAppend (adjEnsure (adjEnsure a e.from_) e.to_)
          e.from_ e.to_) u = _
        unfold adjAppend
        rw [objGet_objSet_ne _ _ _ _ (fun hc => hu hc.symm)]
        exact h1
      rw [ih _ u l hstep]
      rw [List.filter_cons]
      have : (e.from_ == u) = false := by simpa using hu
      rw [this]
      simp

/-- The indegree fold adds, for each id, the number of edges entering it. -/
theorem objGet_foldl_indegree :
    ∀ (edges : List Edge) (d : Obj Int) (v : NodeId) (c : Int),
      objGet d v = some c →
      objGet (edges.foldl (fun d e =>
        let d := if objHasKey d e.to_ then d else objSet d e.to_ 0
        objSet d e.to_ ((objGet d e.to_).getD 0 + 1)) d) v =
        some (c + ((edges.filter (fun e => e.to_ == v)).length : Int)) := by
  intro edges
  induction edges with
  | nil =>
    intro d v c h
    simpa using h
  | cons e es ih =>
    intro d v c h
    rw [List.foldl_cons]
    by_cases hv : e.to_ = v
    · subst hv
      have hkey : objHasKey d e.to_ = true :=
        (objHasKey_iff _ _).mpr (by simp [h])
      have hstep : objGet
          (objSet (if objHasKey d e.to_ then d else objSet d e.to_ 0) e.to_
            ((objGet (if objHasKey d e.to_ then d else objSet d e.to_ 0)
              e.to_).getD 0 + 1)) e.to_ = some (c + 1) := by
        rw [if_pos hkey, objGet_objSet_self, h]
        rfl
      have hfe : List.filter (fun e2 : Edge => e2.to_ == e.to_) (e :: es) =
          e :: List.filter (fun e2 : Edge => e2.to_ == e.to_) es :=
        List.filter_cons_of_pos (by simp)
      rw [ih _ e.to_ (c + 1) hstep, hfe]
      congr 1
      simp only [List.length_cons, Nat.cast_add, Nat.cast_one]
      omega
    · have hstep : objGet
          (objSet (if objHasKey d e.to_ then d else objSet d e.to_ 0) e.to_
            ((objGet (if objHasKey d e.to_ then d else objSet d e.to_ 0)
              e.to_).getD 0 + 1)) v = some c := by
        rw [objGet_objSet_ne _ _ _ _ (fun hc => hv hc.symm)]
        by_cases hk : objHasKey d e.to_
        · rw [if_pos hk]; exact h
        · rw [if_neg hk, objGet_objSet_ne _ _ _ _ (fun hc => hv hc.symm)]
          exact h
      have hfe : List.filter (fun e2 : Edge => e2.to_ == v) (e :: es) =
          List.filter (fun e2 : Edge => e2.to_ == v) es :=
        List.filter_cons_of_neg (by simpa using hv)
      rw [ih _ v c hstep, hfe]

/-- Key presence through the indegree fold. -/
theorem objHasKey_foldl_indegree :
    ∀ (edges : List Edge) (d : Obj Int) (v : NodeId),
      objHasKey (edges.foldl (fun d e =>
        let d := if objHasKey d e.to_ then d else objSet d e.to_ 0
        objSet d e.to_ ((objGet d e.to_).getD 0 + 1)) d) v =
        (objHasKey d v || decide (∃ e, e ∈ edges ∧ e.to_ = v)) := by
  intro edges
  induction edges with
  | nil =>
    intro d v
    simp
  | cons e es ih =>
    intro d v
    rw [List.foldl_cons, ih]
    have hstep : objHasKey
        (objSet (if objHasKey d e.to_ then d else objSet d e.to_ 0) e.to_
          ((objGet (if objHasKey d e.to_ then d else objSet d e.to_ 0)
            e.to_).getD 0 + 1)) v =
        (objHasKey d v || (v == e.to_)) := by
      rw [objHasKey_objSet]
      by_cases hk : objHasKey d e.to_
      · rw [if_pos hk]
      · rw [if_neg hk, objHasKey_objSet]
        rw [Bool.or_assoc, Bool.or_self]
    rw [hstep]
    by_cases hv : v = e.to_
    · subst hv
      simp
    · have h1 : (v == e.to_) = false := by simpa using hv
      simp only [h1, Bool.or_false]
      have h2 : (∃ e2, e2 ∈ e :: es ∧ e2.to_ = v) ↔
          (∃ e2, e2 ∈ es ∧ e2.to_ = v) := by
        constructor
        · rintro ⟨e2, he2, rfl⟩
          rcases List.mem_cons.mp he2 with rfl | he2
          · exact absurd rfl (fun hc => hv hc.symm)
          · exact ⟨e2, he2, rfl⟩
        · rintro ⟨e2, he2, rfl⟩
          exact ⟨e2, List.mem_cons_of_mem _ he2, rfl⟩
      simp only [h2]

/-- Keys stay duplicate-free through the indegree fold. -/
theorem objKeys_nodup_foldl_indegree :
    ∀ (edges : List Edge) (d : Obj Int), (objKeys d).Nodup →
      (objKeys (edges.foldl (fun d e =>
        let d := if objHasKey d e.to_ then d else objSet d e.to_ 0
        objSet d e.to_ ((objGet d e.to_).getD 0 + 1)) d)).Nodup := by
  intro edges
  induction edges with
  | nil =>
    intro d h
    exact h
  | cons e es ih =>
    intro d h
    rw [List.foldl_cons]
    refine ih _ ?_
    refine objKeys_nodup_objSet _ _ _ ?_
    by_cases hk : objHasKey d e.to_
    · rw [if_pos hk]; exact h
    · rw [if_neg hk]; exact objKeys_nodup_objSet _ _ _ h

/-- A duplicate-free list of members of R is no longer than R. -/
theorem nodup_subset_length_le (l R : List NodeId) (hnd : l.Nodup)
    (hsub : ∀ x, x ∈ l → x ∈ R) : l.length ≤ R.length := by
  have h1 : l.length = l.toFinset.card := (List.toFinset_card_of_nodup hnd).symm
  have h2 : l.toFinset ⊆ R.toFinset := by
    intro x hx
    rw [List.mem_toFinset] at hx ⊢
    exact hsub x hx
  have h3 := Finset.card_le_card h2
  have h4 := R.toFinset_card_le
  omega

/-- Counting split over a disjoint union of predicates. -/
theorem countP_split (l : List Edge) (p q r : Edge → Bool)
    (h : ∀ a, (p a = true ↔ (q a = true ∨ r a = true)) ∧
      ¬(q a = true ∧ r a = true)) :
    l.countP p = l.countP q + l.countP r := by
  induction l with
  | nil => rfl
  | cons a l ih =>
    rcases hq : q a with _ | _ <;> rcases hr : r a with _ | _
    · have hp : p a = false := by
        rcases hp2 : p a with _ | _
        · rfl
        · rcases ((h a).1.mp hp2) with hc | hc
          · rw [hq] at hc; cases hc
          · rw [hr] at hc; cases hc
      have e1 : List.countP p (a :: l) = List.countP p l :=
        List.countP_cons_of_neg _ _ (by simp [hp])
      have e2 : List.countP q (a :: l) = List.countP q l :=
        List.countP_cons_of_neg _ _ (by simp [hq])
      have e3 : List.countP r (a :: l) = List.countP r l :=
        List.countP_cons_of_neg _ _ (by simp [hr])
      rw [e1, e2, e3, ih]
    · have hp : p a = true := (h a).1.mpr (Or.inr hr)
      have e1 : List.countP p (a :: l) = List.countP p l + 1 :=
        List.countP_cons_of_pos _ _ hp
      have e2 : List.countP q (a :: l) = List.countP q l :=
        List.countP_cons_of_neg _ _ (by simp [hq])
      have e3 : List.countP r (a :: l) = List.countP r l + 1 :=
        List.countP_cons_of_pos _ _ hr
      rw [e1, e2, e3, ih]
      omega
    · have hp : p a = true := (h a).1.mpr (Or.inl hq)
      have e1 : List.countP p (a :: l) = List.countP p l + 1 :=
        List.countP_cons_of_pos _ _ hp
      have e2 : List.countP q (a :: l) = List.countP q l + 1 :=
        List.countP_cons_of_pos _ _ hq
      have e3 : List.countP r (a :: l) = List.countP r l :=
        List.countP_cons_of_neg _ _ (by simp [hr])
      rw [e1, e2, e3, ih]
      omega
    · exact absurd ⟨hq, hr⟩ (h a).2

/-- Remaining in-degree of v relative to a processed list: the number of
edges into v whose source is not yet processed. -/
def remIn (edges : List Edge) (ord : List NodeId) (v : NodeId) : Int :=
  ((edges.countP (fun e => e.to_ == v && decide (e.from_ ∉ ord))) : Int)

/-- Processing u removes exactly the edges from u from v's remaining
in-degree. -/
theorem remIn_append_single (edges : List Edge) (ord : List NodeId)
    (u v : NodeId) (hu : u ∉ ord) :
    remIn edges ord v = remIn edges (ord ++ [u]) v +
      (edges.countP (fun e => e.to_ == v && e.from_ == u) : Int) := by
  unfold remIn
  have := countP_split edges
    (fun e => e.to_ == v && decide (e.from_ ∉ ord))
    (fun e => e.to_ == v && decide (e.from_ ∉ ord ++ [u]))
    (fun e => e.to_ == v && (e.from_ == u)) ?_
  · rw [this]
    push_cast
    ring
  · intro e
    by_cases htv : e.to_ = v
    · have h1 : (e.to_ == v) = true := by simpa using htv
      by_cases hfu : e.from_ = u
      · have h2 : (e.from_ == u) = true := by simpa using hfu
        have h3 : decide (e.from_ ∉ ord) = true := by
          subst hfu
          simpa using hu
        have h4 : decide (e.from_ ∉ ord ++ [u]) = false := by
          subst hfu
          simp
        simp [h1, h2, h3, h4, hfu, hu]
      · have h2 : (e.from_ == u) = false := by simpa using hfu
        have h34 : decide (e.from_ ∉ ord ++ [u]) = decide (e.from_ ∉ ord) := by
          by_cases hin : e.from_ ∈ ord
          · simp [hin]
          · simp [hin, hfu]
        simp [h1, h2, h34, hfu]
    · have h1 : (e.to_ == v) = false := by simpa using htv
      simp [h1]

/-- The number of targets v among u's adjacency entries is the number of
edges from u to v. -/
theorem count_adj_targets (edges : List Edge) (u v : NodeId) :
    ((edges.filter (fun e => e.from_ == u)).map (fun e => e.to_)).count v =
      edges.countP (fun e => e.to_ == v && e.from_ == u) := by
  induction edges with
  | nil => rfl
  | cons e es ih =>
    rcases hf : (e.from_ == u) with _ | _
    · have hfe : List.filter (fun e2 : Edge => e2.from_ == u) (e :: es) =
        List.filter (fun e2 : Edge => e2.from_ == u) es :=
        List.filter_cons_of_neg (by simp [hf])
      have e1 : List.countP (fun e2 : Edge => e2.to_ == v && e2.from_ == u)
          (e :: es) = List.countP (fun e2 : Edge => e2.to_ == v && e2.from_ == u)
          es :=
        List.countP_cons_of_neg _ _ (by simp [hf])
      rw [hfe, e1]
      exact ih
    · have hfe : List.filter (fun e2 : Edge => e2.from_ == u) (e :: es) =
        e :: List.filter (fun e2 : Edge => e2.from_ == u) es :=
        List.filter_cons_of_pos (by simp [hf])
      rw [hfe, List.map_cons, List.count_cons, ih]
      rcases htv : (e.to_ == v) with _ | _
      · have e1 : List.countP (fun e2 : Edge => e2.to_ == v && e2.from_ == u)
            (e :: es) = List.countP
            (fun e2 : Edge => e2.to_ == v && e2.from_ == u) es :=
          List.countP_cons_of_neg _ _ (by simp [htv])
        rw [e1]
        simp
      · have e1 : List.countP (fun e2 : Edge => e2.to_ == v && e2.from_ == u)
            (e :: es) = List.countP
            (fun e2 : Edge => e2.to_ == v && e2.from_ == u) es + 1 :=
          List.countP_cons_of_pos _ _ (by simp [htv, hf])
        rw [e1]
        simp

/-- The body of the successor fold inside topoLoop: decrement v's
indegree and enqueue v when the counter reaches zero. -/
def topoInner (u : NodeId) (t : TopoState) (v : NodeId) : TopoState :=
  let indegree := objSet t.indegree v ((objGet t.indegree v).getD 0 - 1)
  let t := { t with
    indegree := indegree
    stepsInner := t.stepsInner ++ [{
      queue := some t.queue
      indegree := some indegree
      current := some (some u)
      order := some t.order }] }
  if objGet t.indegree v = some 0 then
    let queue := t.queue ++ [v]
    { t with
      queue := queue
      stepsInner := t.stepsInner ++ [{
        queue := some queue
        indegree := some indegree
        current := some (some v)
        order := some t.order }] }
  else t

/-- The dequeue part of a topoLoop iteration: move u from the queue to
the order. -/
def topoDeq (u : NodeId) (rest : List NodeId) (s : TopoState) : TopoState :=
  let order := s.order ++ [u]
  { s with
    queue := rest
    order := order
    stepsInner := s.stepsInner ++ [{
      queue := some rest
      indegree := some s.indegree
      current := some (some u)
      order := some order }] }

/-- One topoLoop iteration on a nonempty queue is a dequeue followed by
the successor fold. -/
theorem topoLoop_cons (adj : Obj (List NodeId)) (fuel : Nat)
    (ind : Obj Int) (ord : List NodeId) (st : List Step)
    (u : NodeId) (rest : List NodeId) :
    topoLoop adj (fuel+1) ⟨u :: rest, ind, ord, st⟩ =
      topoLoop adj fuel (((objGet adj u).getD []).foldl (topoInner u)
        (topoDeq u rest ⟨u :: rest, ind, ord, st⟩)) := rfl

/-- topoLoop is the identity on an empty queue. -/
theorem topoLoop_nil (adj : Obj (List NodeId)) (fuel : Nat)
    (ind : Obj Int) (ord : List NodeId) (st : List Step) :
    topoLoop adj (fuel+1) ⟨[], ind, ord, st⟩ = ⟨[], ind, ord, st⟩ := rfl

/-- Pointwise effect of one topoInner step on the loop variables. -/
theorem topoInner_eval (u : NodeId) (t : TopoState) (v : NodeId) (c : Int)
    (hc : objGet t.indegree v = some c) :
    (topoInner u t v).order = t.order ∧
    (topoInner u t v).indegree = objSet t.indegree v (c - 1) ∧
    (topoInner u t v).queue =
      (if c = 1 then t.queue ++ [v] else t.queue) := by
  have hget : objGet (objSet t.indegree v
      ((objGet t.indegree v).getD 0 - 1)) v = some (c - 1) := by
    rw [objGet_objSet_self, hc]
    rfl
  by_cases hc1 : c = 1
  · have hcond : objGet (objSet t.indegree v
        ((objGet t.indegree v).getD 0 - 1)) v = some 0 := by
      rw [hget, hc1]
      rfl
    refine ⟨?_, ?_, ?_⟩
    · simp only [topoInner]
      rw [if_pos hcond]
    · simp only [topoInner]
      rw [if_pos hcond]
      show objSet t.indegree v ((objGet t.indegree v).getD 0 - 1) = _
      rw [hc]
      rfl
    · simp only [topoInner]
      rw [if_pos hcond, if_pos hc1]
  · have hcond : ¬ objGet (objSet t.indegree v
        ((objGet t.indegree v).getD 0 - 1)) v = some 0 := by
      rw [hget]
      intro hcontra
      injection hcontra with h0
      omega
    refine ⟨?_, ?_, ?_⟩
    · simp only [topoInner]
      rw [if_neg hcond]
    · simp only [topoInner]
      rw [if_neg hcond]
      show objSet t.indegree v ((objGet t.indegree v).getD 0 - 1) = _
      rw [hc]
      rfl
    · simp only [topoInner]
      rw [if_neg hcond, if_neg hc1]

/-- Cumulative effect of the successor fold: the order is untouched,
every indegree entry drops by the target's multiplicity in the successor
list, and the queue gains exactly (once each, in some order) the ids
whose counter passes through zero, i.e. those whose entry was between 1
and their multiplicity. -/
theorem topoInner_fold_spec (u : NodeId) :
    ∀ (vs : List NodeId) (t : TopoState),
      (∀ w, w ∈ vs → objHasKey t.indegree w = true) →
      ∃ newq : List NodeId,
        (vs.foldl (topoInner u) t).order = t.order ∧
        (vs.foldl (topoInner u) t).queue = t.queue ++ newq ∧
        (∀ w, objGet (vs.foldl (topoInner u) t).indegree w =
          (objGet t.indegree w).map (fun c => c - (vs.count w : Int))) ∧
        newq.Nodup ∧
        (∀ w, w ∈ newq ↔ ∃ c0, objGet t.indegree w = some c0 ∧
          1 ≤ c0 ∧ c0 ≤ (vs.count w : Int)) := by
  intro vs
  induction vs with
  | nil =>
    intro t _
    refine ⟨[], rfl, by simp, ?_, List.nodup_nil, ?_⟩
    · intro w
      rcases h : objGet t.indegree w with _ | c
      · rw [List.foldl_nil, h]
        rfl
      · rw [List.foldl_nil, h]
        simp
    · intro w
      simp only [List.not_mem_nil, false_iff]
      rintro ⟨c0, _, h1, h2⟩
      simp only [List.count_nil, Nat.cast_zero] at h2
      omega
  | cons v vs ih =>
    intro t hkeys
    have hkv : objHasKey t.indegree v = true :=
      hkeys v (List.mem_cons_self _ _)
    have hsome : (objGet t.indegree v).isSome := (objHasKey_iff _ _).mp hkv
    rcases hc : objGet t.indegree v with _ | c
    · rw [hc] at hsome; cases hsome
    obtain ⟨ho, hi, hq⟩ := topoInner_eval u t v c hc
    have hkeys1 : ∀ w, w ∈ vs → objHasKey (topoInner u t v).indegree w = true := by
      intro w hw
      rw [hi, objHasKey_objSet, hkeys w (List.mem_cons_of_mem _ hw)]
      rfl
    obtain ⟨newq2, ho2, hq2, hind2, hnd2, hiff2⟩ := ih (topoInner u t v) hkeys1
    have hfold : (v :: vs).foldl (topoInner u) t =
        vs.foldl (topoInner u) (topoInner u t v) := rfl
    have hget1 : ∀ w, objGet (topoInner u t v).indegree w =
        (if w = v then some (c - 1) else objGet t.indegree w) := by
      intro w
      by_cases hw : w = v
      · subst hw
        rw [hi, objGet_objSet_self, if_pos rfl]
      · rw [hi, objGet_objSet_ne _ _ _ _ hw, if_neg hw]
    have hvnot2 : c = 1 → v ∉ newq2 := by
      intro hc1 hvmem
      rcases (hiff2 v).mp hvmem with ⟨c0, hc0, h1, _⟩
      rw [hget1 v, if_pos rfl] at hc0
      injection hc0 with hc0
      omega
    refine ⟨(if c = 1 then [v] else []) ++ newq2, ?_, ?_, ?_, ?_, ?_⟩
    · rw [hfold, ho2, ho]
    · rw [hfold, hq2, hq]
      by_cases hc1 : c = 1
      · rw [if_pos hc1, if_pos hc1, List.append_assoc]
      · rw [if_neg hc1, if_neg hc1, List.nil_append]
    · intro w
      rw [hfold, hind2 w, hget1 w]
      by_cases hw : w = v
      · subst hw
        rw [if_pos rfl, hc, List.count_cons_self]
        have hms : ∀ (f : Int → Int) (a : Int),
            Option.map f (some a) = some (f a) := fun f a => rfl
        rw [hms, hms]
        congr 1
        push_cast
        ring
      · rw [if_neg hw]
        have hcount : (v :: vs).count w = vs.count w := by
          rw [List.count_cons]
          have : (v == w) = false := by
            simpa using fun hvw => hw hvw.symm
          rw [this]
          rfl
        rw [hcount]
    · by_cases hc1 : c = 1
      · rw [if_pos hc1]
        rw [List.singleton_append, List.nodup_cons]
        exact ⟨hvnot2 hc1, hnd2⟩
      · rw [if_neg hc1, List.nil_append]
        exact hnd2
    · intro w
      have hcnt : ((v :: vs).count w : Int) =
          (vs.count w : Int) + (if w = v then 1 else 0) := by
        by_cases hw : w = v
        · subst hw
          rw [List.count_cons_self, if_pos rfl]
          push_cast
          ring
        · have : (v == w) = false := by
            simpa using fun hvw => hw hvw.symm
          rw [List.count_cons, this, if_neg hw]
          rfl
      constructor
      · intro hwmem
        rcases List.mem_append.mp hwmem with hwf | hwb
        · have hwv : w = v ∧ c = 1 := by
            by_cases hc1 : c = 1
            · rw [if_pos hc1] at hwf
              exact ⟨List.mem_singleton.mp hwf, hc1⟩
            · rw [if_neg hc1] at hwf
              cases hwf
          obtain ⟨rfl, hc1⟩ := hwv
          refine ⟨c, hc, by omega, ?_⟩
          rw [hcnt, if_pos rfl]
          have : (0 : Int) ≤ (vs.count w : Int) := Int.natCast_nonneg _
          omega
        · rcases (hiff2 w).mp hwb with ⟨c0, hc0, h1, h2⟩
          rw [hget1 w] at hc0
          by_cases hw : w = v
          · subst hw
            rw [if_pos rfl] at hc0
            injection hc0 with hc0
            refine ⟨c, hc, by omega, ?_⟩
            rw [hcnt, if_pos rfl]
            omega
          · rw [if_neg hw] at hc0
            refine ⟨c0, hc0, h1, ?_⟩
            rw [hcnt, if_neg hw]
            omega
      · rintro ⟨c0, hc0, h1, h2⟩
        by_cases hw : w = v
        · subst hw
          rw [hc] at hc0
          injection hc0 with hceq
          rw [hcnt, if_pos rfl] at h2
          by_cases hc1 : c = 1
          · refine List.mem_append.mpr (Or.inl ?_)
            rw [if_pos hc1]
            exact List.mem_singleton.mpr rfl
          · refine List.mem_append.mpr (Or.inr ?_)
            refine (hiff2 w).mpr ⟨c - 1, ?_, by omega, by omega⟩
            rw [hget1 w, if_pos rfl]
        · refine List.mem_append.mpr (Or.inr ?_)
          refine (hiff2 w).mpr ⟨c0, ?_, h1, ?_⟩
          · rw [hget1 w, if_neg hw]
            exact hc0
          · rw [hcnt, if_neg hw] at h2
            omega

/-- remIn is a cast of a count, hence non-negative. -/
theorem remIn_nonneg (edges : List Edge) (ord : List NodeId) (v : NodeId) :
    0 ≤ remIn edges ord v := Int.natCast_nonneg _

/-- A positive remaining in-degree exhibits an unprocessed in-edge. -/
theorem exists_edge_of_remIn_pos (edges : List Edge) (ord : List NodeId)
    (v : NodeId) (h : remIn edges ord v ≠ 0) :
    ∃ e, e ∈ edges ∧ e.to_ = v ∧ e.from_ ∉ ord := by
  unfold remIn at h
  have hk : edges.countP (fun e => e.to_ == v && decide (e.from_ ∉ ord)) ≠ 0 := by
    intro h0
    rw [h0] at h
    exact h rfl
  have hpos := Nat.pos_of_ne_zero hk
  rcases List.countP_pos.mp hpos with ⟨e, he, hp⟩
  rcases bool_and_split hp with ⟨h1, h2⟩
  exact ⟨e, he, by simpa using h1, by simpa using h2⟩

/-- A zero remaining in-degree means every in-edge source is processed. -/
theorem from_mem_of_remIn_zero (edges : List Edge) (ord : List NodeId)
    (v : NodeId) (h : remIn edges ord v = 0) (e : Edge) (he : e ∈ edges)
    (hto : e.to_ = v) : e.from_ ∈ ord := by
  by_contra hnot
  unfold remIn at h
  have h0 : edges.countP (fun e => e.to_ == v && decide (e.from_ ∉ ord)) = 0 := by
    exact_mod_cast h
  have hpe := List.countP_eq_zero.mp h0 e he
  apply hpe
  simp [hto, hnot]

/-- Loop invariant of the Kahn loop: the processed order and the queue
are disjoint duplicate-free declared ids, every declared id's indegree
entry equals its remaining in-degree, the queue holds exactly the
unprocessed ids with no unprocessed in-edge, and edges into processed
ids respect the order. -/
def TopoInv (ids : List NodeId) (edges : List Edge) (t : TopoState) : Prop :=
  (t.order ++ t.queue).Nodup ∧
  (∀ x, x ∈ t.order ++ t.queue → x ∈ ids) ∧
  (∀ v, v ∈ ids → objGet t.indegree v = some (remIn edges t.order v)) ∧
  (∀ v, objHasKey t.indegree v = true ↔ v ∈ ids) ∧
  (∀ v, v ∈ t.queue ↔ (v ∈ ids ∧ remIn edges t.order v = 0 ∧ v ∉ t.order)) ∧
  (∀ e, e ∈ edges → e.to_ ∈ t.order → before t.order e.from_ e.to_)

/-- The Kahn loop preserves the invariant and, given enough fuel, drains
the queue completely. -/
theorem topoLoop_inv (ids : List NodeId) (edges : List Edge)
    (adj : Obj (List NodeId))
    (hdecl : ∀ e, e ∈ edges → e.from_ ∈ ids ∧ e.to_ ∈ ids)
    (hadj : ∀ u, u ∈ ids → (objGet adj u).getD [] =
      (edges.filter (fun e => e.from_ == u)).map (fun e => e.to_)) :
    ∀ (fuel : Nat) (t : TopoState), TopoInv ids edges t →
      ids.length - t.order.length < fuel →
      TopoInv ids edges (topoLoop adj fuel t) ∧
      (topoLoop adj fuel t).queue = [] := by
  intro fuel
  induction fuel with
  | zero =>
    intro t _ hlt
    exact absurd hlt (by omega)
  | succ fuel ih =>
    intro t hinv hlt
    obtain ⟨q, ind, ord, st⟩ := t
    obtain ⟨hA, hB, hC, hK, hD, hE⟩ := hinv
    dsimp only at hA hB hC hK hD hE hlt
    cases q with
    | nil =>
      rw [topoLoop_nil]
      exact ⟨⟨hA, hB, hC, hK, hD, hE⟩, rfl⟩
    | cons u rest =>
      rw [topoLoop_cons]
      obtain ⟨hu_ids, hu_rem, hu_ord⟩ := (hD u).mp (List.mem_cons_self _ _)
      have hvs : (objGet adj u).getD [] =
          (edges.filter (fun e => e.from_ == u)).map (fun e => e.to_) :=
        hadj u hu_ids
      have hmem_vs : ∀ w, w ∈ (objGet adj u).getD [] →
          ∃ e, e ∈ edges ∧ e.to_ = w := by
        intro w hw
        rw [hvs] at hw
        rcases List.mem_map.mp hw with ⟨e, he, hew⟩
        exact ⟨e, (List.mem_filter.mp he).1, hew⟩
      have hkeys : ∀ w, w ∈ (objGet adj u).getD [] →
          objHasKey (topoDeq u rest
            (⟨u :: rest, ind, ord, st⟩ : TopoState)).indegree w = true := by
        intro w hw
        rcases hmem_vs w hw with ⟨e, he, hew⟩
        exact (hK w).mpr (by rw [← hew]; exact (hdecl e he).2)
      obtain ⟨newq, ho, hq, hind, hnd, hiff⟩ :=
        topoInner_fold_spec u ((objGet adj u).getD [])
          (topoDeq u rest (⟨u :: rest, ind, ord, st⟩ : TopoState)) hkeys
      have hs1o : (topoDeq u rest
          (⟨u :: rest, ind, ord, st⟩ : TopoState)).order = ord ++ [u] := rfl
      have hs1q : (topoDeq u rest
          (⟨u :: rest, ind, ord, st⟩ : TopoState)).queue = rest := rfl
      have hs1i : (topoDeq u rest
          (⟨u :: rest, ind, ord, st⟩ : TopoState)).indegree = ind := rfl
      rw [hs1o] at ho
      rw [hs1q] at hq
      rw [hs1i] at hind hiff
      have hcount : ∀ w, (((objGet adj u).getD []).count w : Int) =
          (edges.countP (fun e => e.to_ == w && e.from_ == u) : Int) := by
        intro w
        rw [hvs, count_adj_targets]
      have hrem : ∀ w, remIn edges ord w = remIn edges (ord ++ [u]) w +
          (edges.countP (fun e => e.to_ == w && e.from_ == u) : Int) :=
        fun w => remIn_append_single edges ord u w hu_ord
      have hnewq : ∀ w, w ∈ newq ↔ (w ∈ ids ∧ 1 ≤ remIn edges ord w ∧
          remIn edges (ord ++ [u]) w = 0) := by
        intro w
        rw [hiff w]
        constructor
        · rintro ⟨c0, hc0, h1, h2⟩
          have hw_ids : w ∈ ids := (hK w).mp
            ((objHasKey_iff _ _).mpr (by rw [hc0]; rfl))
          have hcw := hC w hw_ids
          rw [hcw] at hc0
          injection hc0 with hceq
          rw [hcount w] at h2
          have h3 := hrem w
          have h4 := remIn_nonneg edges (ord ++ [u]) w
          exact ⟨hw_ids, by omega, by omega⟩
        · rintro ⟨hw_ids, h1, h0⟩
          refine ⟨remIn edges ord w, hC w hw_ids, h1, ?_⟩
          rw [hcount w]
          have h3 := hrem w
          omega
      have hnewq_not : ∀ w, w ∈ newq → w ∉ ord ∧ w ∉ u :: rest := by
        intro w hw
        obtain ⟨hw_ids, h1, h0⟩ := (hnewq w).mp hw
        constructor
        · intro hword
          rcases exists_edge_of_remIn_pos edges ord w (by omega) with
            ⟨e, he, hto, hfrom⟩
          have hbef := hE e he (by rw [hto]; exact hword)
          apply hfrom
          obtain ⟨i, j, hij, hi, hj⟩ := hbef
          exact List.get?_mem hi
        · intro hwq
          rcases List.mem_cons.mp hwq with rfl | hwrest
          · omega
          · have := ((hD w).mp (List.mem_cons_of_mem _ hwrest)).2.1
            omega
      have hu_notin_rest : u ∉ rest := by
        have h1 := (List.nodup_append.mp hA).2.1
        exact (List.nodup_cons.mp h1).1
      have hC' : ∀ v, v ∈ ids →
          objGet (((objGet adj u).getD []).foldl (topoInner u)
            (topoDeq u rest
              (⟨u :: rest, ind, ord, st⟩ : TopoState))).indegree v =
          some (remIn edges (ord ++ [u]) v) := by
        intro v hv
        rw [hind v, hC v hv]
        show some (remIn edges ord v - (((objGet adj u).getD []).count v : Int))
          = _
        rw [hcount v]
        have h3 := hrem v
        congr 1
        omega
      have hK' : ∀ v, objHasKey (((objGet adj u).getD []).foldl (topoInner u)
          (topoDeq u rest
            (⟨u :: rest, ind, ord, st⟩ : TopoState))).indegree v = true ↔
          v ∈ ids := by
        intro v
        rw [objHasKey_iff, hind v]
        constructor
        · intro hsome
          rcases hg : objGet ind v with _ | c
          · rw [hg] at hsome
            cases hsome
          · exact (hK v).mp ((objHasKey_iff _ _).mpr (by rw [hg]; rfl))
        · intro hv
          rw [hC v hv]
          rfl
      have hB' : ∀ x, x ∈ (ord ++ [u]) ++ (rest ++ newq) → x ∈ ids := by
        intro x hx
        rcases List.mem_append.mp hx with h | h
        · rcases List.mem_append.mp h with h2 | h2
          · exact hB x (List.mem_append.mpr (Or.inl h2))
          · rw [List.mem_singleton.mp h2]
            exact hu_ids
        · rcases List.mem_append.mp h with h2 | h2
          · exact hB x (List.mem_append.mpr (Or.inr (List.mem_cons_of_mem _ h2)))
          · exact ((hnewq x).mp h2).1
      have hA' : ((ord ++ [u]) ++ (rest ++ newq)).Nodup := by
        have h2 : ((ord ++ [u]) ++ rest).Nodup := by
          have heq : (ord ++ [u]) ++ rest = ord ++ u :: rest := by simp
          rw [heq]
          exact hA
        have hassoc : (ord ++ [u]) ++ (rest ++ newq) =
            ((ord ++ [u]) ++ rest) ++ newq := (List.append_assoc _ _ _).symm
        rw [hassoc, List.nodup_append]
        refine ⟨h2, hnd, ?_⟩
        intro a ha hanew
        obtain ⟨hnord, hnq⟩ := hnewq_not a hanew
        rcases List.mem_append.mp ha with h | h
        · rcases List.mem_append.mp h with h3 | h3
          · exact hnord h3
          · exact hnq (by rw [List.mem_singleton.mp h3]; exact List.mem_cons_self _ _)
        · exact hnq (List.mem_cons_of_mem _ h)
      have hD' : ∀ v, v ∈ rest ++ newq ↔
          (v ∈ ids ∧ remIn edges (ord ++ [u]) v = 0 ∧ v ∉ ord ++ [u]) := by
        intro v
        constructor
        · intro hv
          rcases List.mem_append.mp hv with hvr | hvn
          · obtain ⟨hv_ids, hv_rem, hv_ord⟩ :=
              (hD v).mp (List.mem_cons_of_mem _ hvr)
            have hvu : v ≠ u := by
              intro hvu
              rw [hvu] at hvr
              exact hu_notin_rest hvr
            refine ⟨hv_ids, ?_, ?_⟩
            · have h1 := hrem v
              have h2 := remIn_nonneg edges (ord ++ [u]) v
              have h3 : (0:Int) ≤
                  (edges.countP (fun e => e.to_ == v && e.from_ == u) : Int) :=
                Int.natCast_nonneg _
              omega
            · intro hvmem
              rcases List.mem_append.mp hvmem with h | h
              · exact hv_ord h
              · exact hvu (List.mem_singleton.mp h)
          · obtain ⟨hv_ids, h1, h0⟩ := (hnewq v).mp hvn
            obtain ⟨hnord, hnq⟩ := hnewq_not v hvn
            refine ⟨hv_ids, h0, ?_⟩
            intro hvmem
            rcases List.mem_append.mp hvmem with h | h
            · exact hnord h
            · rw [List.mem_singleton.mp h] at h1
              omega
        · rintro ⟨hv_ids, h0, hnord'⟩
          have hv_not_ord : v ∉ ord := fun h =>
            hnord' (List.mem_append.mpr (Or.inl h))
          have hvu : v ≠ u := fun h =>
            hnord' (List.mem_append.mpr (Or.inr
              (by rw [h]; exact List.mem_singleton.mpr rfl)))
          by_cases hz : remIn edges ord v = 0
          · have hvq := (hD v).mpr ⟨hv_ids, hz, hv_not_ord⟩
            rcases List.mem_cons.mp hvq with h | h
            · exact absurd h hvu
            · exact List.mem_append.mpr (Or.inl h)
          · have h1 : 1 ≤ remIn edges ord v := by
              have := remIn_nonneg edges ord v
              omega
            exact List.mem_append.mpr (Or.inr ((hnewq v).mpr ⟨hv_ids, h1, h0⟩))
      have hE' : ∀ e, e ∈ edges → e.to_ ∈ ord ++ [u] →
          before (ord ++ [u]) e.from_ e.to_ := by
        intro e he hto
        rcases List.mem_append.mp hto with h | h
        · exact before_append _ _ _ _ (hE e he h)
        · have htou := List.mem_singleton.mp h
          have hfrom : e.from_ ∈ ord :=
            from_mem_of_remIn_zero edges ord u hu_rem e he htou
          rw [htou]
          exact before_append_new ord e.from_ u hfrom
      have hlen : ord.length + 1 + rest.length ≤ ids.length := by
        have := nodup_subset_length_le (ord ++ u :: rest) ids hA hB
        rw [List.length_append, List.length_cons] at this
        omega
      refine ih _ ⟨?_, ?_, ?_, ?_, ?_, ?_⟩ ?_
      · rw [ho, hq]
        exact hA'
      · intro x
        rw [ho, hq]
        exact hB' x
      · intro v hv
        rw [ho]
        exact hC' v hv
      · exact hK'
      · intro v
        rw [ho, hq]
        exact hD' v
      · intro e he
        rw [ho]
        exact hE' e he
      · rw [ho, List.length_append, List.length_cons, List.length_nil]
        omega

/-- Splitting a true boolean disjunction. -/
theorem bool_or_split {a b : Bool} (h : (a || b) = true) :
    a = true ∨ b = true := by
  rcases a with _ | _
  · right
    simpa using h
  · left
    rfl

/-- With nothing processed, the remaining in-degree is the full in-degree. -/
theorem remIn_nil (edges : List Edge) (v : NodeId) :
    remIn edges [] v = ((edges.filter (fun e => e.to_ == v)).length : Int) := by
  unfold remIn
  congr 1
  rw [← List.countP_eq_length_filter]
  induction edges with
  | nil => rfl
  | cons e es ih =>
    rw [List.countP_cons, List.countP_cons, ih]
    have hd : decide (e.from_ ∉ ([] : List NodeId)) = true := by simp
    rw [hd, Bool.and_true]

/-- A chain transports the before relation from its first to its last
element, provided every edge respects the order. -/
theorem before_of_chain (edges : List Edge) (ord : List NodeId)
    (hbef : ∀ e, e ∈ edges → before ord e.from_ e.to_) (hnd : ord.Nodup) :
    ∀ (l : List NodeId) (u v : NodeId), chainB edges l = true →
      l.head? = some u → l.getLast? = some v → 2 ≤ l.length →
      before ord u v := by
  intro l
  induction l with
  | nil =>
    intro u v _ hh _ _
    cases hh
  | cons x l2 ih =>
    intro u v hch hh hl hlen
    have hxu : x = u := by injection hh
    subst hxu
    cases l2 with
    | nil => simp at hlen
    | cons y l3 =>
      rw [chainB_cons_cons] at hch
      rcases bool_and_split hch with ⟨he, hch2⟩
      have hxy : before ord x y := by
        unfold edgeB at he
        rcases List.any_eq_true.mp he with ⟨e, hemem, hpe⟩
        rcases bool_and_split hpe with ⟨h1, h2⟩
        have h1' : e.from_ = x := by simpa using h1
        have h2' : e.to_ = y := by simpa using h2
        have hb := hbef e hemem
        rw [h1', h2'] at hb
        exact hb
      cases l3 with
      | nil =>
        have hyv : y = v := by
          have hgl : ([x, y] : List NodeId).getLast? = some y := rfl
          rw [hgl] at hl
          injection hl
        rw [← hyv]
        exact hxy
      | cons z l4 =>
        rw [List.getLast?_cons_cons] at hl
        have h2 := ih y v hch2 rfl hl (by simp)
        exact before_trans hnd hxy h2

/-- A duplicate-free order respected by every edge rules out cycles. -/
theorem not_hasCycle_of_topo_order (edges : List Edge) (ord : List NodeId)
    (hnd : ord.Nodup)
    (hbef : ∀ e, e ∈ edges → before ord e.from_ e.to_) :
    ¬ HasCycle edges := by
  rintro ⟨l, hch, hlen, hcl⟩
  cases l with
  | nil => simp at hlen
  | cons x l2 =>
    have hh : (x :: l2).head? = some x := rfl
    have hgl : (x :: l2).getLast? = some x := by
      rw [← hcl]
      exact hh
    exact before_irrefl hnd x
      (before_of_chain edges ord hbef hnd (x :: l2) x x hch hh hgl hlen)

/-- If some declared id is unprocessed and every unprocessed declared id
has a remaining in-edge, the declared part of the graph has a cycle. -/
theorem hasCycle_of_incomplete (ids : List NodeId) (edges : List Edge)
    (ord : List NodeId)
    (hdecl : ∀ e, e ∈ edges → e.from_ ∈ ids ∧ e.to_ ∈ ids)
    (hrem : ∀ v, v ∈ ids → v ∉ ord → remIn edges ord v ≠ 0)
    (v0 : NodeId) (hv0 : v0 ∈ ids) (hv0o : v0 ∉ ord) :
    HasCycle edges := by
  refine hasCycle_of_closed_in_neighbors edges
    (ids.filter (fun x => decide (x ∉ ord))) ?_ ?_
  · intro hcontra
    have hmem : v0 ∈ ids.filter (fun x => decide (x ∉ ord)) :=
      List.mem_filter.mpr ⟨hv0, by simpa using hv0o⟩
    rw [hcontra] at hmem
    cases hmem
  · intro v hv
    rcases List.mem_filter.mp hv with ⟨hvids, hvord⟩
    have hvord' : v ∉ ord := by simpa using hvord
    rcases exists_edge_of_remIn_pos edges ord v (hrem v hvids hvord') with
      ⟨e, he, hto, hfrom⟩
    refine ⟨e.from_,
      List.mem_filter.mpr ⟨(hdecl e he).1, by simpa using hfrom⟩, ?_⟩
    unfold edgeB
    rw [List.any_eq_true]
    exact ⟨e, he, by simp [hto]⟩

/-- The indegree map built by runTopologicalSort before the loop. -/
def topoIndegree (nodes : List Node) (edges : List Edge) : Obj Int :=
  edges.foldl (fun d e =>
    let d := if objHasKey d e.to_ then d else objSet d e.to_ 0
    objSet d e.to_ ((objGet d e.to_).getD 0 + 1))
    (nodes.foldl (fun d nn => objSet d nn.id 0) ([] : Obj Int))

/-- The starting loop state of runTopologicalSort. -/
def topoStart (nodes : List Node) (edges : List Edge) : TopoState :=
  { queue := (objKeys (topoIndegree nodes edges)).filter
      (fun id => objGet (topoIndegree nodes edges) id = some 0)
    indegree := topoIndegree nodes edges
    order := []
    stepsInner := [{
      queue := some ((objKeys (topoIndegree nodes edges)).filter
        (fun id => objGet (topoIndegree nodes edges) id = some 0))
      indegree := some (topoIndegree nodes edges)
      order := some [] }] }

/-- The loop state runTopologicalSort ends with. -/
def topoFinish (nodes : List Node) (edges : List Edge) : TopoState :=
  topoLoop (buildAdjacency nodes edges true) (topoFuel nodes edges)
    (topoStart nodes edges)

/-- Unfolding of runTopologicalSort in the directed case. -/
theorem runTopologicalSort_directed (nodes : List Node) (edges : List Edge)
    (options : Options) (hdir : options.isDirected.getD true = true) :
    runTopologicalSort nodes edges options =
      if (topoFinish nodes edges).order.length ≠ nodes.length then
        (topoFinish nodes edges).stepsInner ++ [{
          finished := some true
          result := some "Graph has at least one cycle (topological sort not possible)"
          order := some (topoFinish nodes edges).order }]
      else
        (topoFinish nodes edges).stepsInner ++ [{
          finished := some true
          result := some "Topological order computed"
          order := some (topoFinish nodes edges).order }] := by
  unfold runTopologicalSort
  rw [hdir]
  rfl

/-- The invariant holds initially, so the loop ends in an invariant
state with an empty queue. -/
theorem topo_main (nodes : List Node) (edges : List Edge)
    (hdecl : ∀ e, e ∈ edges → e.from_ ∈ nodes.map Node.id ∧
      e.to_ ∈ nodes.map Node.id) :
    TopoInv (nodes.map Node.id) edges (topoFinish nodes edges) ∧
    (topoFinish nodes edges).queue = [] := by
  have hK0 : ∀ v, objHasKey (topoIndegree nodes edges) v = true ↔
      v ∈ nodes.map Node.id := by
    intro v
    unfold topoIndegree
    rw [objHasKey_foldl_indegree, objHasKey_init_const]
    have hemp : objHasKey ([] : Obj Int) v = false := rfl
    rw [hemp, Bool.false_or]
    constructor
    · intro h
      rcases bool_or_split h with h1 | h1
      · exact of_decide_eq_true h1
      · rcases of_decide_eq_true h1 with ⟨e, he, hev⟩
        rw [← hev]
        exact (hdecl e he).2
    · intro hv
      rw [decide_eq_true hv, Bool.true_or]
  have hC0 : ∀ v, v ∈ nodes.map Node.id →
      objGet (topoIndegree nodes edges) v = some (remIn edges [] v) := by
    intro v hv
    unfold topoIndegree
    rw [objGet_foldl_indegree edges _ v 0
      (objGet_init_const 0 nodes _ v (Or.inl hv))]
    rw [remIn_nil]
    congr 1
    omega
  have hkeysnd : (objKeys (topoIndegree nodes edges)).Nodup := by
    unfold topoIndegree
    apply objKeys_nodup_foldl_indegree
    apply objKeys_nodup_init_const
    exact List.nodup_nil
  have hq0 : ∀ v, v ∈ (topoStart nodes edges).queue ↔
      (v ∈ nodes.map Node.id ∧ remIn edges [] v = 0) := by
    intro v
    show v ∈ (objKeys (topoIndegree nodes edges)).filter
      (fun id => decide (objGet (topoIndegree nodes edges) id = some 0)) ↔ _
    rw [List.mem_filter]
    constructor
    · rintro ⟨hmem, hp⟩
      have hv : v ∈ nodes.map Node.id :=
        (hK0 v).mp ((mem_objKeys_iff_hasKey _ _).mp hmem)
      have hg := of_decide_eq_true hp
      rw [hC0 v hv] at hg
      injection hg with hg
      exact ⟨hv, hg⟩
    · rintro ⟨hv, hz⟩
      refine ⟨(mem_objKeys_iff_hasKey _ _).mpr ((hK0 v).mpr hv), ?_⟩
      apply decide_eq_true
      rw [hC0 v hv, hz]
  have hinv0 : TopoInv (nodes.map Node.id) edges (topoStart nodes edges) := by
    refine ⟨?_, ?_, ?_, ?_, ?_, ?_⟩
    · show ([] ++ (topoStart nodes edges).queue).Nodup
      rw [List.nil_append]
      exact List.Nodup.filter _ hkeysnd
    · intro x hx
      rw [show (topoStart nodes edges).order = [] from rfl,
        List.nil_append] at hx
      exact ((hq0 x).mp hx).1
    · intro v hv
      show objGet (topoIndegree nodes edges) v = some (remIn edges [] v)
      exact hC0 v hv
    · exact hK0
    · intro v
      rw [show (topoStart nodes edges).order = [] from rfl]
      constructor
      · intro hv
        obtain ⟨h1, h2⟩ := (hq0 v).mp hv
        exact ⟨h1, h2, List.not_mem_nil v⟩
      · rintro ⟨h1, h2, _⟩
        exact (hq0 v).mpr ⟨h1, h2⟩
    · intro e he hto
      rw [show (topoStart nodes edges).order = [] from rfl] at hto
      exact absurd hto (List.not_mem_nil _)
  have hadjtop : ∀ u, u ∈ nodes.map Node.id →
      (objGet (buildAdjacency nodes edges true) u).getD [] =
        (edges.filter (fun e => e.from_ == u)).map (fun e => e.to_) := by
    intro u hu
    unfold buildAdjacency
    rw [objGet_foldl_adjEdgeStep_directed edges _ u []
      (objGet_init_const [] nodes _ u (Or.inl hu))]
    rfl
  unfold topoFinish
  apply topoLoop_inv (nodes.map Node.id) edges _ hdecl hadjtop
    (topoFuel nodes edges) (topoStart nodes edges) hinv0
  rw [List.length_map, show (topoStart nodes edges).order = [] from rfl]
  unfold topoFuel
  simp only [List.length_nil]
  omega

/-- C4: For every directed graph (isDirected true, the default) whose
edges reference declared node ids and whose node ids are distinct, the
final step of runTopologicalSort carries an order such that: if the
graph is acyclic, the order lists every declared node exactly once and
every edge goes from a strictly earlier to a strictly later position,
with result "Topological order computed"; if the graph has a cycle, the
order is strictly shorter than the node count and the result flags the
cycle. -/
theorem C4_topological_sort (nodes : List Node) (edges : List Edge)
    (options : Options)
    (hdecl : ∀ e, e ∈ edges → e.from_ ∈ nodes.map Node.id ∧
      e.to_ ∈ nodes.map Node.id)
    (hnodup : (nodes.map Node.id).Nodup)
    (hdir : options.isDirected.getD true = true) :
    ∃ last ordr,
      (runTopologicalSort nodes edges options).getLast? = some last ∧
      last.order = some ordr ∧ last.finished = some true ∧
      (¬ HasCycle edges →
        ordr.Nodup ∧ (∀ x, x ∈ ordr ↔ x ∈ nodes.map Node.id) ∧
        (∀ e, e ∈ edges → before ordr e.from_ e.to_) ∧
        last.result = some "Topological order computed") ∧
      (HasCycle edges →
        ordr.length < nodes.length ∧
        last.result = some
          "Graph has at least one cycle (topological sort not possible)") := by
  obtain ⟨hinv, hqe⟩ := topo_main nodes edges hdecl
  obtain ⟨hA, hB, hC, hK, hD, hE⟩ := hinv
  rw [hqe, List.append_nil] at hA
  rw [hqe, List.append_nil] at hB
  rw [hqe] at hD
  have hrem : ∀ v, v ∈ nodes.map Node.id →
      v ∉ (topoFinish nodes edges).order →
      remIn edges (topoFinish nodes edges).order v ≠ 0 := by
    intro v hv hvo hz
    have hmem := (hD v).mpr ⟨hv, hz, hvo⟩
    exact absurd hmem (List.not_mem_nil v)
  rw [runTopologicalSort_directed nodes edges options hdir]
  by_cases hcomp : ∀ x, x ∈ nodes.map Node.id →
      x ∈ (topoFinish nodes edges).order
  · have hmemiff : ∀ x, x ∈ (topoFinish nodes edges).order ↔
        x ∈ nodes.map Node.id :=
      fun x => ⟨fun h => hB x h, fun h => hcomp x h⟩
    have hlen_eq : (topoFinish nodes edges).order.length = nodes.length := by
      have h1 := nodup_subset_length_le _ (nodes.map Node.id) hA
        (fun x h => (hmemiff x).mp h)
      have h2 := nodup_subset_length_le (nodes.map Node.id) _ hnodup
        (fun x h => (hmemiff x).mpr h)
      rw [List.length_map] at h1 h2
      omega
    have hbefall : ∀ e, e ∈ edges →
        before (topoFinish nodes edges).order e.from_ e.to_ :=
      fun e he => hE e he ((hmemiff _).mpr (hdecl e he).2)
    have hnocyc : ¬ HasCycle edges :=
      not_hasCycle_of_topo_order edges _ hA hbefall
    rw [if_neg (fun hne => hne hlen_eq)]
    refine ⟨_, (topoFinish nodes edges).order,
      List.getLast?_concat _, rfl, rfl, ?_, ?_⟩
    · intro _
      exact ⟨hA, hmemiff, hbefall, rfl⟩
    · intro hcyc
      exact absurd hcyc hnocyc
  · push_neg at hcomp
    obtain ⟨v0, hv0, hv0o⟩ := hcomp
    have hcyc : HasCycle edges :=
      hasCycle_of_incomplete (nodes.map Node.id) edges _ hdecl hrem v0 hv0 hv0o
    have hlt : (topoFinish nodes edges).order.length < nodes.length := by
      have h1 : ((topoFinish nodes edges).order ++ [v0]).Nodup := by
        rw [List.nodup_append]
        refine ⟨hA, List.nodup_singleton _, ?_⟩
        intro a ha hav
        rw [List.mem_singleton.mp hav] at ha
        exact hv0o ha
      have hsub : ∀ x, x ∈ (topoFinish nodes edges).order ++ [v0] →
          x ∈ nodes.map Node.id := by
        intro x hx
        rcases List.mem_append.mp hx with h | h
        · exact hB x h
        · rw [List.mem_singleton.mp h]
          exact hv0
      have h2 := nodup_subset_length_le _ (nodes.map Node.id) h1 hsub
      rw [List.length_append, List.length_map, List.length_singleton] at h2
      omega
    rw [if_pos (Nat.ne_of_lt hlt)]
    refine ⟨_, (topoFinish nodes edges).order,
      List.getLast?_concat _, rfl, rfl, ?_, ?_⟩
    · intro hnc
      exact absurd hcyc hnc
    · intro _
      exact ⟨hlt, rfl⟩

/-- C4 witness: the topological-sort theorem applied to the directed
two-node graph with the single edge A -> B. -/
theorem C4_witness :
    ∃ last ordr,
      (runTopologicalSort [⟨"A"⟩, ⟨"B"⟩] [{ from_ := "A", to_ := "B" }]
        {}).getLast? = some last ∧
      last.order = some ordr ∧ last.finished = some true ∧
      (¬ HasCycle [{ from_ := "A", to_ := "B" }] →
        ordr.Nodup ∧ (∀ x, x ∈ ordr ↔
          x ∈ ([⟨"A"⟩, ⟨"B"⟩] : List Node).map Node.id) ∧
        (∀ e, e ∈ ([{ from_ := "A", to_ := "B" }] : List Edge) →
          before ordr e.from_ e.to_) ∧
        last.result = some "Topological order computed") ∧
      (HasCycle [{ from_ := "A", to_ := "B" }] →
        ordr.length < ([⟨"A"⟩, ⟨"B"⟩] : List Node).length ∧
        last.result = some
          "Graph has at least one cycle (topological sort not possible)") :=
  C4_topological_sort [⟨"A"⟩, ⟨"B"⟩] [{ from_ := "A", to_ := "B" }] {}
    (by decide) (by decide) rfl

/-! Claim C3: BFS shortest paths.  Spec-side notions: the edge relation
respecting the isDirected option, chains over it, and hop-minimal
paths. -/

/-- There is an edge usable from u to v: a directed edge u -> v, or any
edge between u and v when the graph is undirected. -/
def edgeBD (d : Bool) (edges : List Edge) (u v : NodeId) : Bool :=
  edges.any (fun e => (e.from_ == u && e.to_ == v) ||
    (!d && (e.to_ == u && e.from_ == v)))

/-- The list is a chain of consecutively usable edges. -/
def chainBD (d : Bool) (edges : List Edge) : List NodeId → Bool
  | [] => true
  | [_] => true
  | u :: v :: rest => edgeBD d edges u v && chainBD d edges (v :: rest)

/-- Unfolding equation for a two-or-more-element chain. -/
theorem chainBD_cons_cons (d : Bool) (edges : List Edge) (u v : NodeId)
    (rest : List NodeId) : chainBD d edges (u :: v :: rest) =
      (edgeBD d edges u v && chainBD d edges (v :: rest)) := rfl

/-- A nonempty list always has a last element. -/
theorem getLast?_cons_isSome (a : NodeId) (l : List NodeId) :
    ∃ y, (a :: l).getLast? = some y := by
  induction l generalizing a with
  | nil => exact ⟨a, rfl⟩
  | cons b l ih =>
    rcases ih b with ⟨y, hy⟩
    exact ⟨y, by rw [List.getLast?_cons_cons]; exact hy⟩

/-- A list whose last element is a splits off that element. -/
theorem getLast?_eq_some_split {l : List NodeId} {a : NodeId}
    (h : l.getLast? = some a) : ∃ l', l = l' ++ [a] := by
  induction l with
  | nil => cases h
  | cons x l ih =>
    cases l with
    | nil =>
      have hxa : x = a := by
        have h2 : ([x] : List NodeId).getLast? = some x := rfl
        rw [h2] at h
        injection h
      exact ⟨[], by rw [hxa, List.nil_append]⟩
    | cons y l2 =>
      rw [List.getLast?_cons_cons] at h
      rcases ih h with ⟨l', hl⟩
      exact ⟨x :: l', by rw [List.cons_append, ← hl]⟩

/-- Chains survive dropping a suffix. -/
theorem chainBD_append_left (d : Bool) (edges : List Edge) :
    ∀ (a b : List NodeId), chainBD d edges (a ++ b) = true →
      chainBD d edges a = true := by
  intro a
  induction a with
  | nil => intro b _; rfl
  | cons x a ih =>
    intro b h
    match a with
    | [] => rfl
    | y :: a2 =>
      rw [List.cons_append, List.cons_append, chainBD_cons_cons] at h
      rcases bool_and_split h with ⟨h1, h2⟩
      rw [chainBD_cons_cons, h1,
        ih b (by rw [List.cons_append]; exact h2)]
      rfl

/-- The last edge of a chain ending in an appended element. -/
theorem chainBD_last_edge (d : Bool) (edges : List Edge) :
    ∀ (q : List NodeId) (y w : NodeId),
      chainBD d edges (q ++ [w]) = true → q.getLast? = some y →
      edgeBD d edges y w = true := by
  intro q
  induction q with
  | nil =>
    intro y w _ hy
    cases hy
  | cons x q ih =>
    intro y w hch hy
    cases q with
    | nil =>
      have hxy : x = y := by
        have h2 : ([x] : List NodeId).getLast? = some x := rfl
        rw [h2] at hy
        injection hy
      rw [show chainBD d edges ((x :: []) ++ [w]) =
        (edgeBD d edges x w && chainBD d edges [w]) from rfl] at hch
      rw [← hxy]
      exact (bool_and_split hch).1
    | cons z q2 =>
      rw [List.getLast?_cons_cons] at hy
      rw [show chainBD d edges ((x :: z :: q2) ++ [w]) =
        (edgeBD d edges x z && chainBD d edges ((z :: q2) ++ [w]))
        from rfl] at hch
      exact ih y w (bool_and_split hch).2 hy

/-- Extending a chain by one usable edge at the end. -/
theorem chainBD_snoc_intro (d : Bool) (edges : List Edge) :
    ∀ (p : List NodeId) (u v : NodeId), chainBD d edges p = true →
      p.getLast? = some u → edgeBD d edges u v = true →
      chainBD d edges (p ++ [v]) = true := by
  intro p
  induction p with
  | nil =>
    intro u v _ hu _
    cases hu
  | cons x p ih =>
    intro u v hch hu he
    cases p with
    | nil =>
      have hxu : x = u := by
        have h2 : ([x] : List NodeId).getLast? = some x := rfl
        rw [h2] at hu
        injection hu
      rw [show chainBD d edges ((x :: []) ++ [v]) =
        (edgeBD d edges x v && chainBD d edges [v]) from rfl]
      rw [hxu, he]
      rfl
    | cons y p2 =>
      rw [List.getLast?_cons_cons] at hu
      rw [chainBD_cons_cons] at hch
      rcases bool_and_split hch with ⟨h1, h2⟩
      rw [show chainBD d edges ((x :: y :: p2) ++ [v]) =
        (edgeBD d edges x y && chainBD d edges ((y :: p2) ++ [v]))
        from rfl, h1, ih u v h2 hu he]
      rfl

/-- A set closed under the edge relation contains every chain endpoint
whose chain starts inside it. -/
theorem reach_closed (d : Bool) (edges : List Edge) (visited : List NodeId)
    (hcl : ∀ u, u ∈ visited → ∀ v, edgeBD d edges u v = true →
      v ∈ visited) :
    ∀ (q : List NodeId) (s w : NodeId), chainBD d edges q = true →
      q.head? = some s → q.getLast? = some w → s ∈ visited →
      w ∈ visited := by
  intro q
  induction q with
  | nil =>
    intro s w _ hh _ _
    cases hh
  | cons x q2 ih =>
    intro s w hch hh hl hs
    have hxs : x = s := by injection hh
    subst hxs
    cases q2 with
    | nil =>
      have hxw : x = w := by
        have h2 : ([x] : List NodeId).getLast? = some x := rfl
        rw [h2] at hl
        injection hl
      rw [← hxw]
      exact hs
    | cons y q3 =>
      rw [chainBD_cons_cons] at hch
      rcases bool_and_split hch with ⟨h1, h2⟩
      rw [List.getLast?_cons_cons] at hl
      exact ih y w h2 rfl hl (hcl x hs y h1)

/-- A path from inside the visited set to an unvisited node crosses the
frontier: some visited prefix endpoint y has an unvisited neighbor, and
the prefix is strictly shorter than the whole path. -/
theorem path_exit_decomp (d : Bool) (edges : List Edge)
    (visited : List NodeId) (start : NodeId) (hs : start ∈ visited) :
    ∀ (n : Nat) (q : List NodeId) (w : NodeId), q.length ≤ n →
      chainBD d edges q = true → q.head? = some start →
      q.getLast? = some w → w ∉ visited →
      ∃ y qpre x, chainBD d edges qpre = true ∧ qpre.head? = some start ∧
        qpre.getLast? = some y ∧ y ∈ visited ∧
        edgeBD d edges y x = true ∧ x ∉ visited ∧
        qpre.length + 1 ≤ q.length := by
  intro n
  induction n with
  | zero =>
    intro q w hlen hch hh hl hw
    cases q with
    | nil => cases hh
    | cons a q2 => simp at hlen
  | succ n ih =>
    intro q w hlen hch hh hl hw
    rcases getLast?_eq_some_split hl with ⟨q', rfl⟩
    cases q' with
    | nil =>
      have hws : w = start := by
        have hh2 : (([] : List NodeId) ++ [w]).head? = some w := rfl
        rw [hh2] at hh
        injection hh
      rw [hws] at hw
      exact absurd hs hw
    | cons a q2 =>
      obtain ⟨y', hy'⟩ := getLast?_cons_isSome a q2
      have hlast_edge : edgeBD d edges y' w = true :=
        chainBD_last_edge d edges (a :: q2) y' w hch hy'
      have hch' : chainBD d edges (a :: q2) = true :=
        chainBD_append_left d edges (a :: q2) [w] hch
      have hh' : (a :: q2).head? = some start := hh
      by_cases hy'v : y' ∈ visited
      · refine ⟨y', a :: q2, w, hch', hh', hy', hy'v, hlast_edge, hw, ?_⟩
        rw [List.length_append]
        simp
      · have hlen' : (a :: q2).length ≤ n := by
          rw [List.length_append] at hlen
          simp only [List.length_singleton] at hlen
          omega
        obtain ⟨y, qpre, x, h1, h2, h3, h4, h5, h6, h7⟩ :=
          ih (a :: q2) y' hlen' hch' hh' hy' hy'v
        refine ⟨y, qpre, x, h1, h2, h3, h4, h5, h6, ?_⟩
        rw [List.length_append]
        simp only [List.length_singleton]
        omega

/-- Unfolding equation for one buildPathGo iteration. -/
theorem buildPathGo_succ (prev : Obj (Option NodeId)) (f : Nat)
    (cur : NodeId) (path : List NodeId) :
    buildPathGo prev (f+1) cur path =
      match objGet prev cur with
      | some (some nxt) => buildPathGo prev f nxt (cur :: path)
      | _ => some (cur :: path) := rfl

/-- A successful walk also succeeds with more fuel. -/
theorem buildPathGo_mono (prev : Obj (Option NodeId)) :
    ∀ (f f' : Nat) (w : NodeId) (path q : List NodeId), f ≤ f' →
      buildPathGo prev f w path = some q →
      buildPathGo prev f' w path = some q := by
  intro f
  induction f with
  | zero =>
    intro f' w path q _ h
    cases h
  | succ f ih =>
    intro f' w path q hle h
    cases f' with
    | zero => omega
    | succ f2 =>
      rw [buildPathGo_succ] at h ⊢
      rcases hg : objGet prev w with _ | o
      · rw [hg] at h
        exact h
      · rcases o with _ | nxt
        · rw [hg] at h
          exact h
        · rw [hg] at h
          exact ih f2 nxt (w :: path) q (by omega) h

/-- The accumulator is only ever appended to the walk's own nodes. -/
theorem buildPathGo_acc (prev : Obj (Option NodeId)) :
    ∀ (f : Nat) (w : NodeId) (path : List NodeId),
      buildPathGo prev f w path =
        (buildPathGo prev f w []).map (fun q => q ++ path) := by
  intro f
  induction f with
  | zero =>
    intro w path
    rfl
  | succ f ih =>
    intro w path
    rw [buildPathGo_succ prev f w path, buildPathGo_succ prev f w []]
    rcases hg : objGet prev w with _ | o
    · rfl
    · rcases o with _ | nxt
      · rfl
      · show buildPathGo prev f nxt (w :: path) =
          (buildPathGo prev f nxt [w]).map (fun q => q ++ path)
        rw [ih nxt (w :: path), ih nxt [w]]
        rcases hq : buildPathGo prev f nxt [] with _ | q
        · rfl
        · show some (q ++ (w :: path)) = some ((q ++ [w]) ++ path)
          rw [List.append_assoc]
          rfl

/-- A walk from w with empty accumulator ends in w. -/
theorem buildPathGo_last (prev : Obj (Option NodeId)) (f : Nat)
    (w : NodeId) (q0 : List NodeId)
    (h : buildPathGo prev f w [] = some q0) : ∃ pre, q0 = pre ++ [w] := by
  cases f with
  | zero => cases h
  | succ f =>
    rw [buildPathGo_succ] at h
    rcases hg : objGet prev w with _ | o
    · rw [hg] at h
      have h2 : some [w] = some q0 := h
      injection h2 with h2
      exact ⟨[], h2.symm⟩
    · rcases o with _ | nxt
      · rw [hg] at h
        have h2 : some [w] = some q0 := h
        injection h2 with h2
        exact ⟨[], h2.symm⟩
      · rw [hg] at h
        have h2 : buildPathGo prev f nxt [w] = some q0 := h
        rw [buildPathGo_acc prev f nxt [w]] at h2
        rcases hq : buildPathGo prev f nxt [] with _ | q1
        · rw [hq] at h2
          cases h2
        · rw [hq] at h2
          injection h2 with h2
          exact ⟨q1, h2.symm⟩

/-- The walk reads the map only at the nodes of its result. -/
theorem buildPathGo_congr_on (prev prev' : Obj (Option NodeId)) :
    ∀ (f : Nat) (w : NodeId) (path q : List NodeId),
      buildPathGo prev f w path = some q →
      (∀ y, y ∈ q → objGet prev' y = objGet prev y) →
      buildPathGo prev' f w path = some q := by
  intro f
  induction f with
  | zero =>
    intro w path q h _
    cases h
  | succ f ih =>
    intro w path q h hcong
    rw [buildPathGo_succ] at h ⊢
    have hwq : w ∈ q := by
      rcases hg : objGet prev w with _ | o
      · rw [hg] at h
        have h2 : some (w :: path) = some q := h
        injection h2 with h2
        rw [← h2]
        exact List.mem_cons_self _ _
      · rcases o with _ | nxt
        · rw [hg] at h
          have h2 : some (w :: path) = some q := h
          injection h2 with h2
          rw [← h2]
          exact List.mem_cons_self _ _
        · rw [hg] at h
          have h2 : buildPathGo prev f nxt (w :: path) = some q := h
          rw [buildPathGo_acc prev f nxt (w :: path)] at h2
          rcases hq : buildPathGo prev f nxt [] with _ | q1
          · rw [hq] at h2
            cases h2
          · rw [hq] at h2
            injection h2 with h2
            rw [← h2]
            exact List.mem_append.mpr (Or.inr (List.mem_cons_self _ _))
    rw [hcong w hwq]
    rcases hg : objGet prev w with _ | o
    · rw [hg] at h
      exact h
    · rcases o with _ | nxt
      · rw [hg] at h
        exact h
      · rw [hg] at h
        exact ih nxt (w :: path) q h hcong

/-- adjEnsure never changes the value list read back for any key. -/
theorem getD_adjEnsure (a : Obj (List NodeId)) (k u : NodeId) :
    (objGet (adjEnsure a k) u).getD [] = (objGet a u).getD [] := by
  unfold adjEnsure
  by_cases hk : objHasKey a k
  · rw [if_pos hk]
  · rw [if_neg hk]
    by_cases hu : u = k
    · subst hu
      rw [objGet_objSet_self,
        objGet_eq_none_of_not_hasKey (by simpa using hk)]
      rfl
    · rw [objGet_objSet_ne _ _ _ _ hu]

/-- Membership after an adjacency push. -/
theorem mem_adjAppend_iff (a : Obj (List NodeId)) (k x u v : NodeId) :
    (v ∈ (objGet (adjAppend a k x) u).getD []) ↔
      (v ∈ (objGet a u).getD [] ∨ (u = k ∧ v = x)) := by
  unfold adjAppend
  by_cases hu : u = k
  · subst hu
    rw [objGet_objSet_self]
    show v ∈ (objGet a u).getD [] ++ [x] ↔ _
    rw [List.mem_append, List.mem_singleton]
    constructor
    · rintro (h | h)
      · exact Or.inl h
      · exact Or.inr ⟨rfl, h⟩
    · rintro (h | ⟨_, h⟩)
      · exact Or.inl h
      · exact Or.inr h
  · rw [objGet_objSet_ne _ _ _ _ hu]
    constructor
    · exact Or.inl
    · rintro (h | ⟨h, _⟩)
      · exact h
      · exact absurd h hu

/-- Membership after processing one edge of buildAdjacency. -/
theorem mem_adjEdgeStep_iff (d : Bool) (a : Obj (List NodeId)) (e : Edge)
    (u v : NodeId) :
    (v ∈ (objGet (adjEdgeStep d a e) u).getD []) ↔
      (v ∈ (objGet a u).getD [] ∨ ((e.from_ = u ∧ e.to_ = v) ∨
        ((!d) = true ∧ e.to_ = u ∧ e.from_ = v))) := by
  unfold adjEdgeStep
  have hens : ∀ w, (objGet (adjEnsure (adjEnsure a e.from_) e.to_) w).getD []
      = (objGet a w).getD [] := by
    intro w
    rw [getD_adjEnsure, getD_adjEnsure]
  by_cases hd : d
  · rw [if_pos hd, mem_adjAppend_iff, hens]
    subst hd
    constructor
    · rintro (h | ⟨h1, h2⟩)
      · exact Or.inl h
      · exact Or.inr (Or.inl ⟨h1.symm, h2.symm⟩)
    · rintro (h | (⟨h1, h2⟩ | ⟨hfalse, _⟩))
      · exact Or.inl h
      · exact Or.inr ⟨h1.symm, h2.symm⟩
      · cases hfalse
  · have hd' : d = false := by simpa using hd
    subst hd'
    rw [if_neg (by simp), mem_adjAppend_iff, mem_adjAppend_iff, hens]
    constructor
    · rintro ((h | ⟨h1, h2⟩) | ⟨h1, h2⟩)
      · exact Or.inl h
      · exact Or.inr (Or.inl ⟨h1.symm, h2.symm⟩)
      · exact Or.inr (Or.inr ⟨rfl, h1.symm, h2.symm⟩)
    · rintro (h | (⟨h1, h2⟩ | ⟨_, h1, h2⟩))
      · exact Or.inl (Or.inl h)
      · exact Or.inl (Or.inr ⟨h1.symm, h2.symm⟩)
      · exact Or.inr ⟨h1.symm, h2.symm⟩

/-- Membership through the whole edge fold of buildAdjacency. -/
theorem mem_foldl_adjEdgeStep_iff (d : Bool) :
    ∀ (edges : List Edge) (a : Obj (List NodeId)) (u v : NodeId),
      (v ∈ (objGet (edges.foldl (adjEdgeStep d) a) u).getD []) ↔
        (v ∈ (objGet a u).getD [] ∨
          edges.any (fun e => (e.from_ == u && e.to_ == v) ||
            (!d && (e.to_ == u && e.from_ == v))) = true) := by
  intro edges
  induction edges with
  | nil =>
    intro a u v
    simp
  | cons e es ih =>
    intro a u v
    rw [List.foldl_cons, ih, mem_adjEdgeStep_iff]
    have hbe : ((fun e2 : Edge => (e2.from_ == u && e2.to_ == v) ||
        (!d && (e2.to_ == u && e2.from_ == v))) e = true) ↔
        ((e.from_ = u ∧ e.to_ = v) ∨ ((!d) = true ∧ e.to_ = u ∧
          e.from_ = v)) := by
      simp
    rw [List.any_cons]
    rw [show ((((fun e2 : Edge => (e2.from_ == u && e2.to_ == v) ||
      (!d && (e2.to_ == u && e2.from_ == v))) e) ||
      es.any (fun e2 => (e2.from_ == u && e2.to_ == v) ||
        (!d && (e2.to_ == u && e2.from_ == v)))) = true) =
      ((((fun e2 : Edge => (e2.from_ == u && e2.to_ == v) ||
      (!d && (e2.to_ == u && e2.from_ == v))) e) = true) ∨
      (es.any (fun e2 => (e2.from_ == u && e2.to_ == v) ||
        (!d && (e2.to_ == u && e2.from_ == v))) = true))
      from Bool.or_eq_true _ _]
    rw [hbe]
    tauto

/-- Every value of the node-initialization fold is the seed. -/
theorem objGet_foldl_init_vals {α : Type} (v0 : α) :
    ∀ (ns : List Node) (a : Obj α),
      (∀ w, objGet a w = none ∨ objGet a w = some v0) →
      ∀ u, objGet (ns.foldl (fun a n => objSet a n.id v0) a) u = none ∨
        objGet (ns.foldl (fun a n => objSet a n.id v0) a) u = some v0 := by
  intro ns
  induction ns with
  | nil =>
    intro a h u
    exact h u
  | cons n ns ih =>
    intro a h u
    rw [List.foldl_cons]
    refine ih _ ?_ u
    intro w
    by_cases hw : w = n.id
    · subst hw
      exact Or.inr (objGet_objSet_self _ _ _)
    · rw [objGet_objSet_ne _ _ _ _ hw]
      exact h w

/-- The adjacency lists of buildAdjacency realize exactly the usable
edge relation. -/
theorem mem_buildAdjacency (nodes : List Node) (edges : List Edge)
    (d : Bool) (u v : NodeId) :
    (v ∈ (objGet (buildAdjacency nodes edges d) u).getD []) ↔
      edgeBD d edges u v = true := by
  unfold edgeBD
  show v ∈ (objGet (List.foldl (adjEdgeStep d)
    (List.foldl (fun a n => objSet a n.id []) [] nodes) edges) u).getD [] ↔ _
  rw [mem_foldl_adjEdgeStep_iff]
  have h0 : (objGet (nodes.foldl (fun a n => objSet a n.id [])
      ([] : Obj (List NodeId))) u).getD [] = ([] : List NodeId) := by
    rcases objGet_foldl_init_vals [] nodes [] (fun w => Or.inl rfl) u with
      h | h
    · rw [h]
      rfl
    · rw [h]
      rfl
  rw [h0]
  simp

/-- The body of the neighbor fold inside bfsLoop: discover v if unseen,
recording parent u. -/
def bfsInner (u : NodeId) (t : BfsState) (v : NodeId) : BfsState :=
  if v ∈ t.visited then t
  else
    let visited := setAdd t.visited v
    let previous := objSet t.previous v (some u)
    let queue := t.queue ++ [v]
    { t with
      visited := visited
      previous := previous
      queue := queue
      steps := t.steps ++ [{
        visited := some visited
        current := some (some v)
        queue := some queue
        path := some (buildPathD previous (some v))
        previous := some previous }] }

/-- One bfsLoop iteration on a nonempty queue: either the end-node exit
or the neighbor fold followed by the rest of the loop. -/
theorem bfsLoop_cons (adj : Obj (List NodeId)) (endNode : Option NodeId)
    (fuel : Nat) (vis : List NodeId) (prev : Obj (Option NodeId))
    (st : List Step) (fnd : Bool) (u : NodeId) (rest : List NodeId) :
    bfsLoop adj endNode (fuel+1) ⟨u :: rest, vis, prev, st, fnd⟩ =
      if some u = endNode then
        ⟨rest, vis, prev, st ++ [{
          visited := some vis
          current := some (some u)
          queue := some rest
          path := some (buildPathD prev (some u))
          previous := some prev }], true⟩
      else bfsLoop adj endNode fuel
        (((objGet adj u).getD []).foldl (bfsInner u)
          ⟨rest, vis, prev, st, fnd⟩) := rfl

/-- bfsLoop is the identity on an empty queue. -/
theorem bfsLoop_nil (adj : Obj (List NodeId)) (endNode : Option NodeId)
    (fuel : Nat) (vis : List NodeId) (prev : Obj (Option NodeId))
    (st : List Step) (fnd : Bool) :
    bfsLoop adj endNode (fuel+1) ⟨[], vis, prev, st, fnd⟩ =
      ⟨[], vis, prev, st, fnd⟩ := rfl

/-- Setting a fresh key appends one entry. -/
theorem objSet_length_fresh {α : Type} (o : Obj α) (k : NodeId) (v : α)
    (h : objHasKey o k = false) :
    (objSet o k v).length = o.length + 1 := by
  unfold objSet
  rw [if_neg (by simp [h])]
  rw [List.length_append]
  rfl

/-- Cumulative effect of the neighbor fold: the unseen neighbors (once
each, in order) are appended to the visited set and the queue and get u
recorded as parent; everything else is untouched. -/
theorem bfsInner_fold_spec (u : NodeId) :
    ∀ (vs : List NodeId) (t : BfsState),
      (∀ w, objHasKey t.previous w = true ↔ w ∈ t.visited) →
      ∃ newq : List NodeId,
        (vs.foldl (bfsInner u) t).visited = t.visited ++ newq ∧
        (vs.foldl (bfsInner u) t).queue = t.queue ++ newq ∧
        (vs.foldl (bfsInner u) t).found = t.found ∧
        newq.Nodup ∧
        (∀ w, w ∈ newq ↔ (w ∈ vs ∧ w ∉ t.visited)) ∧
        (∀ w, objGet (vs.foldl (bfsInner u) t).previous w =
          (if w ∈ newq then some (some u) else objGet t.previous w)) ∧
        (vs.foldl (bfsInner u) t).previous.length =
          t.previous.length + newq.length ∧
        (∀ w, objHasKey (vs.foldl (bfsInner u) t).previous w = true ↔
          w ∈ (vs.foldl (bfsInner u) t).visited) := by
  intro vs
  induction vs with
  | nil =>
    intro t hkey
    refine ⟨[], by simp, by simp, rfl, List.nodup_nil, ?_, ?_, by simp, hkey⟩
    · intro w
      simp
    · intro w
      rw [if_neg (List.not_mem_nil w)]
      rfl
  | cons v vs ih =>
    intro t hkey
    rw [List.foldl_cons]
    by_cases hv : v ∈ t.visited
    · have hstep : bfsInner u t v = t := by
        unfold bfsInner
        rw [if_pos hv]
      rw [hstep]
      obtain ⟨newq, h1, h2, h3, h4, h5, h6, h7, h8⟩ := ih t hkey
      refine ⟨newq, h1, h2, h3, h4, ?_, h6, h7, h8⟩
      intro w
      rw [h5 w]
      constructor
      · rintro ⟨hw1, hw2⟩
        exact ⟨List.mem_cons_of_mem _ hw1, hw2⟩
      · rintro ⟨hw1, hw2⟩
        rcases List.mem_cons.mp hw1 with rfl | hw1
        · exact absurd hv hw2
        · exact ⟨hw1, hw2⟩
    · have hfresh : objHasKey t.previous v = false := by
        rcases hb : objHasKey t.previous v with _ | _
        · rfl
        · exact absurd ((hkey v).mp hb) hv
      have hsadd : setAdd t.visited v = t.visited ++ [v] := by
        unfold setAdd
        rw [if_neg hv]
      have hstep : bfsInner u t v = { t with
          visited := t.visited ++ [v]
          previous := objSet t.previous v (some u)
          queue := t.queue ++ [v]
          steps := t.steps ++ [{
            visited := some (setAdd t.visited v)
            current := some (some v)
            queue := some (t.queue ++ [v])
            path := some (buildPathD (objSet t.previous v (some u)) (some v))
            previous := some (objSet t.previous v (some u)) }] } := by
        unfold bfsInner
        rw [if_neg hv, hsadd]
      have hv1 : (bfsInner u t v).visited = t.visited ++ [v] := by rw [hstep]
      have hpv : (bfsInner u t v).previous = objSet t.previous v (some u) := by
        rw [hstep]
      have hqv : (bfsInner u t v).queue = t.queue ++ [v] := by rw [hstep]
      have hfv : (bfsInner u t v).found = t.found := by rw [hstep]
      have hkey1 : ∀ w, objHasKey (bfsInner u t v).previous w = true ↔
          w ∈ (bfsInner u t v).visited := by
        intro w
        rw [hpv, hv1, objHasKey_objSet, List.mem_append, List.mem_singleton]
        constructor
        · intro h
          rcases bool_or_split h with h | h
          · exact Or.inl ((hkey w).mp h)
          · exact Or.inr (by simpa using h)
        · rintro (h | h)
          · rw [(hkey w).mpr h]
            rfl
          · subst h
            simp
      obtain ⟨newq2, h1, h2, h3, h4, h5, h6, h7, h8⟩ :=
        ih (bfsInner u t v) hkey1
      rw [hv1] at h1
      rw [hqv] at h2
      rw [hfv] at h3
      rw [hv1] at h5
      rw [hpv] at h6
      rw [hpv, objSet_length_fresh _ _ _ hfresh] at h7
      have hvnot2 : v ∉ newq2 := by
        intro hc
        exact ((h5 v).mp hc).2
          (List.mem_append.mpr (Or.inr (List.mem_singleton.mpr rfl)))
      refine ⟨v :: newq2, ?_, ?_, h3, ?_, ?_, ?_, ?_, h8⟩
      · rw [h1, List.append_assoc]
        rfl
      · rw [h2, List.append_assoc]
        rfl
      · rw [List.nodup_cons]
        exact ⟨hvnot2, h4⟩
      · intro w
        constructor
        · intro hw
          rcases List.mem_cons.mp hw with rfl | hw
          · exact ⟨List.mem_cons_self _ _, hv⟩
          · obtain ⟨hw1, hw2⟩ := (h5 w).mp hw
            refine ⟨List.mem_cons_of_mem _ hw1, ?_⟩
            intro hc
            exact hw2 (List.mem_append.mpr (Or.inl hc))
        · rintro ⟨hw1, hw2⟩
          rcases List.mem_cons.mp hw1 with rfl | hw1
          · exact List.mem_cons_self _ _
          · by_cases hwv : w = v
            · subst hwv
              exact List.mem_cons_self _ _
            · refine List.mem_cons_of_mem _ ((h5 w).mpr ⟨hw1, ?_⟩)
              intro hc
              rcases List.mem_append.mp hc with hc | hc
              · exact hw2 hc
              · exact hwv (List.mem_singleton.mp hc)
      · intro w
        rw [h6 w]
        by_cases hw : w ∈ newq2
        · rw [if_pos hw, if_pos (List.mem_cons_of_mem _ hw)]
        · rw [if_neg hw]
          by_cases hwv : w = v
          · subst hwv
            rw [objGet_objSet_self, if_pos (List.mem_cons_self _ _)]
          · rw [objGet_objSet_ne _ _ _ _ hwv,
              if_neg (by
                intro hc
                rcases List.mem_cons.mp hc with hc | hc
                · exact hwv hc
                · exact hw hc)]
      · rw [h7, List.length_cons]
        omega

/-- All ids occurring as edge endpoints. -/
def edgeEndpoints : List Edge → List NodeId
  | [] => []
  | e :: es => e.from_ :: e.to_ :: edgeEndpoints es

theorem edgeEndpoints_length (edges : List Edge) :
    (edgeEndpoints edges).length = 2 * edges.length := by
  induction edges with
  | nil => rfl
  | cons e es ih =>
    show (edgeEndpoints es).length + 1 + 1 = 2 * (es.length + 1)
    omega

theorem mem_edgeEndpoints {e : Edge} {edges : List Edge} (h : e ∈ edges) :
    e.from_ ∈ edgeEndpoints edges ∧ e.to_ ∈ edgeEndpoints edges := by
  induction edges with
  | nil => cases h
  | cons e2 es ih =>
    rcases List.mem_cons.mp h with rfl | h
    · exact ⟨List.mem_cons_self _ _,
        List.mem_cons_of_mem _ (List.mem_cons_self _ _)⟩
    · obtain ⟨h1, h2⟩ := ih h
      exact ⟨List.mem_cons_of_mem _ (List.mem_cons_of_mem _ h1),
        List.mem_cons_of_mem _ (List.mem_cons_of_mem _ h2)⟩

/-- A usable edge's target is an edge endpoint. -/
theorem edgeBD_endpoint {d : Bool} {edges : List Edge} {u v : NodeId}
    (h : edgeBD d edges u v = true) : v ∈ edgeEndpoints edges := by
  unfold edgeBD at h
  rcases List.any_eq_true.mp h with ⟨e, he, hp⟩
  rcases bool_or_split hp with h1 | h1
  · rcases bool_and_split h1 with ⟨_, h2⟩
    have : e.to_ = v := by simpa using h2
    rw [← this]
    exact (mem_edgeEndpoints he).2
  · rcases bool_and_split h1 with ⟨_, h2⟩
    rcases bool_and_split h2 with ⟨_, h3⟩
    have : e.from_ = v := by simpa using h3
    rw [← this]
    exact (mem_edgeEndpoints he).1

/-- Transporting a pairwise relation along a member-wise implication. -/
theorem pairwise_imp_on {R S : NodeId → NodeId → Prop} :
    ∀ (l : List NodeId), (∀ a, a ∈ l → ∀ b, b ∈ l → R a b → S a b) →
      l.Pairwise R → l.Pairwise S := by
  intro l
  induction l with
  | nil =>
    intro _ _
    exact List.Pairwise.nil
  | cons x l ih =>
    intro h hp
    rcases List.pairwise_cons.mp hp with ⟨h1, h2⟩
    refine List.pairwise_cons.mpr ⟨?_, ?_⟩
    · intro b hb
      exact h x (List.mem_cons_self _ _) b (List.mem_cons_of_mem _ hb)
        (h1 b hb)
    · exact ih (fun a ha b hb => h a (List.mem_cons_of_mem _ ha) b
        (List.mem_cons_of_mem _ hb)) h2

/-- A relation holding between all members holds pairwise. -/
theorem pairwise_of_all {R : NodeId → NodeId → Prop} :
    ∀ (l : List NodeId), (∀ a, a ∈ l → ∀ b, b ∈ l → R a b) →
      l.Pairwise R := by
  intro l
  induction l with
  | nil =>
    intro _
    exact List.Pairwise.nil
  | cons x l ih =>
    intro h
    refine List.pairwise_cons.mpr ⟨?_, ?_⟩
    · intro b hb
      exact h x (List.mem_cons_self _ _) b (List.mem_cons_of_mem _ hb)
    · exact ih (fun a ha b hb => h a (List.mem_cons_of_mem _ ha) b
        (List.mem_cons_of_mem _ hb))

/-- A nonempty head survives appending. -/
theorem head?_append_of_some {p l : List NodeId} {a : NodeId}
    (h : p.head? = some a) : (p ++ l).head? = some a := by
  cases p with
  | nil => cases h
  | cons x p2 => exact h

/-- Invariant of the BFS loop: the visited set is duplicate-free and
bounded by the input ids; the queue holds visited ids at levels that are
non-decreasing and spread at most one apart; every visited id's
predecessor walk yields a start-rooted path of exactly its level, which
is a lower bound on every path to it; fully-expanded ids have all
neighbors visited; the predecessor keys are exactly the visited ids; the
end node is not yet expanded; found is still false. -/
def BfsInvW (d : Bool) (edges : List Edge) (start endN : NodeId)
    (dv : NodeId → Nat) (s : BfsState) : Prop :=
  s.visited.Nodup ∧
  start ∈ s.visited ∧
  (∀ v, v ∈ s.queue → v ∈ s.visited) ∧
  (∀ v, v ∈ s.visited → ∃ p,
    buildPathGo s.previous (s.previous.length + 1) v [] = some p ∧
    chainBD d edges p = true ∧ p.head? = some start ∧
    p.getLast? = some v ∧ p.length = dv v + 1 ∧
    (∀ x, x ∈ p → x ∈ s.visited)) ∧
  (∀ v, v ∈ s.visited → ∀ q, chainBD d edges q = true →
    q.head? = some start → q.getLast? = some v → dv v + 1 ≤ q.length) ∧
  s.queue.Pairwise (fun a b => dv a ≤ dv b) ∧
  (∀ a, a ∈ s.queue → ∀ b, b ∈ s.queue → dv a ≤ dv b + 1) ∧
  (∀ u, u ∈ s.visited → u ∉ s.queue → ∀ v, edgeBD d edges u v = true →
    v ∈ s.visited) ∧
  (∀ w, objHasKey s.previous w = true ↔ w ∈ s.visited) ∧
  s.previous.length = s.visited.length ∧
  (endN ∉ s.visited ∨ endN ∈ s.queue) ∧
  (∀ v, v ∈ s.visited → v = start ∨ v ∈ edgeEndpoints edges) ∧
  s.found = false

/-- What holds when the BFS loop returns: every visited id's walk is a
start-rooted hop-minimal path; on the found exit the end node is
visited; otherwise the visited set is closed under usable edges and
misses the end node. -/
def BfsPost (d : Bool) (edges : List Edge) (start endN : NodeId)
    (s : BfsState) : Prop :=
  ∃ dv : NodeId → Nat,
    (∀ v, v ∈ s.visited → ∃ p,
      buildPathGo s.previous (s.previous.length + 1) v [] = some p ∧
      chainBD d edges p = true ∧ p.head? = some start ∧
      p.getLast? = some v ∧ p.length = dv v + 1) ∧
    (∀ v, v ∈ s.visited → ∀ q, chainBD d edges q = true →
      q.head? = some start → q.getLast? = some v → dv v + 1 ≤ q.length) ∧
    (s.found = true → endN ∈ s.visited) ∧
    (s.found = false →
      (∀ u, u ∈ s.visited → ∀ v, edgeBD d edges u v = true →
        v ∈ s.visited) ∧ start ∈ s.visited ∧ endN ∉ s.visited)

/-- The BFS loop turns any invariant state into the post-condition,
given fuel exceeding the loop measure. -/
theorem bfsLoop_master (d : Bool) (edges : List Edge)
    (adj : Obj (List NodeId)) (start endN : NodeId)
    (hadj : ∀ u v, (v ∈ (objGet adj u).getD []) ↔
      edgeBD d edges u v = true) :
    ∀ (fuel : Nat) (s : BfsState) (dv : NodeId → Nat),
      BfsInvW d edges start endN dv s →
      s.queue.length + ((1 + 2 * edges.length) - s.visited.length) < fuel →
      BfsPost d edges start endN (bfsLoop adj (some endN) fuel s) := by
  intro fuel
  induction fuel with
  | zero =>
    intro s dv _ hlt
    exact absurd hlt (by omega)
  | succ fuel ih =>
    intro s dv hinv hlt
    obtain ⟨q, vis, prev, st, fnd⟩ := s
    obtain ⟨hND, hSV, hQV, hP1, hMIN, hMONO, hSPREAD, hCLOSED, hKEY, hKLEN,
      hENDQ, hBOUND, hNF⟩ := hinv
    dsimp only at hND hSV hQV hP1 hMIN hMONO hSPREAD hCLOSED hKEY hKLEN hENDQ hBOUND hNF hlt
    subst hNF
    cases q with
    | nil =>
      rw [bfsLoop_nil]
      refine ⟨dv, ?_, hMIN, ?_, ?_⟩
      · intro v hv
        obtain ⟨p, h1, h2, h3, h4, h5, _⟩ := hP1 v hv
        exact ⟨p, h1, h2, h3, h4, h5⟩
      · intro hc
        cases hc
      · intro _
        refine ⟨?_, hSV, ?_⟩
        · intro u0 hu0 v hv
          exact hCLOSED u0 hu0 (List.not_mem_nil u0) v hv
        · rcases hENDQ with h | h
          · exact h
          · exact absurd h (List.not_mem_nil endN)
    | cons u rest =>
      rw [bfsLoop_cons]
      by_cases hue : some u = some endN
      · rw [if_pos hue]
        injection hue with hue
        refine ⟨dv, ?_, hMIN, ?_, ?_⟩
        · intro v hv
          obtain ⟨p, h1, h2, h3, h4, h5, _⟩ := hP1 v hv
          exact ⟨p, h1, h2, h3, h4, h5⟩
        · intro _
          rw [← hue]
          exact hQV u (List.mem_cons_self _ _)
        · intro hc
          cases hc
      · rw [if_neg hue]
        have hue' : u ≠ endN := fun hc => hue (by rw [hc])
        have hu_vis : u ∈ vis := hQV u (List.mem_cons_self _ _)
        obtain ⟨newq, hV, hQ, hF, hNd, hMem, hGet, hLen, hKey2⟩ :=
          bfsInner_fold_spec u ((objGet adj u).getD [])
            (⟨rest, vis, prev, st, false⟩ : BfsState) hKEY
        dsimp only at hV hQ hF hMem hGet hLen hKey2
        have hnew_edge : ∀ w, w ∈ newq → edgeBD d edges u w = true :=
          fun w hw => (hadj u w).mp ((hMem w).mp hw).1
        have hnew_fresh : ∀ w, w ∈ newq → w ∉ vis :=
          fun w hw => ((hMem w).mp hw).2
        have hvis_nonew : ∀ v, v ∈ vis → v ∉ newq :=
          fun v hv hc => hnew_fresh v hc hv
        have hrest_vis : ∀ v, v ∈ rest → v ∈ vis :=
          fun v hv => hQV v (List.mem_cons_of_mem _ hv)
        have hrest_nonew : ∀ v, v ∈ rest → v ∉ newq :=
          fun v hv => hvis_nonew v (hrest_vis v hv)
        have hhead : ∀ b, b ∈ rest → dv u ≤ dv b :=
          (List.pairwise_cons.mp hMONO).1
        have htail : rest.Pairwise (fun a b => dv a ≤ dv b) :=
          (List.pairwise_cons.mp hMONO).2
        have hcong : ∀ y, y ∈ vis →
            objGet (((objGet adj u).getD []).foldl (bfsInner u)
              (⟨rest, vis, prev, st, false⟩ : BfsState)).previous y =
            objGet prev y := by
          intro y hy
          rw [hGet y, if_neg (hvis_nonew y hy)]
        have hP1old : ∀ v, v ∈ vis → ∃ p,
            buildPathGo (((objGet adj u).getD []).foldl (bfsInner u)
              (⟨rest, vis, prev, st, false⟩ : BfsState)).previous
              ((((objGet adj u).getD []).foldl (bfsInner u)
                (⟨rest, vis, prev, st, false⟩ : BfsState)).previous.length
                + 1) v [] = some p ∧
            chainBD d edges p = true ∧ p.head? = some start ∧
            p.getLast? = some v ∧ p.length = dv v + 1 ∧
            (∀ x, x ∈ p → x ∈ vis) := by
          intro v hv
          obtain ⟨p, h1, h2, h3, h4, h5, h6⟩ := hP1 v hv
          refine ⟨p, ?_, h2, h3, h4, h5, h6⟩
          have hc1 := buildPathGo_congr_on prev _ (prev.length + 1) v [] p h1
            (fun y hy => hcong y (h6 y hy))
          exact buildPathGo_mono _ (prev.length + 1) _ v [] p
            (by rw [hLen]; omega) hc1
        have hP1new : ∀ w, w ∈ newq → ∃ p,
            buildPathGo (((objGet adj u).getD []).foldl (bfsInner u)
              (⟨rest, vis, prev, st, false⟩ : BfsState)).previous
              ((((objGet adj u).getD []).foldl (bfsInner u)
                (⟨rest, vis, prev, st, false⟩ : BfsState)).previous.length
                + 1) w [] = some p ∧
            chainBD d edges p = true ∧ p.head? = some start ∧
            p.getLast? = some w ∧ p.length = dv u + 2 ∧
            (∀ x, x ∈ p → x ∈ vis ++ newq) := by
          intro w hw
          obtain ⟨pu, h1, h2, h3, h4, h5, h6⟩ := hP1 u hu_vis
          have hlen1 : 1 ≤ newq.length := by
            cases newq with
            | nil => cases hw
            | cons a l => simp
          have hcu := buildPathGo_congr_on prev _ (prev.length + 1) u [] pu h1
            (fun y hy => hcong y (h6 y hy))
          have hcu2 := buildPathGo_mono _ (prev.length + 1)
            ((((objGet adj u).getD []).foldl (bfsInner u)
              (⟨rest, vis, prev, st, false⟩ : BfsState)).previous.length)
            u [] pu (by rw [hLen]; omega) hcu
          refine ⟨pu ++ [w], ?_, ?_, ?_, ?_, ?_, ?_⟩
          · rw [buildPathGo_succ]
            rw [hGet w, if_pos hw]
            show buildPathGo _ (((((objGet adj u).getD []).foldl (bfsInner u)
              (⟨rest, vis, prev, st, false⟩ : BfsState)).previous.length))
              u [w] = some (pu ++ [w])
            rw [buildPathGo_acc _ _ u [w], hcu2]
            rfl
          · exact chainBD_snoc_intro d edges pu u w h2 h4 (hnew_edge w hw)
          · exact head?_append_of_some h3
          · rw [List.getLast?_concat]
          · rw [List.length_append, List.length_singleton, h5]
          · intro x hx
            rcases List.mem_append.mp hx with hx | hx
            · exact List.mem_append.mpr (Or.inl (h6 x hx))
            · rw [List.mem_singleton.mp hx]
              exact List.mem_append.mpr (Or.inr hw)
        have hMINnew : ∀ w, w ∈ newq → ∀ qq, chainBD d edges qq = true →
            qq.head? = some start → qq.getLast? = some w →
            dv u + 2 ≤ qq.length := by
          intro w hw qq hch hh hl
          obtain ⟨y, qpre, x, hc1, hc2, hc3, hc4, hc5, hc6, hc7⟩ :=
            path_exit_decomp d edges vis start hSV qq.length qq w
              (le_refl _) hch hh hl (hnew_fresh w hw)
          have hyq : y ∈ u :: rest := by
            by_contra hyq
            exact hc6 (hCLOSED y hc4 hyq x hc5)
          have hdyu : dv u ≤ dv y := by
            rcases List.mem_cons.mp hyq with rfl | hyq2
            · exact le_refl _
            · exact hhead y hyq2
          have hminy := hMIN y hc4 qpre hc1 hc2 hc3
          omega
        have hsub2 : ∀ x, x ∈ vis ++ newq →
            x ∈ start :: edgeEndpoints edges := by
          intro x hx
          rcases List.mem_append.mp hx with hx | hx
          · rcases hBOUND x hx with rfl | h
            · exact List.mem_cons_self _ _
            · exact List.mem_cons_of_mem _ h
          · exact List.mem_cons_of_mem _ (edgeBD_endpoint (hnew_edge x hx))
        have hND2 : (vis ++ newq).Nodup := by
          rw [List.nodup_append]
          exact ⟨hND, hNd, fun a ha hb => hnew_fresh a hb ha⟩
        have hlen2 : (vis ++ newq).length ≤ 1 + 2 * edges.length := by
          have h := nodup_subset_length_le (vis ++ newq)
            (start :: edgeEndpoints edges) hND2 hsub2
          rw [List.length_cons, edgeEndpoints_length] at h
          omega
        refine ih _ (fun w => if w ∈ newq then dv u + 1 else dv w)
          ⟨?_, ?_, ?_, ?_, ?_, ?_, ?_, ?_, ?_, ?_, ?_, ?_, ?_⟩ ?_
        · rw [hV]
          exact hND2
        · rw [hV]
          exact List.mem_append.mpr (Or.inl hSV)
        · intro v hv
          rw [hQ] at hv
          rw [hV]
          rcases List.mem_append.mp hv with hv | hv
          · exact List.mem_append.mpr (Or.inl (hrest_vis v hv))
          · exact List.mem_append.mpr (Or.inr hv)
        · intro v hv
          rw [hV] at hv
          rcases List.mem_append.mp hv with hv | hv
          · obtain ⟨p, a1, a2, a3, a4, a5, a6⟩ := hP1old v hv
            refine ⟨p, a1, a2, a3, a4, ?_, ?_⟩
            · show p.length = (if v ∈ newq then dv u + 1 else dv v) + 1
              rw [if_neg (hvis_nonew v hv)]
              exact a5
            · intro x hx
              rw [hV]
              exact List.mem_append.mpr (Or.inl (a6 x hx))
          · obtain ⟨p, a1, a2, a3, a4, a5, a6⟩ := hP1new v hv
            refine ⟨p, a1, a2, a3, a4, ?_, ?_⟩
            · show p.length = (if v ∈ newq then dv u + 1 else dv v) + 1
              rw [if_pos hv]
              exact a5
            · intro x hx
              rw [hV]
              exact a6 x hx
        · intro v hv qq hch hh hl
          rw [hV] at hv
          rcases List.mem_append.mp hv with hv | hv
          · show (if v ∈ newq then dv u + 1 else dv v) + 1 ≤ qq.length
            rw [if_neg (hvis_nonew v hv)]
            exact hMIN v hv qq hch hh hl
          · show (if v ∈ newq then dv u + 1 else dv v) + 1 ≤ qq.length
            rw [if_pos hv]
            have := hMINnew v hv qq hch hh hl
            omega
        · rw [hQ, List.pairwise_append]
          refine ⟨?_, ?_, ?_⟩
          · refine pairwise_imp_on rest ?_ htail
            intro a ha b hb hR
            show (if a ∈ newq then dv u + 1 else dv a) ≤
              (if b ∈ newq then dv u + 1 else dv b)
            rw [if_neg (hrest_nonew a ha), if_neg (hrest_nonew b hb)]
            exact hR
          · refine pairwise_of_all newq ?_
            intro a ha b hb
            show (if a ∈ newq then dv u + 1 else dv a) ≤
              (if b ∈ newq then dv u + 1 else dv b)
            rw [if_pos ha, if_pos hb]
          · intro a ha b hb
            show (if a ∈ newq then dv u + 1 else dv a) ≤
              (if b ∈ newq then dv u + 1 else dv b)
            rw [if_neg (hrest_nonew a ha), if_pos hb]
            exact hSPREAD a (List.mem_cons_of_mem _ ha) u
              (List.mem_cons_self _ _)
        · intro a ha b hb
          rw [hQ] at ha hb
          rcases List.mem_append.mp ha with ha | ha <;>
            rcases List.mem_append.mp hb with hb | hb <;>
            show (if a ∈ newq then dv u + 1 else dv a) ≤
              (if b ∈ newq then dv u + 1 else dv b) + 1
          · rw [if_neg (hrest_nonew a ha), if_neg (hrest_nonew b hb)]
            exact hSPREAD a (List.mem_cons_of_mem _ ha) b
              (List.mem_cons_of_mem _ hb)
          · rw [if_neg (hrest_nonew a ha), if_pos hb]
            have := hSPREAD a (List.mem_cons_of_mem _ ha) u
              (List.mem_cons_self _ _)
            omega
          · rw [if_pos ha, if_neg (hrest_nonew b hb)]
            have := hhead b hb
            omega
          · rw [if_pos ha, if_pos hb]
            omega
        · intro u0 hu0 hu0q v hv
          rw [hV] at hu0
          rw [hQ] at hu0q
          rw [hV]
          rcases List.mem_append.mp hu0 with hu0 | hu0
          · by_cases hu0u : u0 = u
            · subst hu0u
              have hvvs : v ∈ (objGet adj u0).getD [] := (hadj u0 v).mpr hv
              by_cases hvv : v ∈ vis
              · exact List.mem_append.mpr (Or.inl hvv)
              · exact List.mem_append.mpr (Or.inr ((hMem v).mpr ⟨hvvs, hvv⟩))
            · have hout : u0 ∉ u :: rest := by
                intro hc
                rcases List.mem_cons.mp hc with hc | hc
                · exact hu0u hc
                · exact hu0q (List.mem_append.mpr (Or.inl hc))
              exact List.mem_append.mpr
                (Or.inl (hCLOSED u0 hu0 hout v hv))
          · exact absurd (List.mem_append.mpr (Or.inr hu0)) hu0q
        · exact hKey2
        · rw [hLen, hV, List.length_append, hKLEN]
        · rw [hV, hQ]
          by_cases hEv : endN ∈ vis ++ newq
          · refine Or.inr ?_
            rcases List.mem_append.mp hEv with hE2 | hE2
            · rcases hENDQ with h | h
              · exact absurd hE2 h
              · rcases List.mem_cons.mp h with h | h
                · exact absurd h.symm hue'
                · exact List.mem_append.mpr (Or.inl h)
            · exact List.mem_append.mpr (Or.inr hE2)
          · exact Or.inl hEv
        · intro v hv
          rw [hV] at hv
          rcases List.mem_cons.mp (hsub2 v hv) with h | h
          · exact Or.inl h
          · exact Or.inr h
        · exact hF
        · rw [hQ, hV, List.length_append, List.length_append]
          rw [List.length_cons] at hlt
          rw [List.length_append] at hlen2
          omega

/-- The starting loop state of runBFS. -/
def bfsStart (startNode : NodeId) : BfsState :=
  { queue := [startNode]
    visited := setOf [startNode]
    previous := objSet ([] : Obj (Option NodeId)) startNode none
    steps := [{
      visited := some (setOf [startNode])
      current := some (some startNode)
      queue := some [startNode]
      path := some (buildPathD
        (objSet ([] : Obj (Option NodeId)) startNode none) (some startNode))
      previous := some (objSet ([] : Obj (Option NodeId)) startNode none) }]
    found := false }

/-- The loop state runBFS ends with. -/
def bfsFinish (nodes : List Node) (edges : List Edge) (options : Options)
    (startNode : NodeId) : BfsState :=
  bfsLoop (buildAdjacency nodes edges (options.isDirected.getD false))
    options.endNode (bfsFuel nodes edges) (bfsStart startNode)

theorem bfsStart_visited (s : NodeId) : (bfsStart s).visited = [s] := by
  show setOf [s] = [s]
  unfold setOf
  rw [List.foldl_cons, List.foldl_nil]
  unfold setAdd
  rw [if_neg (List.not_mem_nil _)]
  rfl

theorem bfsStart_previous (s : NodeId) : (bfsStart s).previous =
    [(s, none)] := by
  show objSet ([] : Obj (Option NodeId)) s none = _
  unfold objSet
  rw [if_neg (by simp [objHasKey])]
  rfl

theorem bfsStart_queue (s : NodeId) : (bfsStart s).queue = [s] := rfl

/-- Unfolding of runBFS on a valid start node. -/
theorem runBFS_valid (nodes : List Node) (edges : List Edge)
    (options : Options) (startNode : NodeId)
    (hstart : options.startNode = some startNode)
    (hvalid : ¬(startNode == "" ∨
      ¬ nodes.any (fun n => n.id == startNode))) :
    runBFS nodes edges options =
      (if (bfsFinish nodes edges options startNode).found ∧
          truthyId options.endNode then
        (bfsFinish nodes edges options startNode).steps ++ [Step.merge
          (((bfsFinish nodes edges options startNode).steps.getLast?).getD {})
          { finished := some true
            path := some (buildPathD
              (bfsFinish nodes edges options startNode).previous
              options.endNode)
            previous := some
              (bfsFinish nodes edges options startNode).previous }]
      else if (bfsFinish nodes edges options startNode).steps.length > 0 then
        (bfsFinish nodes edges options startNode).steps ++ [Step.merge
          (((bfsFinish nodes edges options startNode).steps.getLast?).getD {})
          { finished := some true
            previous := some
              (bfsFinish nodes edges options startNode).previous }]
      else
        (bfsFinish nodes edges options startNode).steps ++
          [finishedOnlyStep]) := by
  unfold runBFS bfsFinish bfsStart
  rw [hstart]
  dsimp only
  rw [if_neg hvalid]

/-- The invariant holds at the BFS start state with all levels zero. -/
theorem bfsStart_inv (d : Bool) (edges : List Edge)
    (startNode endN : NodeId) :
    BfsInvW d edges startNode endN (fun _ => 0) (bfsStart startNode) := by
  have hvis := bfsStart_visited startNode
  have hpv := bfsStart_previous startNode
  have hq := bfsStart_queue startNode
  refine ⟨?_, ?_, ?_, ?_, ?_, ?_, ?_, ?_, ?_, ?_, ?_, ?_, rfl⟩
  · rw [hvis]
    exact List.nodup_singleton _
  · rw [hvis]
    exact List.mem_singleton.mpr rfl
  · intro v hv
    rw [hq] at hv
    rw [hvis]
    exact hv
  · intro v hv
    rw [hvis] at hv
    have hv' := List.mem_singleton.mp hv
    subst hv'
    refine ⟨[v], ?_, rfl, rfl, rfl, rfl, ?_⟩
    · rw [buildPathGo_succ]
      rw [show objGet (bfsStart v).previous v = some none from
        objGet_objSet_self ([] : Obj (Option NodeId)) v none]
    · intro x hx
      rw [hvis]
      exact hx
  · intro v hv qq hch hh hl
    cases qq with
    | nil => cases hh
    | cons a l => simp
  · rw [hq]
    exact pairwise_of_all _ (fun a _ b _ => le_refl 0)
  · intro a _ b _
    exact Nat.zero_le _
  · intro u hu huq v hv
    rw [hvis] at hu
    rw [hq] at huq
    exact absurd hu huq
  · intro w
    rw [hvis]
    show objHasKey (objSet ([] : Obj (Option NodeId)) startNode none) w
      = true ↔ _
    rw [objHasKey_objSet]
    have h0 : objHasKey ([] : Obj (Option NodeId)) w = false := rfl
    rw [h0, Bool.false_or]
    simp
  · rw [hpv, hvis]
    rfl
  · by_cases hE : endN = startNode
    · right
      rw [hq, hE]
      exact List.mem_singleton.mpr rfl
    · left
      rw [hvis]
      intro hc
      exact hE (List.mem_singleton.mp hc)
  · intro v hv
    rw [hvis] at hv
    exact Or.inl (List.mem_singleton.mp hv)

/-- C3: For every graph whose edges reference declared node ids, every
valid startNode (nonempty, declared) and every nonempty endNode
reachable from it along usable edges (respecting isDirected), runBFS's
final step carries a path that is a chain from startNode to endNode of
minimal length among all such chains, i.e. of minimal hop count. -/
theorem C3_bfs_shortest_path (nodes : List Node) (edges : List Edge)
    (options : Options) (startNode endN : NodeId)
    (hdecl : ∀ e, e ∈ edges → e.from_ ∈ nodes.map Node.id ∧
      e.to_ ∈ nodes.map Node.id)
    (hstart : options.startNode = some startNode)
    (hsne : startNode ≠ "")
    (hsdecl : startNode ∈ nodes.map Node.id)
    (hend : options.endNode = some endN)
    (hene : endN ≠ "")
    (hreach : ∃ q, chainBD (options.isDirected.getD false) edges q = true ∧
      q.head? = some startNode ∧ q.getLast? = some endN) :
    ∃ last p, (runBFS nodes edges options).getLast? = some last ∧
      last.path = some p ∧
      chainBD (options.isDirected.getD false) edges p = true ∧
      p.head? = some startNode ∧ p.getLast? = some endN ∧
      (∀ q, chainBD (options.isDirected.getD false) edges q = true →
        q.head? = some startNode → q.getLast? = some endN →
        p.length ≤ q.length) := by
  have hvalid : ¬((startNode == "") = true ∨
      ¬ (nodes.any (fun n => n.id == startNode)) = true) := by
    rintro (h | h)
    · exact hsne (by simpa using h)
    · apply h
      rw [List.any_eq_true]
      rcases List.mem_map.mp hsdecl with ⟨n, hn, hns⟩
      exact ⟨n, hn, by simpa using hns⟩
  rw [runBFS_valid nodes edges options startNode hstart hvalid]
  have hmeas : (bfsStart startNode).queue.length +
      ((1 + 2 * edges.length) - (bfsStart startNode).visited.length) <
      bfsFuel nodes edges := by
    rw [bfsStart_queue, bfsStart_visited]
    have hN : 1 ≤ nodes.length := by
      rcases List.mem_map.mp hsdecl with ⟨n, hn, _⟩
      exact List.length_pos_of_mem hn
    unfold bfsFuel
    simp only [List.length_singleton]
    omega
  have hfin : bfsFinish nodes edges options startNode =
      bfsLoop (buildAdjacency nodes edges (options.isDirected.getD false))
        (some endN) (bfsFuel nodes edges) (bfsStart startNode) := by
    unfold bfsFinish
    rw [hend]
  have hpost := bfsLoop_master (options.isDirected.getD false) edges
    (buildAdjacency nodes edges (options.isDirected.getD false))
    startNode endN
    (fun u v => mem_buildAdjacency nodes edges _ u v)
    (bfsFuel nodes edges) (bfsStart startNode) (fun _ => 0)
    (bfsStart_inv _ edges startNode endN) hmeas
  rw [← hfin] at hpost
  obtain ⟨dv, hp1, hmin, hfound_t, hfound_f⟩ := hpost
  have hfound : (bfsFinish nodes edges options startNode).found = true := by
    rcases hb : (bfsFinish nodes edges options startNode).found with _ | _
    · exfalso
      obtain ⟨hclosed, hstartv, hendnv⟩ := hfound_f hb
      obtain ⟨qq, hch, hh, hl⟩ := hreach
      exact hendnv (reach_closed _ edges _ hclosed qq startNode endN hch hh
        hl hstartv)
    · rfl
  have hendv := hfound_t hfound
  obtain ⟨p, hp_go, hp_ch, hp_h, hp_l, hp_len⟩ := hp1 endN hendv
  have htruthy : truthyId options.endNode = true := by
    rw [hend]
    have h1 : (endN == "") = false := by simpa using hene
    unfold truthyId
    dsimp only
    rw [h1]
    rfl
  rw [if_pos ⟨hfound, htruthy⟩]
  have hbp : buildPathD
      (bfsFinish nodes edges options startNode).previous
      options.endNode = p := by
    rw [hend]
    unfold buildPathD buildPath
    dsimp only
    rw [if_neg (fun hc => hene (by simpa using hc))]
    rw [hp_go]
    rfl
  refine ⟨_, p, List.getLast?_concat _, ?_, hp_ch, hp_h, hp_l, ?_⟩
  · show some (buildPathD
      (bfsFinish nodes edges options startNode).previous
      options.endNode) = some p
    rw [hbp]
  · intro qq hch hh hl
    have h := hmin endN hendv qq hch hh hl
    rw [hp_len]
    exact h

/-- C3 witness: the BFS shortest-path theorem applied to the undirected
two-node graph with the single edge A -> B, from A to B. -/
theorem C3_witness :
    ∃ last p, (runBFS [⟨"A"⟩, ⟨"B"⟩] [{ from_ := "A", to_ := "B" }]
      { startNode := some "A", endNode := some "B" }).getLast? =
        some last ∧
      last.path = some p ∧
      chainBD (({ startNode := some "A", endNode := some "B" } :
        Options).isDirected.getD false) [{ from_ := "A", to_ := "B" }] p
        = true ∧
      p.head? = some "A" ∧ p.getLast? = some "B" ∧
      (∀ q, chainBD (({ startNode := some "A", endNode := some "B" } :
          Options).isDirected.getD false) [{ from_ := "A", to_ := "B" }] q
          = true →
        q.head? = some "A" → q.getLast? = some "B" →
        p.length ≤ q.length) :=
  C3_bfs_shortest_path [⟨"A"⟩, ⟨"B"⟩] [{ from_ := "A", to_ := "B" }]
    { startNode := some "A", endNode := some "B" } "A" "B"
    (by decide) rfl (by decide) (by decide) rfl (by decide)
    ⟨["A", "B"], by decide, rfl, rfl⟩

/-! Claim C6: Dijkstra versus Bellman-Ford distances.  Spec-side
notions: usable weighted edges (weight defaulting to 1), weighted walks
and their costs, and shortest distances as cost minima over walks. -/

/-- A usable weighted edge from u to v of weight wt, respecting the
isDirected option. -/
def edgeW (d : Bool) (edges : List Edge) (u v : NodeId) (wt : Int) : Prop :=
  ∃ e, e ∈ edges ∧ e.weight.getD 1 = wt ∧
    ((e.from_ = u ∧ e.to_ = v) ∨ (d = false ∧ e.to_ = u ∧ e.from_ = v))

/-- A weighted walk from u to w whose vertex list is l and whose total
cost is c. -/
inductive Walk (d : Bool) (edges : List Edge) :
    NodeId → NodeId → List NodeId → Int → Prop where
  | nil (u : NodeId) : Walk d edges u u [u] 0
  | cons {u v w : NodeId} {l : List NodeId} {c wt : Int} :
      edgeW d edges u v wt → Walk d edges v w l c →
      Walk d edges u w (u :: l) (wt + c)

theorem edgeW_nonneg {d : Bool} {edges : List Edge} {u v : NodeId}
    {wt : Int} (hnn : ∀ e, e ∈ edges → 0 ≤ e.weight.getD 1)
    (h : edgeW d edges u v wt) : 0 ≤ wt := by
  obtain ⟨e, he, hw, _⟩ := h
  rw [← hw]
  exact hnn e he

theorem walk_cost_nonneg {d : Bool} {edges : List Edge} {u v : NodeId}
    {l : List NodeId} {c : Int}
    (hnn : ∀ e, e ∈ edges → 0 ≤ e.weight.getD 1)
    (h : Walk d edges u v l c) : 0 ≤ c := by
  induction h with
  | nil => exact le_refl 0
  | cons he hw ih =>
    have := edgeW_nonneg hnn he
    omega

theorem walk_ne_nil {d : Bool} {edges : List Edge} {u v : NodeId}
    {l : List NodeId} {c : Int} (h : Walk d edges u v l c) : l ≠ [] := by
  cases h <;> simp

theorem walk_head {d : Bool} {edges : List Edge} {u v : NodeId}
    {l : List NodeId} {c : Int} (h : Walk d edges u v l c) :
    ∃ l2, l = u :: l2 := by
  cases h with
  | nil => exact ⟨[], rfl⟩
  | cons he hw => exact ⟨_, rfl⟩

theorem walk_last {d : Bool} {edges : List Edge} {u v : NodeId}
    {l : List NodeId} {c : Int} (h : Walk d edges u v l c) :
    l.getLast? = some v := by
  induction h with
  | nil => rfl
  | cons he hw ih =>
    obtain ⟨l3, rfl⟩ := walk_head hw
    rw [List.getLast?_cons_cons]
    exact ih

theorem walk_nodes_decl {d : Bool} {edges : List Edge}
    {ids : List NodeId} {u w : NodeId} {l : List NodeId} {c : Int}
    (hdecl : ∀ e, e ∈ edges → e.from_ ∈ ids ∧ e.to_ ∈ ids)
    (h : Walk d edges u w l c) (hu : u ∈ ids) : ∀ x, x ∈ l → x ∈ ids := by
  induction h with
  | nil =>
    intro x hx
    rw [List.mem_singleton.mp hx]
    exact hu
  | cons he hw ih =>
    intro x hx
    rcases List.mem_cons.mp hx with rfl | hx
    · exact hu
    · refine ih ?_ x hx
      obtain ⟨e, hemem, _, hor⟩ := he
      rcases hor with ⟨_, h2⟩ | ⟨_, _, h2⟩
      · rw [← h2]
        exact (hdecl e hemem).2
      · rw [← h2]
        exact (hdecl e hemem).1

theorem walk_length_one {d : Bool} {edges : List Edge} {u v : NodeId}
    {l : List NodeId} {c : Int} (h : Walk d edges u v l c)
    (hl : l.length = 1) : u = v ∧ c = 0 := by
  cases h with
  | nil => exact ⟨rfl, rfl⟩
  | cons he hw =>
    obtain ⟨l3, rfl⟩ := walk_head hw
    rw [List.length_cons, List.length_cons] at hl
    omega

theorem walk_append {d : Bool} {edges : List Edge} {u x w : NodeId}
    {l1 l2 : List NodeId} {c1 c2 : Int}
    (h1 : Walk d edges u x l1 c1) (h2 : Walk d edges x w l2 c2) :
    ∀ a, l1 = a ++ [x] → Walk d edges u w (a ++ l2) (c1 + c2) := by
  induction h1 with
  | nil =>
    intro a ha
    cases a with
    | nil =>
      rw [List.nil_append, zero_add]
      exact h2
    | cons b a2 =>
      rw [List.cons_append] at ha
      injection ha with _ ha2
      exact absurd ha2.symm (List.append_ne_nil_of_right_ne_nil _
        (List.cons_ne_nil _ _))
  | cons he hw ih =>
    intro a ha
    cases a with
    | nil =>
      rw [List.nil_append] at ha
      injection ha with _ ha2
      exact absurd ha2 (walk_ne_nil hw)
    | cons b a2 =>
      rw [List.cons_append] at ha
      injection ha with hb ha2
      subst hb
      rw [List.cons_append, add_assoc]
      exact Walk.cons he (ih h2 a2 ha2)

theorem walk_split {d : Bool} {edges : List Edge} {u w : NodeId}
    {l : List NodeId} {c : Int} (h : Walk d edges u w l c) :
    ∀ a x b, l = a ++ x :: b →
      ∃ c1 c2, Walk d edges u x (a ++ [x]) c1 ∧
        Walk d edges x w (x :: b) c2 ∧ c = c1 + c2 := by
  induction h with
  | nil =>
    intro a x b ha
    cases a with
    | nil =>
      rw [List.nil_append] at ha
      injection ha with h1 h2
      subst h1
      rw [← h2]
      exact ⟨0, 0, Walk.nil _, Walk.nil _, (zero_add 0).symm⟩
    | cons y a2 =>
      rw [List.cons_append] at ha
      injection ha with _ ha2
      exact absurd ha2.symm (List.append_ne_nil_of_right_ne_nil _
        (List.cons_ne_nil _ _))
  | @cons u0 v0 w0 l0 c0 wt0 he hw ih =>
    intro a x b ha
    cases a with
    | nil =>
      rw [List.nil_append] at ha
      injection ha with h1 h2
      subst h1
      subst h2
      exact ⟨0, _, Walk.nil _, Walk.cons he hw, (zero_add _).symm⟩
    | cons y a2 =>
      rw [List.cons_append] at ha
      injection ha with hy ha2
      obtain ⟨c1, c2, hw1, hw2, hc⟩ := ih a2 x b ha2
      subst hy
      refine ⟨wt0 + c1, c2, ?_, hw2, by omega⟩
      rw [List.cons_append]
      exact Walk.cons he hw1

theorem walk_shorten {d : Bool} {edges : List Edge} {u w : NodeId}
    (hnn : ∀ e, e ∈ edges → 0 ≤ e.weight.getD 1) :
    ∀ (n : Nat) (l : List NodeId) (c : Int), l.length ≤ n →
      Walk d edges u w l c →
      ∃ l2 c2, Walk d edges u w l2 c2 ∧ c2 ≤ c ∧ l2.Nodup ∧
        (∀ x, x ∈ l2 → x ∈ l) := by
  intro n
  induction n with
  | zero =>
    intro l c hlen h
    have : l = [] := List.length_eq_zero.mp (by omega)
    exact absurd this (walk_ne_nil h)
  | succ n ih =>
    intro l c hlen h
    by_cases hnd : l.Nodup
    · exact ⟨l, c, h, le_refl _, hnd, fun x hx => hx⟩
    · obtain ⟨a, x, b, e2, hl⟩ := exists_dup_split hnd
      have hshape : l = a ++ x :: (b ++ x :: e2) := by
        rw [hl]
        simp
      obtain ⟨c1, crest, W1, Wrest, hc⟩ := walk_split h a x _ hshape
      have hshape2 : x :: (b ++ x :: e2) = (x :: b) ++ x :: e2 := by
        rw [List.cons_append]
      obtain ⟨cm, c3, Wm, W3, hc2⟩ := walk_split Wrest (x :: b) x e2 hshape2
      have hcm : 0 ≤ cm := walk_cost_nonneg hnn Wm
      have Wnew := walk_append W1 W3 a rfl
      have hlen2 : (a ++ x :: e2).length ≤ n := by
        rw [hshape] at hlen
        rw [List.length_append, List.length_cons, List.length_append,
          List.length_cons] at hlen
        rw [List.length_append, List.length_cons]
        omega
      obtain ⟨l2, c2, h2, hle2, hnd2, hsub2⟩ := ih _ _ hlen2 Wnew
      refine ⟨l2, c2, h2, by omega, hnd2, ?_⟩
      intro y hy
      have hy2 := hsub2 y hy
      rw [hshape]
      rcases List.mem_append.mp hy2 with h3 | h3
      · exact List.mem_append.mpr (Or.inl h3)
      · rcases List.mem_cons.mp h3 with rfl | h3
        · exact List.mem_append.mpr (Or.inr (List.mem_cons_self _ _))
        · exact List.mem_append.mpr (Or.inr (List.mem_cons_of_mem _
            (List.mem_append.mpr (Or.inr (List.mem_cons_of_mem _ h3)))))

theorem walk_last_edge {d : Bool} {edges : List Edge} {u w : NodeId}
    {l : List NodeId} {c : Int} (h : Walk d edges u w l c)
    (hlen : 2 ≤ l.length) :
    ∃ y l1 c1 wt, Walk d edges u y (l1 ++ [y]) c1 ∧
      edgeW d edges y w wt ∧ c = c1 + wt ∧
      l = (l1 ++ [y]) ++ [w] ∧ (∀ x, x ∈ l1 ++ [y] → x ∈ l) := by
  obtain ⟨a, rfl⟩ := getLast?_eq_some_split (walk_last h)
  cases a with
  | nil => simp at hlen
  | cons a0 a2 =>
    obtain ⟨y, hy⟩ := getLast?_cons_isSome a0 a2
    obtain ⟨l1, hl1⟩ := getLast?_eq_some_split hy
    have hshape : (a0 :: a2) ++ [w] = l1 ++ y :: [w] := by
      rw [hl1, List.append_assoc]
      rfl
    obtain ⟨c1, c2, hw1, hw2, hc⟩ := walk_split h l1 y [w] hshape
    cases hw2 with
    | cons he hw3 =>
      obtain ⟨hvw, hc0⟩ := walk_length_one hw3 rfl
      subst hvw
      refine ⟨y, l1, c1, _, hw1, he, by omega, by rw [hl1], ?_⟩
      intro x hx
      rw [hl1]
      exact List.mem_append.mpr (Or.inl hx)

/-- C6 counterexample: with an endNode selected, runDijkstra's
documented early break leaves a reachable node's final distance above
its true value while runBellmanFord completes it: on nodes A,B,C with
directed edges A->B (1), A->C (10), B->C (1), start A and end B, the
final distances maps are A=0,B=1,C=10 versus A=0,B=1,C=2, disagreeing
at the reachable node C. -/
theorem C6_counterexample :
    ((runDijkstra [⟨"A"⟩, ⟨"B"⟩, ⟨"C"⟩]
      [{ from_ := "A", to_ := "B", weight := some 1 },
       { from_ := "A", to_ := "C", weight := some 10 },
       { from_ := "B", to_ := "C", weight := some 1 }]
      { isDirected := some true, startNode := some "A",
        endNode := some "B" }).getLast?.getD {}).distances =
      some [("A", Dist.fin 0), ("B", Dist.fin 1), ("C", Dist.fin 10)] ∧
    ((runBellmanFord [⟨"A"⟩, ⟨"B"⟩, ⟨"C"⟩]
      [{ from_ := "A", to_ := "B", weight := some 1 },
       { from_ := "A", to_ := "C", weight := some 10 },
       { from_ := "B", to_ := "C", weight := some 1 }]
      { isDirected := some true, startNode := some "A",
        endNode := some "B" }).getLast?.getD {}).distances =
      some [("A", Dist.fin 0), ("B", Dist.fin 1), ("C", Dist.fin 2)] ∧
    (∃ l c, Walk true
      [{ from_ := "A", to_ := "B", weight := some 1 },
       { from_ := "A", to_ := "C", weight := some 10 },
       { from_ := "B", to_ := "C", weight := some 1 }] "A" "C" l c) ∧
    objGet [("A", Dist.fin 0), ("B", Dist.fin 1), ("C", Dist.fin 10)] "C" ≠
      objGet [("A", Dist.fin 0), ("B", Dist.fin 1), ("C", Dist.fin 2)] "C" := by
  refine ⟨rfl, rfl, ⟨["A", "C"], 10 + 0, ?_⟩, by decide⟩
  refine Walk.cons ⟨{ from_ := "A", to_ := "C", weight := some 10 },
    ?_, rfl, Or.inl ⟨rfl, rfl⟩⟩ (Walk.nil "C")
  exact List.mem_cons_of_mem _ (List.mem_cons_self _ _)

/-- v is reachable from s at cost c by some weighted walk. -/
def Reach (d : Bool) (edges : List Edge) (s v : NodeId) (c : Int) : Prop :=
  ∃ l, Walk d edges s v l c

/-- The shortest-distance characterization of a Dist value: Infinity
means unreachable, a finite value is an achieved cost that no walk
undercuts. -/
def IsShortest (d : Bool) (edges : List Edge) (s v : NodeId) : Dist → Prop
  | Dist.inf => ¬ ∃ c, Reach d edges s v c
  | Dist.fin m => Reach d edges s v m ∧ ∀ c, Reach d edges s v c → m ≤ c

/-- Two distances satisfying the characterization agree. -/
theorem isShortest_unique {d : Bool} {edges : List Edge} {s v : NodeId}
    {d1 d2 : Dist} (h1 : IsShortest d edges s v d1)
    (h2 : IsShortest d edges s v d2) : d1 = d2 := by
  cases d1 with
  | inf =>
    cases d2 with
    | inf => rfl
    | fin m2 => exact absurd ⟨m2, h2.1⟩ h1
  | fin m1 =>
    cases d2 with
    | inf => exact absurd ⟨m1, h1.1⟩ h2
    | fin m2 =>
      have ha := h1.2 m2 h2.1
      have hb := h2.2 m1 h1.1
      have : m1 = m2 := le_antisymm ha hb
      rw [this]

/-- Appending one usable edge to a walk. -/
theorem walk_snoc_edge {d : Bool} {edges : List Edge} {s u v : NodeId}
    {l : List NodeId} {c wt : Int} (h : Walk d edges s u l c)
    (he : edgeW d edges u v wt) : ∃ l2, Walk d edges s v l2 (c + wt) := by
  obtain ⟨a, ha⟩ := getLast?_eq_some_split (walk_last h)
  have h2 : Walk d edges u v [u, v] (wt + 0) :=
    Walk.cons he (Walk.nil v)
  have h3 := walk_append h h2 a ha
  refine ⟨a ++ [u, v], ?_⟩
  have hc : c + (wt + 0) = c + wt := by ring
  rw [hc] at h3
  exact h3

/-- The non-strict order on possibly-infinite distances. -/
def distLe : Dist → Dist → Prop
  | _, Dist.inf => True
  | Dist.fin m, Dist.fin m' => m ≤ m'
  | Dist.inf, Dist.fin _ => False

/-- Pointwise order on optional distance entries, defined-strict on both
sides. -/
def dOptLe : Option Dist → Option Dist → Prop
  | some x, some y => distLe x y
  | none, none => True
  | _, _ => False

/-- The entry is defined, finite and at most c. -/
def dLeInt (o : Option Dist) (c : Int) : Prop :=
  ∃ m, o = some (Dist.fin m) ∧ m ≤ c

theorem distLe_refl (a : Dist) : distLe a a := by
  cases a with
  | inf => trivial
  | fin m => exact le_refl m

theorem distLe_trans {a b c : Dist} (h1 : distLe a b) (h2 : distLe b c) :
    distLe a c := by
  cases a with
  | inf =>
    cases b with
    | inf =>
      cases c with
      | inf => trivial
      | fin m => exact h2
    | fin m =>
      exact absurd h1 (by intro h; exact h)
  | fin m1 =>
    cases c with
    | inf => trivial
    | fin m3 =>
      cases b with
      | inf => exact absurd h2 (by intro h; exact h)
      | fin m2 => exact le_trans h1 h2

theorem dOptLe_refl (a : Option Dist) : dOptLe a a := by
  cases a with
  | none => trivial
  | some x => exact distLe_refl x

theorem dOptLe_trans {a b c : Option Dist} (h1 : dOptLe a b)
    (h2 : dOptLe b c) : dOptLe a c := by
  cases a with
  | none =>
    cases b with
    | none => exact h2
    | some x => exact absurd h1 (by intro h; exact h)
  | some x =>
    cases b with
    | none => exact absurd h1 (by intro h; exact h)
    | some y =>
      cases c with
      | none => exact absurd h2 (by intro h; exact h)
      | some z => exact distLe_trans h1 h2

theorem dLeInt_of_dOptLe {a b : Option Dist} {c : Int} (h1 : dOptLe a b)
    (h2 : dLeInt b c) : dLeInt a c := by
  obtain ⟨m, hb, hm⟩ := h2
  subst hb
  cases a with
  | none => exact absurd h1 (by intro h; exact h)
  | some x =>
    cases x with
    | inf => exact absurd h1 (by intro h; exact h)
    | fin m' => exact ⟨m', rfl, le_trans h1 hm⟩

theorem dLeInt_weaken {a : Option Dist} {c c' : Int} (h : dLeInt a c)
    (hc : c ≤ c') : dLeInt a c' := by
  obtain ⟨m, ha, hm⟩ := h
  exact ⟨m, ha, by omega⟩

theorem dist_lt_irrefl (a : Dist) : Dist.lt a a = false := by
  cases a with
  | inf => rfl
  | fin m => simp [Dist.lt]

theorem dist_lt_trans {a b c : Dist} (h1 : Dist.lt a b = true)
    (h2 : Dist.lt b c = true) : Dist.lt a c = true := by
  cases a with
  | inf => cases h1
  | fin m1 =>
    cases c with
    | inf => rfl
    | fin m3 =>
      cases b with
      | inf => cases h2
      | fin m2 =>
        simp only [Dist.lt, decide_eq_true_eq] at h1 h2 ⊢
        omega

/-- A failed strict comparison against a finite bound is a non-strict
bound the other way (on a defined entry). -/
theorem dLeInt_of_not_lt {o : Option Dist} {dv : Dist} {m : Int}
    (ho : o = some dv) (h : distLtOpt (Dist.fin m) o = false) :
    dLeInt o m := by
  subst ho
  cases dv with
  | inf => exact absurd h (by simp [distLtOpt, Dist.lt])
  | fin x =>
    refine ⟨x, rfl, ?_⟩
    simp only [distLtOpt, Dist.lt] at h
    have h2 := of_decide_eq_false h
    omega

/-- adjEnsure never changes the value list read back (any value type). -/
theorem getD_adjEnsureP {α : Type} (a : Obj (List α)) (k u : NodeId) :
    (objGet (adjEnsure a k) u).getD [] = (objGet a u).getD [] := by
  unfold adjEnsure
  by_cases hk : objHasKey a k
  · rw [if_pos hk]
  · rw [if_neg hk]
    by_cases hu : u = k
    · subst hu
      rw [objGet_objSet_self,
        objGet_eq_none_of_not_hasKey (by simpa using hk)]
      rfl
    · rw [objGet_objSet_ne _ _ _ _ hu]

/-- Membership after an adjacency push (any value type). -/
theorem mem_adjAppendP {α : Type} (a : Obj (List α)) (k : NodeId) (x : α)
    (u : NodeId) (v : α) :
    (v ∈ (objGet (adjAppend a k x) u).getD []) ↔
      (v ∈ (objGet a u).getD [] ∨ (u = k ∧ v = x)) := by
  unfold adjAppend
  by_cases hu : u = k
  · subst hu
    rw [objGet_objSet_self]
    show v ∈ (objGet a u).getD [] ++ [x] ↔ _
    rw [List.mem_append, List.mem_singleton]
    constructor
    · rintro (h | h)
      · exact Or.inl h
      · exact Or.inr ⟨rfl, h⟩
    · rintro (h | ⟨_, h⟩)
      · exact Or.inl h
      · exact Or.inr h
  · rw [objGet_objSet_ne _ _ _ _ hu]
    constructor
    · exact Or.inl
    · rintro (h | ⟨h, _⟩)
      · exact h
      · exact absurd h hu

/-- Membership after processing one edge of the weighted adjacency
construction. -/
theorem mem_adjEdgeStepW_iff (d : Bool) (a : Obj (List (NodeId × Int)))
    (e : Edge) (u : NodeId) (p : NodeId × Int) :
    (p ∈ (objGet (adjEdgeStepW d a e) u).getD []) ↔
      (p ∈ (objGet a u).getD [] ∨
        ((e.from_ = u ∧ p = (e.to_, e.weight.getD 1)) ∨
          (d = false ∧ e.to_ = u ∧ p = (e.from_, e.weight.getD 1)))) := by
  unfold adjEdgeStepW
  have hens : ∀ w, (objGet (adjEnsure (adjEnsure a e.from_) e.to_) w).getD []
      = (objGet a w).getD [] := by
    intro w
    rw [getD_adjEnsureP, getD_adjEnsureP]
  by_cases hd : d
  · rw [if_pos hd, mem_adjAppendP, hens]
    subst hd
    constructor
    · rintro (h | ⟨h1, h2⟩)
      · exact Or.inl h
      · exact Or.inr (Or.inl ⟨h1.symm, h2⟩)
    · rintro (h | (⟨h1, h2⟩ | ⟨hfalse, _⟩))
      · exact Or.inl h
      · exact Or.inr ⟨h1.symm, h2⟩
      · cases hfalse
  · have hd' : d = false := by simpa using hd
    subst hd'
    rw [if_neg (by simp), mem_adjAppendP, mem_adjAppendP, hens]
    constructor
    · rintro ((h | ⟨h1, h2⟩) | ⟨h1, h2⟩)
      · exact Or.inl h
      · exact Or.inr (Or.inl ⟨h1.symm, h2⟩)
      · exact Or.inr (Or.inr ⟨rfl, h1.symm, h2⟩)
    · rintro (h | (⟨h1, h2⟩ | ⟨_, h1, h2⟩))
      · exact Or.inl (Or.inl h)
      · exact Or.inl (Or.inr ⟨h1.symm, h2⟩)
      · exact Or.inr ⟨h1.symm, h2⟩

/-- Membership through the whole edge fold of the weighted adjacency
construction. -/
theorem mem_foldl_adjEdgeStepW (d : Bool) :
    ∀ (edges : List Edge) (a : Obj (List (NodeId × Int))) (u : NodeId)
      (p : NodeId × Int),
      (p ∈ (objGet (edges.foldl (adjEdgeStepW d) a) u).getD []) ↔
        (p ∈ (objGet a u).getD [] ∨ ∃ e, e ∈ edges ∧
          ((e.from_ = u ∧ p = (e.to_, e.weight.getD 1)) ∨
            (d = false ∧ e.to_ = u ∧ p = (e.from_, e.weight.getD 1)))) := by
  intro edges
  induction edges with
  | nil =>
    intro a u p
    simp
  | cons e es ih =>
    intro a u p
    rw [List.foldl_cons, ih, mem_adjEdgeStepW_iff]
    constructor
    · rintro ((h | h) | ⟨e2, he2, hP⟩)
      · exact Or.inl h
      · exact Or.inr ⟨e, List.mem_cons_self _ _, h⟩
      · exact Or.inr ⟨e2, List.mem_cons_of_mem _ he2, hP⟩
    · rintro (h | ⟨e2, he2, hP⟩)
      · exact Or.inl (Or.inl h)
      · rcases List.mem_cons.mp he2 with rfl | he3
        · exact Or.inl (Or.inr hP)
        · exact Or.inr ⟨e2, he3, hP⟩

/-- The weighted adjacency lists realize exactly the usable weighted
edge relation. -/
theorem mem_buildAdjacencyW (nodes : List Node) (edges : List Edge)
    (d : Bool) (u v : NodeId) (wt : Int) :
    ((v, wt) ∈ (objGet (buildAdjacencyW nodes edges d) u).getD []) ↔
      edgeW d edges u v wt := by
  unfold edgeW
  show (v, wt) ∈ (objGet (List.foldl (adjEdgeStepW d)
    (List.foldl (fun a n => objSet a n.id [])
      ([] : Obj (List (NodeId × Int))) nodes) edges) u).getD [] ↔ _
  rw [mem_foldl_adjEdgeStepW]
  have h0 : (objGet (nodes.foldl (fun a n => objSet a n.id [])
      ([] : Obj (List (NodeId × Int)))) u).getD [] =
      ([] : List (NodeId × Int)) := by
    rcases objGet_foldl_init_vals [] nodes [] (fun w => Or.inl rfl) u with
      h | h
    · rw [h]
      rfl
    · rw [h]
      rfl
  rw [h0]
  simp only [List.not_mem_nil, false_or]
  constructor
  · rintro ⟨e, he, (⟨h1, h2⟩ | ⟨hd, h1, h2⟩)⟩
    · have hv : v = e.to_ ∧ wt = e.weight.getD 1 := Prod.mk.injEq .. ▸ h2
      exact ⟨e, he, hv.2.symm, Or.inl ⟨h1, hv.1.symm⟩⟩
    · have hv : v = e.from_ ∧ wt = e.weight.getD 1 := Prod.mk.injEq .. ▸ h2
      exact ⟨e, he, hv.2.symm, Or.inr ⟨hd, h1, hv.1.symm⟩⟩
  · rintro ⟨e, he, hw, (⟨h1, h2⟩ | ⟨hd, h1, h2⟩)⟩
    · refine ⟨e, he, Or.inl ⟨h1, ?_⟩⟩
      rw [← h2, ← hw]
    · refine ⟨e, he, Or.inr ⟨hd, h1, ?_⟩⟩
      rw [← h2, ← hw]

/-- Reading a declared id in the id-dependent initialization fold gives
the value the seed function assigns to that id (every write for an id
stores the same value, so duplicates are harmless). -/
theorem objGet_init_fun {α : Type} (f : NodeId → α) :
    ∀ (ns : List Node) (a : Obj α) (u : NodeId),
      (u ∈ ns.map Node.id ∨ objGet a u = some (f u)) →
      objGet (ns.foldl (fun a n => objSet a n.id (f n.id)) a) u =
        some (f u) := by
  intro ns
  induction ns with
  | nil =>
    intro a u h
    rcases h with h | h
    · cases h
    · exact h
  | cons n ns ih =>
    intro a u h
    rw [List.foldl_cons]
    by_cases hu : u = n.id
    · subst hu
      exact ih _ n.id (Or.inr (objGet_objSet_self _ _ _))
    · rcases h with h | h
      · rcases List.mem_map.mp h with ⟨n2, hn2, hn2u⟩
        rcases List.mem_cons.mp hn2 with rfl | hn2
        · exact absurd hn2u.symm hu
        · refine ih _ u (Or.inl ?_)
          rw [← hn2u]
          exact List.mem_map_of_mem _ hn2
      · exact ih _ u (Or.inr (by rw [objGet_objSet_ne _ _ _ _ hu]; exact h))

/-- Presence of keys after the id-dependent initialization fold. -/
theorem objHasKey_init_fun {α : Type} (f : NodeId → α) :
    ∀ (ns : List Node) (a : Obj α) (u : NodeId),
      objHasKey (ns.foldl (fun a n => objSet a n.id (f n.id)) a) u =
        (objHasKey a u || decide (u ∈ ns.map Node.id)) := by
  intro ns
  induction ns with
  | nil =>
    intro a u
    simp
  | cons n ns ih =>
    intro a u
    rw [List.foldl_cons, ih]
    rw [objHasKey_objSet]
    by_cases hu : u = n.id
    · subst hu
      simp
    · have h1 : (u == n.id) = false := by simpa using hu
      simp [h1, hu]

/-! Bellman-Ford correctness machinery. -/

/-- Every declared node has a distance entry. -/
def bfKeys (ids : List NodeId) (D : Obj Dist) : Prop :=
  ∀ v, v ∈ ids → objHasKey D v = true

/-- Every finite entry is an achieved walk cost. -/
def bfAch (d : Bool) (edges : List Edge) (s : NodeId) (D : Obj Dist) :
    Prop :=
  ∀ v m, objGet D v = some (Dist.fin m) → Reach d edges s v m

/-- A relaxed fixpoint: no usable edge offers a strict improvement. -/
def bfStable (d : Bool) (edges : List Edge) (D : Obj Dist) : Prop :=
  ∀ u v wt, edgeW d edges u v wt → ∀ m, objGet D u = some (Dist.fin m) →
    dLeInt (objGet D v) (m + wt)

/-- Every walk of at most j edges bounds its endpoint's entry. -/
def bfBoundLen (d : Bool) (edges : List Edge) (s : NodeId) (j : Nat)
    (D : Obj Dist) : Prop :=
  ∀ v l c, Walk d edges s v l c → l.length ≤ j + 1 →
    dLeInt (objGet D v) c

/-- Neither orientation of the pair admits a strict improvement on D. -/
def bfNoImp (d : Bool) (D : Obj Dist) (p : NodeId × NodeId × Int) : Prop :=
  (∀ m, objGet D p.1 = some (Dist.fin m) →
    distLtOpt (Dist.fin (m + p.2.2)) (objGet D p.2.1) = false) ∧
  (d = false → ∀ m, objGet D p.2.1 = some (Dist.fin m) →
    distLtOpt (Dist.fin (m + p.2.2)) (objGet D p.1) = false)

/-- The state bfRelax produces on a successful strict improvement. -/
def bfRelaxUpd (endNode : Option NodeId) (st : BFState) (fromN toN : NodeId)
    (dfrom weight : Int) : BFState :=
  let distances := objSet st.distances toN (Dist.fin (dfrom + weight))
  let previous := objSet st.previous toN (some fromN)
  { st with
    distances := distances
    previous := previous
    updated := true
    lastUpdated := some toN
    steps := st.steps ++ [{
      distances := some distances
      visited := some (finiteKeys distances)
      current := some (some toN)
      path := some (buildPathD previous (orNode endNode toN))
      previous := some previous }] }

/-- bfRelax either leaves the state alone (and then no improvement was
available) or performs the recorded update. -/
theorem bfRelax_eq_cases (en : Option NodeId) (st : BFState)
    (fromN toN : NodeId) (weight : Int) :
    (bfRelax en st fromN toN weight = st ∧
      (∀ dfrom, objGet st.distances fromN = some (Dist.fin dfrom) →
        distLtOpt (Dist.fin (dfrom + weight))
          (objGet st.distances toN) = false)) ∨
    (∃ dfrom, objGet st.distances fromN = some (Dist.fin dfrom) ∧
      distLtOpt (Dist.fin (dfrom + weight))
        (objGet st.distances toN) = true ∧
      bfRelax en st fromN toN weight =
        bfRelaxUpd en st fromN toN dfrom weight) := by
  unfold bfRelax
  rcases hf : objGet st.distances fromN with _ | dd
  · refine Or.inl ⟨rfl, ?_⟩
    intro dfrom h
    cases h
  · rcases dd with _ | dfrom
    · refine Or.inl ⟨rfl, ?_⟩
      intro d2 h
      simp at h
    · dsimp only
      by_cases himp : distLtOpt (Dist.fin (dfrom + weight))
        (objGet st.distances toN) = true
      · refine Or.inr ⟨dfrom, rfl, himp, ?_⟩
        rw [if_pos himp]
        rfl
      · refine Or.inl ⟨?_, ?_⟩
        · rw [if_neg himp]
        · intro d2 h
          injection h with h2
          injection h2 with h3
          subst h3
          simpa using himp

theorem bfRelaxUpd_updated (en : Option NodeId) (st : BFState)
    (fromN toN : NodeId) (dfrom weight : Int) :
    (bfRelaxUpd en st fromN toN dfrom weight).updated = true := rfl

/-- Relaxation never increases any distance entry. -/
theorem bfRelax_mono (en : Option NodeId) (st : BFState)
    (fromN toN : NodeId) (weight : Int) (v : NodeId) :
    dOptLe (objGet (bfRelax en st fromN toN weight).distances v)
      (objGet st.distances v) := by
  rcases bfRelax_eq_cases en st fromN toN weight with ⟨heq, _⟩ |
    ⟨dfrom, hf, himp, heq⟩
  · rw [heq]
    exact dOptLe_refl _
  · rw [heq]
    show dOptLe (objGet (objSet st.distances toN
      (Dist.fin (dfrom + weight))) v) (objGet st.distances v)
    by_cases hv : v = toN
    · subst hv
      rw [objGet_objSet_self]
      rcases ht : objGet st.distances v with _ | dv
      · rw [ht] at himp
        cases himp
      · rw [ht] at himp
        cases dv with
        | inf => trivial
        | fin x =>
          show (dfrom + weight : Int) ≤ x
          simp only [distLtOpt, Dist.lt] at himp
          have := of_decide_eq_true himp
          omega
    · rw [objGet_objSet_ne _ _ _ _ hv]
      exact dOptLe_refl _

/-- Relaxation does not change which keys are present. -/
theorem bfRelax_hasKey (en : Option NodeId) (st : BFState)
    (fromN toN : NodeId) (weight : Int) (v : NodeId) :
    objHasKey (bfRelax en st fromN toN weight).distances v =
      objHasKey st.distances v := by
  rcases bfRelax_eq_cases en st fromN toN weight with ⟨heq, _⟩ |
    ⟨dfrom, hf, himp, heq⟩
  · rw [heq]
  · rw [heq]
    show objHasKey (objSet st.distances toN
      (Dist.fin (dfrom + weight))) v = _
    rw [objHasKey_objSet]
    by_cases hv : v = toN
    · subst hv
      have hk : objHasKey st.distances v = true := by
        rcases ht : objGet st.distances v with _ | dv
        · rw [ht] at himp
          cases himp
        · exact (objHasKey_iff _ _).mpr (by rw [ht]; rfl)
      simp [hk]
    · have h1 : (v == toN) = false := by simpa using hv
      rw [h1, Bool.or_false]

/-- Relaxation along a usable edge preserves achievability. -/
theorem bfRelax_ach {d : Bool} {edges : List Edge} {s : NodeId}
    (en : Option NodeId) (st : BFState) (fromN toN : NodeId) (weight : Int)
    (he : edgeW d edges fromN toN weight)
    (hach : bfAch d edges s st.distances) :
    bfAch d edges s (bfRelax en st fromN toN weight).distances := by
  rcases bfRelax_eq_cases en st fromN toN weight with ⟨heq, _⟩ |
    ⟨dfrom, hf, himp, heq⟩
  · rw [heq]
    exact hach
  · rw [heq]
    intro v m hv
    have hv2 : objGet (objSet st.distances toN
      (Dist.fin (dfrom + weight))) v = some (Dist.fin m) := hv
    by_cases hvt : v = toN
    · subst hvt
      rw [objGet_objSet_self] at hv2
      injection hv2 with hv3
      injection hv3 with hv4
      obtain ⟨l0, hw0⟩ := hach fromN dfrom hf
      obtain ⟨l2, hw2⟩ := walk_snoc_edge hw0 he
      rw [← hv4]
      exact ⟨l2, hw2⟩
    · rw [objGet_objSet_ne _ _ _ _ hvt] at hv2
      exact hach v m hv2

/-- A relaxation attempt leaves the target entry bounded by the source
entry plus the weight (when the target has an entry at all). -/
theorem bfRelax_bound (en : Option NodeId) (st : BFState)
    (fromN toN : NodeId) (weight : Int)
    (hk : objHasKey st.distances toN = true) (m : Int)
    (hm : dLeInt (objGet st.distances fromN) m) :
    dLeInt (objGet (bfRelax en st fromN toN weight).distances toN)
      (m + weight) := by
  obtain ⟨m0, hf0, hm0⟩ := hm
  rcases bfRelax_eq_cases en st fromN toN weight with ⟨heq, hni⟩ |
    ⟨dfrom, hf, himp, heq⟩
  · rw [heq]
    have h2 := hni m0 hf0
    have hsome := (objHasKey_iff _ _).mp hk
    rcases ht : objGet st.distances toN with _ | dv
    · rw [ht] at hsome
      cases hsome
    · rw [ht] at h2
      exact dLeInt_weaken (dLeInt_of_not_lt rfl h2) (by omega)
  · rw [heq]
    show dLeInt (objGet (objSet st.distances toN
      (Dist.fin (dfrom + weight))) toN) (m + weight)
    rw [objGet_objSet_self]
    have : dfrom = m0 := by
      rw [hf0] at hf
      injection hf with h2
      injection h2 with h3
      exact h3.symm
    exact ⟨dfrom + weight, rfl, by omega⟩

/-- A relaxation that reports no update did nothing, and neither could
it have: the improvement test fails on the unchanged state. -/
theorem bfRelax_not_updated (en : Option NodeId) (st : BFState)
    (fromN toN : NodeId) (weight : Int)
    (h : (bfRelax en st fromN toN weight).updated = false) :
    bfRelax en st fromN toN weight = st ∧
      (∀ dfrom, objGet st.distances fromN = some (Dist.fin dfrom) →
        distLtOpt (Dist.fin (dfrom + weight))
          (objGet st.distances toN) = false) := by
  rcases bfRelax_eq_cases en st fromN toN weight with ⟨heq, hni⟩ |
    ⟨dfrom, hf, himp, heq⟩
  · exact ⟨heq, hni⟩
  · rw [heq] at h
    have h2 : true = false := h
    cases h2

/-- The updated flag never falls back to false inside a round. -/
theorem bfRelax_updated_mono (en : Option NodeId) (st : BFState)
    (fromN toN : NodeId) (weight : Int) (h : st.updated = true) :
    (bfRelax en st fromN toN weight).updated = true := by
  rcases bfRelax_eq_cases en st fromN toN weight with ⟨heq, _⟩ |
    ⟨dfrom, _, _, heq⟩
  · rw [heq]
    exact h
  · rw [heq]
    rfl

/-- The per-edge body of a Bellman-Ford round: relax the edge, and the
reverse direction too when the graph is undirected. -/
def bfBody (isDirected : Bool) (endNode : Option NodeId) (st : BFState)
    (e : NodeId × NodeId × Int) : BFState :=
  let st := bfRelax endNode st e.1 e.2.1 e.2.2
  if isDirected then st else bfRelax endNode st e.2.1 e.1 e.2.2

theorem bfRound_eq (d : Bool) (en : Option NodeId)
    (L : List (NodeId × NodeId × Int)) (st : BFState) :
    bfRound d en L st = L.foldl (bfBody d en) st := rfl

theorem bfBody_directed (en : Option NodeId) (st : BFState)
    (e : NodeId × NodeId × Int) :
    bfBody true en st e = bfRelax en st e.1 e.2.1 e.2.2 := rfl

theorem bfBody_undirected (en : Option NodeId) (st : BFState)
    (e : NodeId × NodeId × Int) :
    bfBody false en st e =
      bfRelax en (bfRelax en st e.1 e.2.1 e.2.2) e.2.1 e.1 e.2.2 := rfl

theorem bfBody_mono (d : Bool) (en : Option NodeId) (st : BFState)
    (e : NodeId × NodeId × Int) (v : NodeId) :
    dOptLe (objGet (bfBody d en st e).distances v)
      (objGet st.distances v) := by
  cases d
  · rw [bfBody_undirected]
    exact dOptLe_trans (bfRelax_mono en _ e.2.1 e.1 e.2.2 v)
      (bfRelax_mono en st e.1 e.2.1 e.2.2 v)
  · rw [bfBody_directed]
    exact bfRelax_mono en st e.1 e.2.1 e.2.2 v

theorem bfBody_hasKey (d : Bool) (en : Option NodeId) (st : BFState)
    (e : NodeId × NodeId × Int) (v : NodeId) :
    objHasKey (bfBody d en st e).distances v =
      objHasKey st.distances v := by
  cases d
  · rw [bfBody_undirected, bfRelax_hasKey, bfRelax_hasKey]
  · rw [bfBody_directed, bfRelax_hasKey]

theorem bfBody_ach {edges : List Edge} {s : NodeId} (d : Bool)
    (en : Option NodeId) (st : BFState) (e : NodeId × NodeId × Int)
    (he1 : edgeW d edges e.1 e.2.1 e.2.2)
    (he2 : d = false → edgeW d edges e.2.1 e.1 e.2.2)
    (hach : bfAch d edges s st.distances) :
    bfAch d edges s (bfBody d en st e).distances := by
  cases d
  · rw [bfBody_undirected]
    exact bfRelax_ach en _ e.2.1 e.1 e.2.2 (he2 rfl)
      (bfRelax_ach en st e.1 e.2.1 e.2.2 he1 hach)
  · rw [bfBody_directed]
    exact bfRelax_ach en st e.1 e.2.1 e.2.2 he1 hach

theorem bfBody_bound1 (d : Bool) (en : Option NodeId) (st : BFState)
    (e : NodeId × NodeId × Int)
    (hk : objHasKey st.distances e.2.1 = true) (m : Int)
    (hm : dLeInt (objGet st.distances e.1) m) :
    dLeInt (objGet (bfBody d en st e).distances e.2.1) (m + e.2.2) := by
  cases d
  · rw [bfBody_undirected]
    exact dLeInt_of_dOptLe (bfRelax_mono en _ e.2.1 e.1 e.2.2 e.2.1)
      (bfRelax_bound en st e.1 e.2.1 e.2.2 hk m hm)
  · rw [bfBody_directed]
    exact bfRelax_bound en st e.1 e.2.1 e.2.2 hk m hm

theorem bfBody_bound2 (en : Option NodeId) (st : BFState)
    (e : NodeId × NodeId × Int)
    (hk : objHasKey st.distances e.1 = true) (m : Int)
    (hm : dLeInt (objGet st.distances e.2.1) m) :
    dLeInt (objGet (bfBody false en st e).distances e.1) (m + e.2.2) := by
  rw [bfBody_undirected]
  exact bfRelax_bound en (bfRelax en st e.1 e.2.1 e.2.2) e.2.1 e.1 e.2.2
    (by rw [bfRelax_hasKey]; exact hk) m
    (dLeInt_of_dOptLe (bfRelax_mono en st e.1 e.2.1 e.2.2 e.2.1) hm)

theorem bfBody_updated_mono (d : Bool) (en : Option NodeId) (st : BFState)
    (e : NodeId × NodeId × Int) (h : st.updated = true) :
    (bfBody d en st e).updated = true := by
  cases d
  · rw [bfBody_undirected]
    exact bfRelax_updated_mono en _ e.2.1 e.1 e.2.2
      (bfRelax_updated_mono en st e.1 e.2.1 e.2.2 h)
  · rw [bfBody_directed]
    exact bfRelax_updated_mono en st e.1 e.2.1 e.2.2 h

theorem bfBody_not_updated (d : Bool) (en : Option NodeId) (st : BFState)
    (e : NodeId × NodeId × Int) (h : (bfBody d en st e).updated = false) :
    bfBody d en st e = st ∧ bfNoImp d st.distances e := by
  cases d
  · rw [bfBody_undirected] at h ⊢
    obtain ⟨heq2, hni2⟩ := bfRelax_not_updated _ _ _ _ _ h
    have h1 : (bfRelax en st e.1 e.2.1 e.2.2).updated = false := by
      rw [← heq2]
      exact h
    obtain ⟨heq1, hni1⟩ := bfRelax_not_updated _ _ _ _ _ h1
    refine ⟨by rw [heq2, heq1], hni1, ?_⟩
    intro _
    rw [heq1] at hni2
    exact hni2
  · rw [bfBody_directed] at h ⊢
    obtain ⟨heq1, hni1⟩ := bfRelax_not_updated _ _ _ _ _ h
    exact ⟨heq1, hni1, fun hf => Bool.noConfusion hf⟩

/-- Master lemma for one relaxation round (as a fold of bfBody): keys
and achievability are preserved, entries never increase, every listed
pair leaves its relax bound, the updated flag is monotone, and a round
reporting no update was the identity with no improvement available. -/
theorem bfRound_fold {edges : List Edge} {s : NodeId} (d : Bool)
    (en : Option NodeId) :
    ∀ (L : List (NodeId × NodeId × Int)) (st : BFState),
      (∀ p, p ∈ L → edgeW d edges p.1 p.2.1 p.2.2 ∧
        (d = false → edgeW d edges p.2.1 p.1 p.2.2)) →
      (∀ p, p ∈ L → objHasKey st.distances p.2.1 = true ∧
        objHasKey st.distances p.1 = true) →
      bfAch d edges s st.distances →
      ((∀ v, objHasKey (L.foldl (bfBody d en) st).distances v =
          objHasKey st.distances v) ∧
        (∀ v, dOptLe (objGet (L.foldl (bfBody d en) st).distances v)
          (objGet st.distances v)) ∧
        bfAch d edges s (L.foldl (bfBody d en) st).distances ∧
        (∀ p, p ∈ L →
          (∀ m, dLeInt (objGet st.distances p.1) m →
            dLeInt (objGet (L.foldl (bfBody d en) st).distances p.2.1)
              (m + p.2.2)) ∧
          (d = false → ∀ m, dLeInt (objGet st.distances p.2.1) m →
            dLeInt (objGet (L.foldl (bfBody d en) st).distances p.1)
              (m + p.2.2))) ∧
        (st.updated = true → (L.foldl (bfBody d en) st).updated = true) ∧
        ((L.foldl (bfBody d en) st).updated = false →
          L.foldl (bfBody d en) st = st ∧
          ∀ p, p ∈ L → bfNoImp d st.distances p)) := by
  intro L
  induction L with
  | nil =>
    intro st hL hkeys hach
    exact ⟨fun v => rfl, fun v => dOptLe_refl _, hach,
      fun p hp => absurd hp (List.not_mem_nil p), fun h => h,
      fun _ => ⟨rfl, fun p hp => absurd hp (List.not_mem_nil p)⟩⟩
  | cons p L ih =>
    intro st hL hkeys hach
    rw [List.foldl_cons]
    have hLp := hL p (List.mem_cons_self _ _)
    have hkp := hkeys p (List.mem_cons_self _ _)
    have hach1 : bfAch d edges s (bfBody d en st p).distances :=
      bfBody_ach d en st p hLp.1 hLp.2 hach
    have hkeys1 : ∀ q, q ∈ L →
        objHasKey (bfBody d en st p).distances q.2.1 = true ∧
        objHasKey (bfBody d en st p).distances q.1 = true := by
      intro q hq
      rw [bfBody_hasKey, bfBody_hasKey]
      exact hkeys q (List.mem_cons_of_mem _ hq)
    obtain ⟨ihK, ihM, ihA, ihB, ihU, ihN⟩ :=
      ih (bfBody d en st p) (fun q hq => hL q (List.mem_cons_of_mem _ hq))
        hkeys1 hach1
    refine ⟨?_, ?_, ihA, ?_, ?_, ?_⟩
    · intro v
      rw [ihK v, bfBody_hasKey]
    · intro v
      exact dOptLe_trans (ihM v) (bfBody_mono d en st p v)
    · intro q hq
      rcases List.mem_cons.mp hq with rfl | hq2
      · constructor
        · intro m hm
          exact dLeInt_of_dOptLe (ihM q.2.1)
            (bfBody_bound1 d en st q hkp.1 m hm)
        · intro hd m hm
          subst hd
          exact dLeInt_of_dOptLe (ihM q.1)
            (bfBody_bound2 en st q hkp.2 m hm)
      · have hb := ihB q hq2
        constructor
        · intro m hm
          exact hb.1 m (dLeInt_of_dOptLe (bfBody_mono d en st p q.1) hm)
        · intro hd m hm
          exact hb.2 hd m
            (dLeInt_of_dOptLe (bfBody_mono d en st p q.2.1) hm)
    · intro hu
      exact ihU (bfBody_updated_mono d en st p hu)
    · intro hu
      obtain ⟨hres, hni⟩ := ihN hu
      have h1 : (bfBody d en st p).updated = false := by
        rw [← hres]
        exact hu
      obtain ⟨heq, hnip⟩ := bfBody_not_updated d en st p h1
      refine ⟨by rw [hres, heq], ?_⟩
      intro q hq
      rcases List.mem_cons.mp hq with rfl | hq2
      · exact hnip
      · have h2 := hni q hq2
        rw [heq] at h2
        exact h2

theorem objGet_some_of_hasKey {D : Obj Dist} {v : NodeId}
    (h : objHasKey D v = true) : ∃ dv, objGet D v = some dv := by
  have h2 := (objHasKey_iff D v).mp h
  rcases hg : objGet D v with _ | dv
  · rw [hg] at h2
    cases h2
  · exact ⟨dv, rfl⟩

/-- If no listed pair admits an improvement, the map is a relaxed
fixpoint for the whole usable edge relation. -/
theorem bfStable_of_noImp {edges : List Edge} {ids : List NodeId}
    (d : Bool) {L : List (NodeId × NodeId × Int)} {D : Obj Dist}
    (hcompl : ∀ u v wt, edgeW d edges u v wt → ∃ p, p ∈ L ∧
      (p = (u, v, wt) ∨ (d = false ∧ p = (v, u, wt))))
    (hids : ∀ p, p ∈ L → p.1 ∈ ids ∧ p.2.1 ∈ ids)
    (hkeys : bfKeys ids D)
    (hni : ∀ p, p ∈ L → bfNoImp d D p) :
    bfStable d edges D := by
  intro u v wt he m hu
  obtain ⟨p, hp, hor⟩ := hcompl u v wt he
  rcases hor with h1 | ⟨hd, h2⟩
  · subst h1
    have hh := (hni _ hp).1 m hu
    obtain ⟨dv, hdv⟩ := objGet_some_of_hasKey (hkeys _ (hids _ hp).2)
    rw [hdv] at hh ⊢
    exact dLeInt_of_not_lt rfl hh
  · subst h2
    have hh := (hni _ hp).2 hd m hu
    obtain ⟨dv, hdv⟩ := objGet_some_of_hasKey (hkeys _ (hids _ hp).1)
    rw [hdv] at hh ⊢
    exact dLeInt_of_not_lt rfl hh

/-- On a relaxed fixpoint, every walk propagates its bound. -/
theorem bfStable_all {edges : List Edge} (d : Bool) {D : Obj Dist}
    (hst : bfStable d edges D) :
    ∀ {u v : NodeId} {l : List NodeId} {c : Int}, Walk d edges u v l c →
      ∀ m, dLeInt (objGet D u) m → dLeInt (objGet D v) (m + c) := by
  intro u v l c hw
  induction hw with
  | nil =>
    intro m hm
    exact dLeInt_weaken hm (by omega)
  | @cons u0 v0 w0 l0 c0 wt0 he hwalk ih =>
    intro m hm
    obtain ⟨m0, hDu, hm0⟩ := hm
    have h1 := hst _ _ _ he m0 hDu
    have h2 := ih (m0 + wt0) h1
    exact dLeInt_weaken h2 (by omega)

/-- On a relaxed fixpoint whose start entry is at most zero, every
reachable node's entry is bounded by every walk cost to it. -/
theorem bfStable_reach_bound {edges : List Edge} {s : NodeId} (d : Bool)
    {D : Obj Dist} (hst : bfStable d edges D)
    (hs0 : dLeInt (objGet D s) 0) :
    ∀ v c, Reach d edges s v c → dLeInt (objGet D v) c := by
  intro v c hr
  obtain ⟨l, hw⟩ := hr
  have h1 := bfStable_all d hst hw 0 hs0
  exact dLeInt_weaken h1 (by omega)

/-- A length-indexed bound for walks one edge longer survives a round. -/
theorem bfBoundLen_step {edges : List Edge} {s : NodeId} (d : Bool)
    {D D2 : Obj Dist} (j : Nat)
    (hmono : ∀ v, dOptLe (objGet D2 v) (objGet D v))
    (hbound : ∀ u v wt, edgeW d edges u v wt →
      ∀ m, dLeInt (objGet D u) m → dLeInt (objGet D2 v) (m + wt))
    (hbl : bfBoundLen d edges s j D) :
    bfBoundLen d edges s (j + 1) D2 := by
  intro v l c hw hlen
  by_cases hsh : l.length ≤ j + 1
  · exact dLeInt_of_dOptLe (hmono v) (hbl v l c hw hsh)
  · have h2 : 2 ≤ l.length := by omega
    obtain ⟨y, l1, c1, wt, hw1, he, hc, hl, _⟩ := walk_last_edge hw h2
    have hlen1 : (l1 ++ [y]).length ≤ j + 1 := by
      rw [hl, List.length_append, List.length_singleton] at hlen
      omega
    have hb1 := hbl y (l1 ++ [y]) c1 hw1 hlen1
    have h3 := hbound y v wt he c1 hb1
    rw [hc]
    exact h3

/-- A length-indexed bound covering duplicate-free walks bounds every
walk cost, by the shortening argument (nonnegative weights). -/
theorem bfBoundLen_reach_bound {edges : List Edge} {ids : List NodeId}
    {s : NodeId} (d : Bool) {D : Obj Dist}
    (hdecl : ∀ e, e ∈ edges → e.from_ ∈ ids ∧ e.to_ ∈ ids)
    (hnn : ∀ e, e ∈ edges → 0 ≤ e.weight.getD 1) (hs : s ∈ ids)
    (hbl : bfBoundLen d edges s (ids.length - 1) D) :
    ∀ v c, Reach d edges s v c → dLeInt (objGet D v) c := by
  intro v c hr
  obtain ⟨l, hw⟩ := hr
  obtain ⟨l2, c2, hw2, hle2, hnd2, hsub2⟩ :=
    walk_shorten hnn l.length l c (le_refl _) hw
  have hnodes := walk_nodes_decl hdecl hw hs
  have hsub3 : ∀ x, x ∈ l2 → x ∈ ids := fun x hx => hnodes x (hsub2 x hx)
  have hlen := nodup_subset_length_le l2 ids hnd2 hsub3
  have hids1 : 0 < ids.length := List.length_pos_of_mem hs
  have hlen2 : l2.length ≤ (ids.length - 1) + 1 := by omega
  exact dLeInt_weaken (hbl v l2 c2 hw2 hlen2) hle2

/-- Converting the per-pair round bound into an edge-relation bound. -/
theorem bfRound_edge_bound {edges : List Edge} (d : Bool)
    {L : List (NodeId × NodeId × Int)} {D D2 : Obj Dist}
    (hcompl : ∀ u v wt, edgeW d edges u v wt → ∃ p, p ∈ L ∧
      (p = (u, v, wt) ∨ (d = false ∧ p = (v, u, wt))))
    (hB : ∀ p, p ∈ L →
      (∀ m, dLeInt (objGet D p.1) m → dLeInt (objGet D2 p.2.1) (m + p.2.2)) ∧
      (d = false → ∀ m, dLeInt (objGet D p.2.1) m →
        dLeInt (objGet D2 p.1) (m + p.2.2))) :
    ∀ u v wt, edgeW d edges u v wt →
      ∀ m, dLeInt (objGet D u) m → dLeInt (objGet D2 v) (m + wt) := by
  intro u v wt he m hm
  obtain ⟨p, hp, hor⟩ := hcompl u v wt he
  rcases hor with h1 | ⟨hd, h2⟩
  · subst h1
    exact (hB _ hp).1 m hm
  · subst h2
    exact (hB _ hp).2 hd m hm

theorem bfRounds_succ (d : Bool) (en : Option NodeId)
    (L : List (NodeId × NodeId × Int)) (k : Nat) (st : BFState) :
    bfRounds d en L (k+1) st =
      (if (bfRound d en L { st with updated := false }).updated = true then
        bfRounds d en L k (bfRound d en L { st with updated := false })
      else bfRound d en L { st with updated := false }) := rfl

/-- Master lemma for the rounds loop: keys, achievability and
monotonicity are maintained, and the final distances either carry the
length-indexed bound for as many rounds as were available or are a
relaxed fixpoint (the early-exit case). -/
theorem bfRounds_spec {edges : List Edge} {s : NodeId} {ids : List NodeId}
    (d : Bool) (en : Option NodeId) (L : List (NodeId × NodeId × Int))
    (hLsound : ∀ p, p ∈ L → edgeW d edges p.1 p.2.1 p.2.2 ∧
      (d = false → edgeW d edges p.2.1 p.1 p.2.2))
    (hLcompl : ∀ u v wt, edgeW d edges u v wt → ∃ p, p ∈ L ∧
      (p = (u, v, wt) ∨ (d = false ∧ p = (v, u, wt))))
    (hidsL : ∀ p, p ∈ L → p.1 ∈ ids ∧ p.2.1 ∈ ids) :
    ∀ (k j : Nat) (st : BFState),
      bfKeys ids st.distances →
      bfAch d edges s st.distances →
      bfBoundLen d edges s j st.distances →
      (bfKeys ids (bfRounds d en L k st).distances ∧
        bfAch d edges s (bfRounds d en L k st).distances ∧
        (∀ v, dOptLe (objGet (bfRounds d en L k st).distances v)
          (objGet st.distances v)) ∧
        (bfBoundLen d edges s (j + k) (bfRounds d en L k st).distances ∨
          bfStable d edges (bfRounds d en L k st).distances)) := by
  intro k
  induction k with
  | zero =>
    intro j st hkeys hach hbl
    exact ⟨hkeys, hach, fun v => dOptLe_refl _, Or.inl hbl⟩
  | succ k ih =>
    intro j st hkeys hach hbl
    rw [bfRounds_succ]
    simp only [bfRound_eq]
    have hkeysL : ∀ p, p ∈ L →
        objHasKey ({ st with updated := false } : BFState).distances
          p.2.1 = true ∧
        objHasKey ({ st with updated := false } : BFState).distances
          p.1 = true := by
      intro p hp
      exact ⟨hkeys _ (hidsL p hp).2, hkeys _ (hidsL p hp).1⟩
    obtain ⟨rK, rM, rA, rB, rU, rN⟩ := bfRound_fold d en L
      { st with updated := false } hLsound hkeysL hach
    by_cases hup :
      (L.foldl (bfBody d en) { st with updated := false }).updated = true
    · rw [if_pos hup]
      have hkeys2 : bfKeys ids
          (L.foldl (bfBody d en) { st with updated := false }).distances := by
        intro v hv
        rw [rK v]
        exact hkeys v hv
      have hbl2 : bfBoundLen d edges s (j + 1)
          (L.foldl (bfBody d en) { st with updated := false }).distances :=
        bfBoundLen_step d j rM (bfRound_edge_bound d hLcompl rB) hbl
      obtain ⟨iK, iA, iM, iB⟩ := ih (j + 1) _ hkeys2 rA hbl2
      refine ⟨iK, iA, fun v => dOptLe_trans (iM v) (rM v), ?_⟩
      rcases iB with hB | hS
      · left
        have he : j + 1 + k = j + (k + 1) := by omega
        rw [he] at hB
        exact hB
      · right
        exact hS
    · rw [if_neg hup]
      have hup2 :
          (L.foldl (bfBody d en) { st with updated := false }).updated
            = false := Bool.eq_false_iff.mpr hup
      obtain ⟨hres, hni⟩ := rN hup2
      refine ⟨?_, rA, rM, Or.inr ?_⟩
      · intro v hv
        rw [rK v]
        exact hkeys v hv
      · rw [hres]
        exact bfStable_of_noImp d hLcompl hidsL hkeys hni

/-- The initial Bellman-Ford state for a valid start node. -/
def bfState0 (nodes : List Node) (startNode : NodeId) : BFState :=
  let distances := nodes.foldl (fun d nn =>
    objSet d nn.id (if nn.id == startNode then Dist.fin 0 else Dist.inf))
    ([] : Obj Dist)
  let previous := nodes.foldl (fun p nn => objSet p nn.id none)
    ([] : Obj (Option NodeId))
  { distances := distances
    previous := previous
    steps := [{
      distances := some distances
      visited := some (finiteKeys distances)
      current := some (some startNode)
      path := some []
      previous := some previous }]
    lastUpdated := none
    updated := false }

/-- The directed pair list Bellman-Ford iterates. -/
def bfEdgeList (edges : List Edge) : List (NodeId × NodeId × Int) :=
  edges.map (fun e => (e.from_, e.to_, e.weight.getD 1))

/-- The state after all Bellman-Ford rounds. -/
def bfFinish (nodes : List Node) (edges : List Edge) (options : Options)
    (startNode : NodeId) : BFState :=
  bfRounds (options.isDirected.getD false) options.endNode
    (bfEdgeList edges) (nodes.length - 1) (bfState0 nodes startNode)

/-- On a valid start node runBellmanFord ends with a final step that
carries the post-rounds distances and the finished flag. -/
theorem runBellmanFord_last (nodes : List Node) (edges : List Edge)
    (options : Options) (startNode : NodeId)
    (hstart : options.startNode = some startNode)
    (hvalid : ¬(startNode == "" ∨
      ¬ nodes.any (fun n => n.id == startNode))) :
    ∃ last, (runBellmanFord nodes edges options).getLast? = some last ∧
      last.distances =
        some (bfFinish nodes edges options startNode).distances ∧
      last.finished = some true := by
  unfold runBellmanFord bfFinish bfState0 bfEdgeList
  rw [hstart]
  dsimp only
  rw [if_neg hvalid]
  exact ⟨_, List.getLast?_concat _, rfl, rfl⟩

theorem bfEdgeList_sound (d : Bool) (edges : List Edge) :
    ∀ p, p ∈ bfEdgeList edges → edgeW d edges p.1 p.2.1 p.2.2 ∧
      (d = false → edgeW d edges p.2.1 p.1 p.2.2) := by
  intro p hp
  obtain ⟨e, he, hpe⟩ := List.mem_map.mp hp
  subst hpe
  constructor
  · exact ⟨e, he, rfl, Or.inl ⟨rfl, rfl⟩⟩
  · intro hd
    exact ⟨e, he, rfl, Or.inr ⟨hd, rfl, rfl⟩⟩

theorem bfEdgeList_compl (d : Bool) (edges : List Edge) :
    ∀ u v wt, edgeW d edges u v wt → ∃ p, p ∈ bfEdgeList edges ∧
      (p = (u, v, wt) ∨ (d = false ∧ p = (v, u, wt))) := by
  intro u v wt he
  obtain ⟨e, he2, hw, hor⟩ := he
  refine ⟨(e.from_, e.to_, e.weight.getD 1),
    List.mem_map_of_mem _ he2, ?_⟩
  rcases hor with ⟨h1, h2⟩ | ⟨hd, h1, h2⟩
  · left
    rw [h1, h2, hw]
  · right
    exact ⟨hd, by rw [h1, h2, hw]⟩

theorem bfEdgeList_ids {nodes : List Node} (edges : List Edge)
    (hdecl : ∀ e, e ∈ edges → e.from_ ∈ nodes.map Node.id ∧
      e.to_ ∈ nodes.map Node.id) :
    ∀ p, p ∈ bfEdgeList edges → p.1 ∈ nodes.map Node.id ∧
      p.2.1 ∈ nodes.map Node.id := by
  intro p hp
  obtain ⟨e, he, hpe⟩ := List.mem_map.mp hp
  subst hpe
  exact hdecl e he

/-- Key presence in the initial distance map. -/
theorem bf_init_hasKey (nodes : List Node) (startNode v : NodeId) :
    objHasKey (bfState0 nodes startNode).distances v =
      decide (v ∈ nodes.map Node.id) := by
  have h : objHasKey (bfState0 nodes startNode).distances v =
      (objHasKey ([] : Obj Dist) v || decide (v ∈ nodes.map Node.id)) :=
    objHasKey_init_fun
      (fun id => if id == startNode then Dist.fin 0 else Dist.inf)
      nodes [] v
  rw [h]
  simp [objHasKey]

/-- Value of a declared id in the initial distance map. -/
theorem bf_init_get (nodes : List Node) (startNode v : NodeId)
    (hv : v ∈ nodes.map Node.id) :
    objGet (bfState0 nodes startNode).distances v =
      some (if v == startNode then Dist.fin 0 else Dist.inf) :=
  objGet_init_fun
    (fun id => if id == startNode then Dist.fin 0 else Dist.inf)
    nodes [] v (Or.inl hv)

/-- Bellman-Ford computes shortest distances at every declared node
(for nonnegative weights and edges referencing declared ids). -/
theorem bf_correct (nodes : List Node) (edges : List Edge)
    (options : Options) (startNode : NodeId)
    (hdecl : ∀ e, e ∈ edges → e.from_ ∈ nodes.map Node.id ∧
      e.to_ ∈ nodes.map Node.id)
    (hnn : ∀ e, e ∈ edges → 0 ≤ e.weight.getD 1)
    (hs : startNode ∈ nodes.map Node.id) :
    ∀ v, v ∈ nodes.map Node.id → ∃ dv,
      objGet (bfFinish nodes edges options startNode).distances v =
        some dv ∧
      IsShortest (options.isDirected.getD false) edges startNode v dv := by
  intro v hv
  have hkeys0 : bfKeys (nodes.map Node.id)
      (bfState0 nodes startNode).distances := by
    intro w hw
    rw [bf_init_hasKey]
    exact decide_eq_true hw
  have hach0 : bfAch (options.isDirected.getD false) edges startNode
      (bfState0 nodes startNode).distances := by
    intro w m hwm
    by_cases hwi : w ∈ nodes.map Node.id
    · rw [bf_init_get nodes startNode w hwi] at hwm
      by_cases hws : (w == startNode) = true
      · rw [if_pos hws] at hwm
        injection hwm with h2
        injection h2 with h3
        have hw2 : w = startNode := by simpa using hws
        subst hw2
        rw [← h3]
        exact ⟨[w], Walk.nil w⟩
      · rw [if_neg hws] at hwm
        injection hwm with h2
        cases h2
    · have hk : objHasKey (bfState0 nodes startNode).distances w = false := by
        rw [bf_init_hasKey]
        simpa using hwi
      rw [objGet_eq_none_of_not_hasKey hk] at hwm
      cases hwm
  have hbl0 : bfBoundLen (options.isDirected.getD false) edges startNode 0
      (bfState0 nodes startNode).distances := by
    intro w l c hw hlen
    have h0 : 0 < l.length := List.length_pos.mpr (walk_ne_nil hw)
    have h1 : l.length = 1 := by omega
    obtain ⟨hv2, hc⟩ := walk_length_one hw h1
    subst hv2
    subst hc
    rw [bf_init_get nodes startNode startNode hs, if_pos (by simp)]
    exact ⟨0, rfl, le_refl 0⟩
  obtain ⟨fK, fA, fM, fB⟩ := bfRounds_spec (options.isDirected.getD false)
    options.endNode (bfEdgeList edges)
    (bfEdgeList_sound _ edges) (bfEdgeList_compl _ edges)
    (bfEdgeList_ids edges hdecl)
    (nodes.length - 1) 0 (bfState0 nodes startNode) hkeys0 hach0 hbl0
  have hub : ∀ w c, Reach (options.isDirected.getD false) edges startNode
      w c → dLeInt (objGet (bfFinish nodes edges options
        startNode).distances w) c := by
    rcases fB with hB | hS
    · refine bfBoundLen_reach_bound _ hdecl hnn hs ?_
      have hlen : (nodes.map Node.id).length = nodes.length :=
        List.length_map _ _
      have he2 : 0 + (nodes.length - 1) = (nodes.map Node.id).length - 1 := by
        rw [hlen]
        omega
      rw [he2] at hB
      exact hB
    · refine bfStable_reach_bound _ hS ?_
      have h0 : objGet (bfState0 nodes startNode).distances startNode =
          some (Dist.fin 0) := by
        rw [bf_init_get _ _ _ hs, if_pos (by simp)]
      have h1 := fM startNode
      rw [h0] at h1
      exact dLeInt_of_dOptLe h1 ⟨0, rfl, le_refl 0⟩
  obtain ⟨dv, hdv⟩ := objGet_some_of_hasKey (fK v hv)
  have hdv2 : objGet (bfFinish nodes edges options startNode).distances v =
      some dv := hdv
  refine ⟨dv, hdv2, ?_⟩
  cases dv with
  | inf =>
    show ¬ ∃ c, Reach (options.isDirected.getD false) edges startNode v c
    rintro ⟨c, hr⟩
    have h2 := hub v c hr
    rw [hdv2] at h2
    obtain ⟨m, heq, _⟩ := h2
    simp at heq
  | fin m =>
    refine ⟨fA v m hdv, ?_⟩
    intro c hr
    have h2 := hub v c hr
    rw [hdv2] at h2
    obtain ⟨m2, heq, hle⟩ := h2
    injection heq with h3
    injection h3 with h4
    omega

/-! Dijkstra correctness machinery. -/

theorem optDistLt_some {o : Option Dist} {a : Dist}
    (h : optDistLt o a = true) : ∃ dk, o = some dk ∧ Dist.lt dk a = true := by
  cases o with
  | none => cases h
  | some dk => exact ⟨dk, rfl, h⟩

theorem dist_lt_left_fin {a b : Dist} (h : Dist.lt a b = true) :
    ∃ m, a = Dist.fin m := by
  cases a with
  | inf => cases h
  | fin m => exact ⟨m, rfl⟩

theorem dist_not_lt_inf {a : Dist} (h : Dist.lt a Dist.inf = false) :
    a = Dist.inf := by
  cases a with
  | inf => rfl
  | fin m => cases h

theorem distLe_of_lt {a b : Dist} (h : Dist.lt a b = true) : distLe a b := by
  cases a with
  | inf => cases h
  | fin m =>
    cases b with
    | inf => trivial
    | fin m2 =>
      show m ≤ m2
      simp only [Dist.lt] at h
      have := of_decide_eq_true h
      omega

/-- The fold body of Dijkstra's minimum scan. -/
def dijScanF (distances : Obj Dist) (visited : List NodeId)
    (acc : Option NodeId × Dist) (id : NodeId) : Option NodeId × Dist :=
  if id ∉ visited ∧ optDistLt (objGet distances id) acc.2 then
    (some id, (objGet distances id).getD Dist.inf)
  else acc

theorem dijkstraScanMin_eq (D : Obj Dist) (vis : List NodeId) :
    dijkstraScanMin D vis =
      (objKeys D).foldl (dijScanF D vis) (none, Dist.inf) := rfl

/-- Fold invariant of the minimum scan: a selected id is an unvisited
key holding the tracked finite minimum, no processed unvisited key lies
strictly below the result, the result never exceeds the incoming
accumulator, and a none result means nothing was ever selected. -/
theorem dijScan_fold (D : Obj Dist) (vis : List NodeId) :
    ∀ (keys : List NodeId) (acc : Option NodeId × Dist),
      (∀ cur, acc.1 = some cur → cur ∉ vis ∧
        objGet D cur = some acc.2 ∧ ∃ m, acc.2 = Dist.fin m) →
      ((∀ cur, (keys.foldl (dijScanF D vis) acc).1 = some cur →
          cur ∉ vis ∧ objGet D cur =
            some (keys.foldl (dijScanF D vis) acc).2 ∧
          ∃ m, (keys.foldl (dijScanF D vis) acc).2 = Dist.fin m) ∧
        (∀ y, y ∈ keys → y ∉ vis →
          optDistLt (objGet D y) (keys.foldl (dijScanF D vis) acc).2
            = false) ∧
        ((keys.foldl (dijScanF D vis) acc).2 = acc.2 ∨
          Dist.lt (keys.foldl (dijScanF D vis) acc).2 acc.2 = true) ∧
        ((keys.foldl (dijScanF D vis) acc).1 = none →
          acc.1 = none ∧ (keys.foldl (dijScanF D vis) acc).2 = acc.2)) := by
  intro keys
  induction keys with
  | nil =>
    intro acc hacc
    exact ⟨hacc, fun y hy => absurd hy (List.not_mem_nil y),
      Or.inl rfl, fun h => ⟨h, rfl⟩⟩
  | cons k keys ih =>
    intro acc hacc
    rw [List.foldl_cons]
    by_cases hsel : k ∉ vis ∧ optDistLt (objGet D k) acc.2 = true
    · have hstep : dijScanF D vis acc k =
          (some k, (objGet D k).getD Dist.inf) := by
        unfold dijScanF
        rw [if_pos hsel]
      obtain ⟨dk, hdk, hlt⟩ := optDistLt_some hsel.2
      obtain ⟨mk, hmk⟩ := dist_lt_left_fin hlt
      have hacc1 : ∀ cur, (dijScanF D vis acc k).1 = some cur →
          cur ∉ vis ∧ objGet D cur = some (dijScanF D vis acc k).2 ∧
          ∃ m, (dijScanF D vis acc k).2 = Dist.fin m := by
        intro cur hc
        rw [hstep] at hc ⊢
        injection hc with hc2
        subst hc2
        refine ⟨hsel.1, ?_, ?_⟩
        · rw [hdk]
          rfl
        · rw [hdk]
          exact ⟨mk, hmk⟩
      obtain ⟨iC1, iC2, iC3, iC4⟩ := ih (dijScanF D vis acc k) hacc1
      have hacc2 : (dijScanF D vis acc k).2 = dk := by
        rw [hstep, hdk]
        rfl
      refine ⟨iC1, ?_, ?_, ?_⟩
      · intro y hy hyv
        rcases List.mem_cons.mp hy with he | hy2
        · subst he
          rw [hdk]
          show Dist.lt dk (List.foldl (dijScanF D vis)
            (dijScanF D vis acc y) keys).2 = false
          rcases iC3 with h3 | h3
          · rw [h3, hacc2]
            exact dist_lt_irrefl dk
          · rw [hacc2] at h3
            rcases hb : Dist.lt dk (List.foldl (dijScanF D vis)
              (dijScanF D vis acc y) keys).2 with _ | _
            · rfl
            · exfalso
              have h4 := dist_lt_trans hb h3
              rw [dist_lt_irrefl] at h4
              cases h4
        · exact iC2 y hy2 hyv
      · rcases iC3 with h3 | h3
        · rw [h3, hacc2]
          exact Or.inr hlt
        · rw [hacc2] at h3
          exact Or.inr (dist_lt_trans h3 hlt)
      · intro hnone
        obtain ⟨h4, h5⟩ := iC4 hnone
        rw [hstep] at h4
        cases h4
    · have hstep : dijScanF D vis acc k = acc := by
        unfold dijScanF
        rw [if_neg hsel]
      rw [hstep]
      obtain ⟨iC1, iC2, iC3, iC4⟩ := ih acc hacc
      refine ⟨iC1, ?_, iC3, iC4⟩
      intro y hy hyv
      rcases List.mem_cons.mp hy with he | hy2
      · subst he
        have hno : optDistLt (objGet D y) acc.2 = false := by
          rcases hb : optDistLt (objGet D y) acc.2 with _ | _
          · rfl
          · exact absurd ⟨hyv, hb⟩ hsel
        rcases iC3 with h3 | h3
        · rw [h3]
          exact hno
        · rcases hb : optDistLt (objGet D y)
            (List.foldl (dijScanF D vis) acc keys).2 with _ | _
          · rfl
          · exfalso
            obtain ⟨dy, hdy, hlty⟩ := optDistLt_some hb
            have h4 := dist_lt_trans hlty h3
            rw [hdy] at hno
            have h5 : Dist.lt dy acc.2 = false := hno
            rw [h4] at h5
            cases h5
      · exact iC2 y hy2 hyv

/-- Top-level spec of the minimum scan. -/
theorem dijkstraScanMin_spec (D : Obj Dist) (vis : List NodeId) :
    (∀ cur, (dijkstraScanMin D vis).1 = some cur → cur ∉ vis ∧
      objGet D cur = some (dijkstraScanMin D vis).2 ∧
      ∃ m, (dijkstraScanMin D vis).2 = Dist.fin m) ∧
    (∀ y, y ∈ objKeys D → y ∉ vis →
      optDistLt (objGet D y) (dijkstraScanMin D vis).2 = false) ∧
    ((dijkstraScanMin D vis).1 = none → ∀ y, y ∈ objKeys D → y ∉ vis →
      objGet D y = some Dist.inf) := by
  have h0 : ∀ cur, ((none, Dist.inf) : Option NodeId × Dist).1 = some cur →
      cur ∉ vis ∧ objGet D cur =
        some ((none, Dist.inf) : Option NodeId × Dist).2 ∧
      ∃ m, ((none, Dist.inf) : Option NodeId × Dist).2 = Dist.fin m := by
    intro cur hc
    cases hc
  obtain ⟨C1, C2, C3, C4⟩ := dijScan_fold D vis (objKeys D) (none, Dist.inf) h0
  rw [dijkstraScanMin_eq]
  refine ⟨C1, C2, ?_⟩
  intro hnone y hy hyv
  obtain ⟨_, h5⟩ := C4 hnone
  have h6 := C2 y hy hyv
  rw [h5] at h6
  obtain ⟨dy, hdy⟩ := objGet_some_of_hasKey ((mem_objKeys_iff_hasKey D y).mp hy)
  rw [hdy] at h6 ⊢
  have h7 : Dist.lt dy Dist.inf = false := h6
  rw [dist_not_lt_inf h7]

/-- Crossing lemma: under the Dijkstra loop invariants, every walk
from the start to an unvisited node passes an unvisited node whose
current entry is at most the walk's cost (nonnegative weights). -/
theorem dijkstra_cross {d : Bool} {edges : List Edge} {s : NodeId}
    (hnn : ∀ e, e ∈ edges → 0 ≤ e.weight.getD 1)
    {D : Obj Dist} {S : List NodeId}
    (hAD : ∀ y, y ∈ S → ∃ my, objGet D y = some (Dist.fin my) ∧
      (∀ c, Reach d edges s y c → my ≤ c))
    (hREL : ∀ y v wt, y ∈ S → v ∉ S → edgeW d edges y v wt →
      ∀ my, objGet D y = some (Dist.fin my) →
        dLeInt (objGet D v) (my + wt))
    (hSTART : s ∈ S ∨ dLeInt (objGet D s) 0) :
    ∀ (n : Nat) (l : List NodeId) (v : NodeId) (c : Int),
      l.length ≤ n → Walk d edges s v l c → v ∉ S →
      ∃ x, x ∉ S ∧ dLeInt (objGet D x) c := by
  intro n
  induction n with
  | zero =>
    intro l v c hlen hw hv
    have h0 : l = [] := List.length_eq_zero.mp (by omega)
    exact absurd h0 (walk_ne_nil hw)
  | succ n ih =>
    intro l v c hlen hw hv
    by_cases hone : l.length ≤ 1
    · have h0 : 0 < l.length := List.length_pos.mpr (walk_ne_nil hw)
      have h1 : l.length = 1 := by omega
      obtain ⟨hv2, hc⟩ := walk_length_one hw h1
      subst hv2
      subst hc
      rcases hSTART with hss | hs0
      · exact absurd hss hv
      · exact ⟨s, hv, hs0⟩
    · have h2 : 2 ≤ l.length := by omega
      obtain ⟨y, l1, c1, wt, hw1, he, hc, hl, _⟩ := walk_last_edge hw h2
      by_cases hy : y ∈ S
      · obtain ⟨my, hDy, hmin⟩ := hAD y hy
        have hmy : my ≤ c1 := hmin c1 ⟨l1 ++ [y], hw1⟩
        have hrel := hREL y v wt hy hv he my hDy
        refine ⟨v, hv, ?_⟩
        rw [hc]
        exact dLeInt_weaken hrel (by omega)
      · have hlen1 : (l1 ++ [y]).length ≤ n := by
          rw [hl, List.length_append, List.length_singleton] at hlen
          omega
        obtain ⟨x, hx, hxle⟩ := ih (l1 ++ [y]) y c1 hlen1 hw1 hy
        have hwt : 0 ≤ wt := edgeW_nonneg hnn he
        refine ⟨x, hx, ?_⟩
        rw [hc]
        exact dLeInt_weaken hxle (by omega)

/-- The per-neighbor body of the Dijkstra relaxation fold. -/
def dijRelax (endNode : Option NodeId) (current : NodeId) (t : DijState)
    (vw : NodeId × Int) : DijState :=
  if vw.1 ∈ t.visited then t
  else
    let nd := Dist.add ((objGet t.distances current).getD Dist.inf) vw.2
    if distLtOpt nd (objGet t.distances vw.1) then
      let distances := objSet t.distances vw.1 nd
      let previous := objSet t.previous vw.1 (some current)
      { t with
        distances := distances
        previous := previous
        steps := t.steps ++ [{
          visited := some t.visited
          current := some (some vw.1)
          distances := some distances
          path := some (buildPathD previous (orNode endNode vw.1)) }] }
    else t

/-- The state Dijkstra's relaxation produces on an improvement. -/
def dijRelaxUpd (endNode : Option NodeId) (current : NodeId) (t : DijState)
    (vw : NodeId × Int) : DijState :=
  let nd := Dist.add ((objGet t.distances current).getD Dist.inf) vw.2
  let distances := objSet t.distances vw.1 nd
  let previous := objSet t.previous vw.1 (some current)
  { t with
    distances := distances
    previous := previous
    steps := t.steps ++ [{
      visited := some t.visited
      current := some (some vw.1)
      distances := some distances
      path := some (buildPathD previous (orNode endNode vw.1)) }] }

theorem dijRelax_eq_cases (en : Option NodeId) (current : NodeId)
    (t : DijState) (vw : NodeId × Int) :
    (dijRelax en current t vw = t ∧
      (vw.1 ∉ t.visited →
        distLtOpt (Dist.add ((objGet t.distances current).getD Dist.inf)
          vw.2) (objGet t.distances vw.1) = false)) ∨
    (vw.1 ∉ t.visited ∧
      distLtOpt (Dist.add ((objGet t.distances current).getD Dist.inf)
        vw.2) (objGet t.distances vw.1) = true ∧
      dijRelax en current t vw = dijRelaxUpd en current t vw) := by
  unfold dijRelax
  by_cases hvis : vw.1 ∈ t.visited
  · rw [if_pos hvis]
    exact Or.inl ⟨rfl, fun h => absurd hvis h⟩
  · rw [if_neg hvis]
    dsimp only
    by_cases himp : distLtOpt (Dist.add
        ((objGet t.distances current).getD Dist.inf) vw.2)
        (objGet t.distances vw.1) = true
    · rw [if_pos himp]
      exact Or.inr ⟨hvis, himp, rfl⟩
    · rw [if_neg himp]
      exact Or.inl ⟨rfl, fun _ => Bool.eq_false_iff.mpr himp⟩

/-- The visit step: mark current visited and push the visit record. -/
def dijVisit (endNode : Option NodeId) (current : NodeId) (s : DijState) :
    DijState :=
  let visited := setAdd s.visited current
  { s with
    visited := visited
    steps := s.steps ++ [{
      visited := some visited
      current := some (some current)
      distances := some s.distances
      path := some (buildPathD s.previous (orNode endNode current))
      previous := some s.previous }] }

/-- Unfolding of one iteration of the Dijkstra main loop. -/
theorem dijkstraLoop_succ (nodes : List Node)
    (adj : Obj (List (NodeId × Int))) (en : Option NodeId) (fuel : Nat)
    (s : DijState) :
    dijkstraLoop nodes adj en (fuel+1) s =
      (if s.visited.length < nodes.length then
        match (dijkstraScanMin s.distances s.visited).1 with
        | none => s
        | some current =>
          if objGet s.distances current = some Dist.inf then s
          else
            if some current = en then dijVisit en current s
            else dijkstraLoop nodes adj en fuel
              (((objGet adj current).getD []).foldl (dijRelax en current)
                (dijVisit en current s))
      else s) := rfl

theorem distLtOpt_some_right {a : Dist} {o : Option Dist}
    (h : distLtOpt a o = true) : ∃ dv, o = some dv ∧ Dist.lt a dv = true := by
  cases o with
  | none => cases h
  | some dv => exact ⟨dv, rfl, h⟩

theorem dijRelax_visited (en : Option NodeId) (current : NodeId)
    (t : DijState) (vw : NodeId × Int) :
    (dijRelax en current t vw).visited = t.visited := by
  rcases dijRelax_eq_cases en current t vw with ⟨heq, _⟩ | ⟨_, _, heq⟩
  · rw [heq]
  · rw [heq]
    rfl

theorem dijRelax_hasKey (en : Option NodeId) (current : NodeId)
    (t : DijState) (vw : NodeId × Int) (v : NodeId) :
    objHasKey (dijRelax en current t vw).distances v =
      objHasKey t.distances v := by
  rcases dijRelax_eq_cases en current t vw with ⟨heq, _⟩ |
    ⟨hvis, himp, heq⟩
  · rw [heq]
  · rw [heq]
    show objHasKey (objSet t.distances vw.1 _) v = _
    rw [objHasKey_objSet]
    by_cases hv : v = vw.1
    · subst hv
      obtain ⟨dv, hdv, _⟩ := distLtOpt_some_right himp
      have hk : objHasKey t.distances vw.1 = true :=
        (objHasKey_iff _ _).mpr (by rw [hdv]; rfl)
      simp [hk]
    · have h1 : (v == vw.1) = false := by simpa using hv
      rw [h1, Bool.or_false]

theorem dijRelax_mono (en : Option NodeId) (current : NodeId)
    (t : DijState) (vw : NodeId × Int) (v : NodeId) :
    dOptLe (objGet (dijRelax en current t vw).distances v)
      (objGet t.distances v) := by
  rcases dijRelax_eq_cases en current t vw with ⟨heq, _⟩ |
    ⟨hvis, himp, heq⟩
  · rw [heq]
    exact dOptLe_refl _
  · rw [heq]
    show dOptLe (objGet (objSet t.distances vw.1
      (Dist.add ((objGet t.distances current).getD Dist.inf) vw.2)) v)
      (objGet t.distances v)
    by_cases hv : v = vw.1
    · subst hv
      rw [objGet_objSet_self]
      obtain ⟨dv, hdv, hlt⟩ := distLtOpt_some_right himp
      rw [hdv]
      exact distLe_of_lt hlt
    · rw [objGet_objSet_ne _ _ _ _ hv]
      exact dOptLe_refl _

theorem dijRelax_unchanged_vis (en : Option NodeId) (current : NodeId)
    (t : DijState) (vw : NodeId × Int) (v : NodeId) (hv : v ∈ t.visited) :
    objGet (dijRelax en current t vw).distances v =
      objGet t.distances v := by
  rcases dijRelax_eq_cases en current t vw with ⟨heq, _⟩ |
    ⟨hvis, himp, heq⟩
  · rw [heq]
  · rw [heq]
    show objGet (objSet t.distances vw.1 _) v = _
    have hne : v ≠ vw.1 := fun h => hvis (h ▸ hv)
    rw [objGet_objSet_ne _ _ _ _ hne]

theorem dijRelax_ach {d : Bool} {edges : List Edge} {s0 : NodeId}
    (en : Option NodeId) (current : NodeId) (t : DijState)
    (vw : NodeId × Int) (mc : Int)
    (hcur : objGet t.distances current = some (Dist.fin mc))
    (hreach : Reach d edges s0 current mc)
    (he : edgeW d edges current vw.1 vw.2)
    (hach : bfAch d edges s0 t.distances) :
    bfAch d edges s0 (dijRelax en current t vw).distances := by
  rcases dijRelax_eq_cases en current t vw with ⟨heq, _⟩ |
    ⟨hvis, himp, heq⟩
  · rw [heq]
    exact hach
  · rw [heq]
    intro v m hvm
    have hnd : Dist.add ((objGet t.distances current).getD Dist.inf) vw.2 =
        Dist.fin (mc + vw.2) := by
      rw [hcur]
      rfl
    have hvm2 : objGet (objSet t.distances vw.1
        (Dist.add ((objGet t.distances current).getD Dist.inf) vw.2)) v =
        some (Dist.fin m) := hvm
    by_cases hvv : v = vw.1
    · subst hvv
      rw [objGet_objSet_self, hnd] at hvm2
      injection hvm2 with h2
      injection h2 with h3
      obtain ⟨l0, hw0⟩ := hreach
      obtain ⟨l2, hw2⟩ := walk_snoc_edge hw0 he
      rw [← h3]
      exact ⟨l2, hw2⟩
    · rw [objGet_objSet_ne _ _ _ _ hvv] at hvm2
      exact hach v m hvm2

theorem dijRelax_bound (en : Option NodeId) (current : NodeId)
    (t : DijState) (vw : NodeId × Int) (mc : Int)
    (hcur : objGet t.distances current = some (Dist.fin mc))
    (hk : objHasKey t.distances vw.1 = true) (hunvis : vw.1 ∉ t.visited) :
    dLeInt (objGet (dijRelax en current t vw).distances vw.1)
      (mc + vw.2) := by
  have hnd : Dist.add ((objGet t.distances current).getD Dist.inf) vw.2 =
      Dist.fin (mc + vw.2) := by
    rw [hcur]
    rfl
  rcases dijRelax_eq_cases en current t vw with ⟨heq, hni⟩ |
    ⟨hvis, himp, heq⟩
  · rw [heq]
    have h2 := hni hunvis
    rw [hnd] at h2
    obtain ⟨dv, hdv⟩ := objGet_some_of_hasKey hk
    rw [hdv] at h2 ⊢
    exact dLeInt_of_not_lt rfl h2
  · rw [heq]
    show dLeInt (objGet (objSet t.distances vw.1
      (Dist.add ((objGet t.distances current).getD Dist.inf) vw.2)) vw.1)
      (mc + vw.2)
    rw [objGet_objSet_self, hnd]
    exact ⟨mc + vw.2, rfl, le_refl _⟩

theorem dijRelax_laststep (en : Option NodeId) (current : NodeId)
    (t : DijState) (vw : NodeId × Int)
    (h : ∃ last, t.steps.getLast? = some last ∧
      last.distances = some t.distances) :
    ∃ last, (dijRelax en current t vw).steps.getLast? = some last ∧
      last.distances = some (dijRelax en current t vw).distances := by
  rcases dijRelax_eq_cases en current t vw with ⟨heq, _⟩ |
    ⟨hvis, himp, heq⟩
  · rw [heq]
    exact h
  · rw [heq]
    exact ⟨_, List.getLast?_concat _, rfl⟩

/-- Master lemma for the Dijkstra relaxation fold over a visited
current node's neighbor list. -/
theorem dijRelax_fold {d : Bool} {edges : List Edge} {s0 : NodeId}
    (en : Option NodeId) (current : NodeId) (mc : Int) :
    ∀ (nbrs : List (NodeId × Int)) (t : DijState),
      current ∈ t.visited →
      objGet t.distances current = some (Dist.fin mc) →
      Reach d edges s0 current mc →
      (∀ vw, vw ∈ nbrs → edgeW d edges current vw.1 vw.2) →
      (∀ vw, vw ∈ nbrs → objHasKey t.distances vw.1 = true) →
      bfAch d edges s0 t.distances →
      ((nbrs.foldl (dijRelax en current) t).visited = t.visited ∧
        (∀ v, objHasKey (nbrs.foldl (dijRelax en current) t).distances v =
          objHasKey t.distances v) ∧
        (∀ v, dOptLe
          (objGet (nbrs.foldl (dijRelax en current) t).distances v)
          (objGet t.distances v)) ∧
        (∀ v, v ∈ t.visited →
          objGet (nbrs.foldl (dijRelax en current) t).distances v =
            objGet t.distances v) ∧
        bfAch d edges s0 (nbrs.foldl (dijRelax en current) t).distances ∧
        (∀ vw, vw ∈ nbrs → vw.1 ∉ t.visited →
          dLeInt
            (objGet (nbrs.foldl (dijRelax en current) t).distances vw.1)
            (mc + vw.2)) ∧
        ((∃ last, t.steps.getLast? = some last ∧
            last.distances = some t.distances) →
          (∃ last, (nbrs.foldl (dijRelax en current) t).steps.getLast? =
            some last ∧ last.distances =
              some (nbrs.foldl (dijRelax en current) t).distances))) := by
  intro nbrs
  induction nbrs with
  | nil =>
    intro t hcv hcur hreach hsound hkeys hach
    exact ⟨rfl, fun v => rfl, fun v => dOptLe_refl _, fun v hv => rfl,
      hach, fun vw hvw => absurd hvw (List.not_mem_nil vw),
      fun h => h⟩
  | cons vw nbrs ih =>
    intro t hcv hcur hreach hsound hkeys hach
    rw [List.foldl_cons]
    have hvw1 := hsound vw (List.mem_cons_self _ _)
    have hkw1 := hkeys vw (List.mem_cons_self _ _)
    have hcv1 : current ∈ (dijRelax en current t vw).visited := by
      rw [dijRelax_visited]
      exact hcv
    have hcur1 : objGet (dijRelax en current t vw).distances current =
        some (Dist.fin mc) := by
      rw [dijRelax_unchanged_vis en current t vw current hcv]
      exact hcur
    have hsound1 : ∀ q, q ∈ nbrs →
        edgeW d edges current q.1 q.2 :=
      fun q hq => hsound q (List.mem_cons_of_mem _ hq)
    have hkeys1 : ∀ q, q ∈ nbrs →
        objHasKey (dijRelax en current t vw).distances q.1 = true := by
      intro q hq
      rw [dijRelax_hasKey]
      exact hkeys q (List.mem_cons_of_mem _ hq)
    have hach1 : bfAch d edges s0 (dijRelax en current t vw).distances :=
      dijRelax_ach en current t vw mc hcur hreach hvw1 hach
    obtain ⟨r1, r2, r3, r4, r5, r6, r7⟩ := ih (dijRelax en current t vw)
      hcv1 hcur1 hreach hsound1 hkeys1 hach1
    refine ⟨?_, ?_, ?_, ?_, r5, ?_, ?_⟩
    · rw [r1, dijRelax_visited]
    · intro v
      rw [r2 v, dijRelax_hasKey]
    · intro v
      exact dOptLe_trans (r3 v) (dijRelax_mono en current t vw v)
    · intro v hv
      rw [r4 v (by rw [dijRelax_visited]; exact hv),
        dijRelax_unchanged_vis en current t vw v hv]
    · intro q hq hqv
      rcases List.mem_cons.mp hq with he | hq2
      · subst he
        exact dLeInt_of_dOptLe (r3 q.1)
          (dijRelax_bound en current t q mc hcur hkw1 hqv)
      · exact r6 q hq2 (by rw [dijRelax_visited]; exact hqv)
    · intro h
      exact r7 (dijRelax_laststep en current t vw h)

/-- A duplicate-free subset at least as long as its superset exhausts
it. -/
theorem full_visited (S ids : List NodeId) (hnd : S.Nodup)
    (hsub : ∀ y, y ∈ S → y ∈ ids) (hlen : ids.length ≤ S.length) :
    ∀ v, v ∈ ids → v ∈ S := by
  intro v hv
  by_contra hvS
  have hsub2 : ∀ y, y ∈ S → y ∈ ids.erase v := by
    intro y hy
    have hne : y ≠ v := fun h => hvS (h ▸ hy)
    exact (List.mem_erase_of_ne hne).mpr (hsub y hy)
  have h1 := nodup_subset_length_le S (ids.erase v) hnd hsub2
  have h2 : (ids.erase v).length = ids.length - 1 :=
    List.length_erase_of_mem hv
  have h3 : 0 < ids.length := List.length_pos_of_mem hv
  omega

/-- Usable edges connect declared ids. -/
theorem edgeW_ids {d : Bool} {edges : List Edge} {nodes : List Node}
    (hdecl : ∀ e, e ∈ edges → e.from_ ∈ nodes.map Node.id ∧
      e.to_ ∈ nodes.map Node.id) {u v : NodeId} {wt : Int}
    (he : edgeW d edges u v wt) :
    u ∈ nodes.map Node.id ∧ v ∈ nodes.map Node.id := by
  obtain ⟨e, he2, _, hor⟩ := he
  rcases hor with ⟨h1, h2⟩ | ⟨_, h1, h2⟩
  · exact ⟨h1 ▸ (hdecl e he2).1, h2 ▸ (hdecl e he2).2⟩
  · exact ⟨h1 ▸ (hdecl e he2).2, h2 ▸ (hdecl e he2).1⟩

/-- The Dijkstra main loop invariant: exact key set, duplicate-free
declared visited set, visited entries are exact shortest distances,
every finite entry is achieved, edges out of the visited set have been
relaxed, the start is visited or still holds a nonpositive entry, and
the newest step (if any) carries the current distances. -/
def DijInv (d : Bool) (edges : List Edge) (ids : List NodeId)
    (s0 : NodeId) (t : DijState) : Prop :=
  (∀ v, objHasKey t.distances v = true ↔ v ∈ ids) ∧
  t.visited.Nodup ∧
  (∀ v, v ∈ t.visited → v ∈ ids) ∧
  (∀ y, y ∈ t.visited → ∃ my, objGet t.distances y = some (Dist.fin my) ∧
    Reach d edges s0 y my ∧ (∀ c, Reach d edges s0 y c → my ≤ c)) ∧
  bfAch d edges s0 t.distances ∧
  (∀ y v wt, y ∈ t.visited → v ∉ t.visited → edgeW d edges y v wt →
    ∀ my, objGet t.distances y = some (Dist.fin my) →
      dLeInt (objGet t.distances v) (my + wt)) ∧
  (s0 ∈ t.visited ∨ dLeInt (objGet t.distances s0) 0) ∧
  ((t.steps = [] ∧ t.visited = []) ∨
    (∃ last, t.steps.getLast? = some last ∧
      last.distances = some t.distances))

/-- Master lemma for the Dijkstra main loop without an end node: the
invariant is preserved and on exit either every declared id is visited
or every unvisited node is unreachable. -/
theorem dijkstraLoop_master {d : Bool} {edges : List Edge} {s0 : NodeId}
    (nodes : List Node) (adj : Obj (List (NodeId × Int)))
    (hadj : ∀ u v wt, ((v, wt) ∈ (objGet adj u).getD []) ↔
      edgeW d edges u v wt)
    (hdecl : ∀ e, e ∈ edges → e.from_ ∈ nodes.map Node.id ∧
      e.to_ ∈ nodes.map Node.id)
    (hnn : ∀ e, e ∈ edges → 0 ≤ e.weight.getD 1) :
    ∀ (fuel : Nat) (t : DijState),
      DijInv d edges (nodes.map Node.id) s0 t →
      nodes.length ≤ fuel + t.visited.length →
      (DijInv d edges (nodes.map Node.id) s0
        (dijkstraLoop nodes adj none fuel t) ∧
        ((∀ v, v ∈ nodes.map Node.id →
            v ∈ (dijkstraLoop nodes adj none fuel t).visited) ∨
          (∀ v, v ∉ (dijkstraLoop nodes adj none fuel t).visited →
            ¬ ∃ c, Reach d edges s0 v c))) := by
  intro fuel
  induction fuel with
  | zero =>
    intro t hinv hfuel
    refine ⟨hinv, Or.inl ?_⟩
    have hlen : (nodes.map Node.id).length ≤ t.visited.length := by
      rw [List.length_map]
      omega
    exact full_visited t.visited (nodes.map Node.id) hinv.2.1 hinv.2.2.1 hlen
  | succ fuel ih =>
    intro t hinv hfuel
    obtain ⟨iK, iN, iSub, iAD, iACH, iREL, iST, iLD⟩ := hinv
    rw [dijkstraLoop_succ]
    by_cases hguard : t.visited.length < nodes.length
    · rw [if_pos hguard]
      obtain ⟨C1, C2, C3⟩ := dijkstraScanMin_spec t.distances t.visited
      have hAD2 : ∀ y, y ∈ t.visited →
          ∃ my, objGet t.distances y = some (Dist.fin my) ∧
            (∀ c, Reach d edges s0 y c → my ≤ c) := by
        intro y hy
        obtain ⟨my, h1, _, h3⟩ := iAD y hy
        exact ⟨my, h1, h3⟩
      rcases hscan : (dijkstraScanMin t.distances t.visited).1
        with _ | current
      · refine ⟨⟨iK, iN, iSub, iAD, iACH, iREL, iST, iLD⟩, Or.inr ?_⟩
        rintro v hv ⟨c, l, hw⟩
        obtain ⟨x, hx, mx, hxsome, _⟩ := dijkstra_cross hnn hAD2 iREL iST
          l.length l v c (le_refl _) hw hv
        have hxkey := mem_objKeys_of_objGet_some hxsome
        have hinf := C3 hscan x hxkey hx
        rw [hinf] at hxsome
        injection hxsome with h2
        cases h2
      · dsimp only
        obtain ⟨hcurnv, hcursome, m, hm⟩ := C1 current hscan
        rw [hm] at hcursome
        rw [if_neg (by
          intro h
          rw [hcursome] at h
          injection h with h2
          cases h2)]
        rw [if_neg (by simp : ¬ (some current = (none : Option NodeId)))]
        have hcurids : current ∈ nodes.map Node.id :=
          (iK current).mp ((objHasKey_iff _ _).mpr (by rw [hcursome]; rfl))
        have hminc : ∀ c, Reach d edges s0 current c → m ≤ c := by
          intro c hr
          obtain ⟨l, hw⟩ := hr
          obtain ⟨x, hx, mx, hxsome, hmxc⟩ := dijkstra_cross hnn hAD2
            iREL iST l.length l current c (le_refl _) hw hcurnv
          have hxkey := mem_objKeys_of_objGet_some hxsome
          have hC2 := C2 x hxkey hx
          rw [hxsome, hm] at hC2
          have h4 : Dist.lt (Dist.fin mx) (Dist.fin m) = false := hC2
          simp only [Dist.lt] at h4
          have h5 := of_decide_eq_false h4
          omega
        have hreachc : Reach d edges s0 current m := iACH current m hcursome
        have ht1v : (dijVisit none current t).visited =
            t.visited ++ [current] := by
          show setAdd t.visited current = _
          unfold setAdd
          rw [if_neg hcurnv]
        have hcv1 : current ∈ (dijVisit none current t).visited := by
          rw [ht1v]
          exact List.mem_append.mpr (Or.inr (List.mem_singleton.mpr rfl))
        have hcur1 : objGet (dijVisit none current t).distances current =
            some (Dist.fin m) := hcursome
        have hsound1 : ∀ vw, vw ∈ (objGet adj current).getD [] →
            edgeW d edges current vw.1 vw.2 := by
          intro vw hvw
          exact (hadj current vw.1 vw.2).mp hvw
        have hkeys1 : ∀ vw, vw ∈ (objGet adj current).getD [] →
            objHasKey (dijVisit none current t).distances vw.1 = true := by
          intro vw hvw
          exact (iK vw.1).mpr (edgeW_ids hdecl (hsound1 vw hvw)).2
        have hach1 : bfAch d edges s0
            (dijVisit none current t).distances := iACH
        have ht1LD : ∃ last, (dijVisit none current t).steps.getLast? =
            some last ∧ last.distances =
              some (dijVisit none current t).distances :=
          ⟨_, List.getLast?_concat _, rfl⟩
        obtain ⟨r1, r2, r3, r4, r5, r6, r7⟩ := dijRelax_fold none current m
          ((objGet adj current).getD []) (dijVisit none current t)
          hcv1 hcur1 hreachc hsound1 hkeys1 hach1
        have ht2v : (((objGet adj current).getD []).foldl
            (dijRelax none current) (dijVisit none current t)).visited =
            t.visited ++ [current] := by
          rw [r1, ht1v]
        have hinv2 : DijInv d edges (nodes.map Node.id) s0
            (((objGet adj current).getD []).foldl (dijRelax none current)
              (dijVisit none current t)) := by
          refine ⟨?_, ?_, ?_, ?_, r5, ?_, ?_, ?_⟩
          · intro v
            rw [r2 v]
            exact iK v
          · rw [ht2v]
            rw [List.nodup_append]
            exact ⟨iN, List.nodup_singleton current, by
              intro x hx
              simp only [List.mem_singleton]
              intro hxc
              subst hxc
              exact hcurnv hx⟩
          · intro v hv
            rw [ht2v] at hv
            rcases List.mem_append.mp hv with hv2 | hv2
            · exact iSub v hv2
            · rw [List.mem_singleton.mp hv2]
              exact hcurids
          · intro y hy
            rw [ht2v] at hy
            rcases List.mem_append.mp hy with hy2 | hy2
            · obtain ⟨my, h1, h2, h3⟩ := iAD y hy2
              have hy4 : y ∈ (dijVisit none current t).visited := by
                rw [ht1v]
                exact List.mem_append.mpr (Or.inl hy2)
              refine ⟨my, ?_, h2, h3⟩
              rw [r4 y hy4]
              exact h1
            · rw [List.mem_singleton.mp hy2]
              refine ⟨m, ?_, hreachc, hminc⟩
              rw [r4 current hcv1]
              exact hcursome
          · intro y v wt hy hv he my hy2
            rw [ht2v] at hy hv
            have hvnot : v ∉ t.visited ∧ v ≠ current := by
              constructor
              · intro h
                exact hv (List.mem_append.mpr (Or.inl h))
              · intro h
                exact hv (List.mem_append.mpr (Or.inr
                  (List.mem_singleton.mpr h)))
            rcases List.mem_append.mp hy with hy3 | hy3
            · have hy4 : y ∈ (dijVisit none current t).visited := by
                rw [ht1v]
                exact List.mem_append.mpr (Or.inl hy3)
              rw [r4 y hy4] at hy2
              have hold := iREL y v wt hy3 hvnot.1 he my hy2
              exact dLeInt_of_dOptLe (r3 v) hold
            · have hyc := List.mem_singleton.mp hy3
              subst hyc
              rw [r4 y hcv1] at hy2
              have hy5 : objGet t.distances y = some (Dist.fin my) := hy2
              rw [hcursome] at hy5
              injection hy5 with h2
              injection h2 with h3
              have hmem : (v, wt) ∈ (objGet adj y).getD [] :=
                (hadj y v wt).mpr he
              have hvt1 : (v, wt).1 ∉ (dijVisit none y t).visited := by
                rw [ht1v]
                intro h
                rcases List.mem_append.mp h with h4 | h4
                · exact hvnot.1 h4
                · exact hvnot.2 (List.mem_singleton.mp h4)
              have hb := r6 (v, wt) hmem hvt1
              rw [← h3]
              exact hb
          · by_cases hs0c : s0 = current
            · left
              rw [ht2v]
              exact List.mem_append.mpr (Or.inr
                (List.mem_singleton.mpr hs0c))
            · rcases iST with hin | hle
              · left
                rw [ht2v]
                exact List.mem_append.mpr (Or.inl hin)
              · right
                exact dLeInt_of_dOptLe (r3 s0) hle
          · exact Or.inr (r7 ht1LD)
        have hfuel2 : nodes.length ≤ fuel +
            (((objGet adj current).getD []).foldl (dijRelax none current)
              (dijVisit none current t)).visited.length := by
          rw [ht2v, List.length_append, List.length_singleton]
          omega
        exact ih _ hinv2 hfuel2
    · rw [if_neg hguard]
      refine ⟨⟨iK, iN, iSub, iAD, iACH, iREL, iST, iLD⟩, Or.inl ?_⟩
      have hlen : (nodes.map Node.id).length ≤ t.visited.length := by
        rw [List.length_map]
        omega
      exact full_visited t.visited (nodes.map Node.id) iN iSub hlen

/-- The initial Dijkstra state for a valid start node. -/
def dijState0 (nodes : List Node) (startNode : NodeId) : DijState :=
  { distances := nodes.foldl (fun d nn =>
      objSet d nn.id (if nn.id == startNode then Dist.fin 0 else Dist.inf))
      ([] : Obj Dist)
    previous := nodes.foldl (fun p nn => objSet p nn.id none)
      ([] : Obj (Option NodeId))
    visited := []
    steps := [] }

/-- The state after the Dijkstra main loop. -/
def dijFinish (nodes : List Node) (edges : List Edge) (options : Options)
    (startNode : NodeId) : DijState :=
  dijkstraLoop nodes
    (buildAdjacencyW nodes edges (options.isDirected.getD false))
    options.endNode (nodes.length + 1) (dijState0 nodes startNode)

/-- On a valid start node runDijkstra is the loop's steps plus a final
merged step. -/
theorem runDijkstra_valid (nodes : List Node) (edges : List Edge)
    (options : Options) (startNode : NodeId)
    (hstart : options.startNode = some startNode)
    (hvalid : ¬(startNode == "" ∨
      ¬ nodes.any (fun n => n.id == startNode))) :
    runDijkstra nodes edges options =
      (dijFinish nodes edges options startNode).steps ++
        [Step.merge
          (((dijFinish nodes edges options startNode).steps.getLast?).getD
            {})
          { finished := some true
            result := some (if truthyId options.endNode then
                "Distance to " ++ options.endNode.getD "" ++ ": " ++
                  renderDistLookup
                    (dijFinish nodes edges options startNode).distances
                    (options.endNode.getD "")
              else "Finished")
            previous := some
              (dijFinish nodes edges options startNode).previous }] := by
  unfold runDijkstra dijFinish dijState0
  rw [hstart]
  dsimp only
  rw [if_neg hvalid]

/-- The invariant holds at the initial Dijkstra state. -/
theorem dij_init_inv (nodes : List Node) (edges : List Edge) (d : Bool)
    (startNode : NodeId) (hs : startNode ∈ nodes.map Node.id) :
    DijInv d edges (nodes.map Node.id) startNode
      (dijState0 nodes startNode) := by
  refine ⟨?_, List.nodup_nil, ?_, ?_, ?_, ?_, ?_, Or.inl ⟨rfl, rfl⟩⟩
  · intro v
    have h : objHasKey (dijState0 nodes startNode).distances v =
        decide (v ∈ nodes.map Node.id) := bf_init_hasKey nodes startNode v
    rw [h]
    exact ⟨of_decide_eq_true, decide_eq_true⟩
  · intro v hv
    exact absurd hv (List.not_mem_nil v)
  · intro y hy
    exact absurd hy (List.not_mem_nil y)
  · intro w m hwm
    by_cases hwi : w ∈ nodes.map Node.id
    · have h2 : objGet (dijState0 nodes startNode).distances w =
          some (if w == startNode then Dist.fin 0 else Dist.inf) :=
        bf_init_get nodes startNode w hwi
      rw [h2] at hwm
      by_cases hws : (w == startNode) = true
      · rw [if_pos hws] at hwm
        injection hwm with h3
        injection h3 with h4
        have hw2 : w = startNode := by simpa using hws
        subst hw2
        rw [← h4]
        exact ⟨[w], Walk.nil w⟩
      · rw [if_neg hws] at hwm
        injection hwm with h3
        cases h3
    · have hk : objHasKey (dijState0 nodes startNode).distances w =
          false := by
        have h : objHasKey (dijState0 nodes startNode).distances w =
            decide (w ∈ nodes.map Node.id) := bf_init_hasKey nodes startNode w
        rw [h]
        simpa using hwi
      rw [objGet_eq_none_of_not_hasKey hk] at hwm
      cases hwm
  · intro y v wt hy
    exact absurd hy (List.not_mem_nil y)
  · right
    have h2 : objGet (dijState0 nodes startNode).distances startNode =
        some (if startNode == startNode then Dist.fin 0 else Dist.inf) :=
      bf_init_get nodes startNode startNode hs
    rw [h2, if_pos (by simp)]
    exact ⟨0, rfl, le_refl 0⟩

/-- Dijkstra computes shortest distances at every declared node when no
end node is selected, and the newest step carries the final map. -/
theorem dij_correct (nodes : List Node) (edges : List Edge)
    (options : Options) (startNode : NodeId)
    (hdecl : ∀ e, e ∈ edges → e.from_ ∈ nodes.map Node.id ∧
      e.to_ ∈ nodes.map Node.id)
    (hnn : ∀ e, e ∈ edges → 0 ≤ e.weight.getD 1)
    (hs : startNode ∈ nodes.map Node.id)
    (hend : options.endNode = none) :
    (∀ v, v ∈ nodes.map Node.id → ∃ dv,
      objGet (dijFinish nodes edges options startNode).distances v =
        some dv ∧
      IsShortest (options.isDirected.getD false) edges startNode v dv) ∧
    (∃ last, (dijFinish nodes edges options startNode).steps.getLast? =
      some last ∧ last.distances =
        some (dijFinish nodes edges options startNode).distances) := by
  have hadj : ∀ u v wt, ((v, wt) ∈ (objGet (buildAdjacencyW nodes edges
      (options.isDirected.getD false)) u).getD []) ↔
      edgeW (options.isDirected.getD false) edges u v wt :=
    fun u v wt => mem_buildAdjacencyW nodes edges _ u v wt
  have hinv0 := dij_init_inv nodes edges (options.isDirected.getD false)
    startNode hs
  have hfuel0 : nodes.length ≤ (nodes.length + 1) +
      (dijState0 nodes startNode).visited.length := by
    omega
  obtain ⟨fInv, fExit⟩ := dijkstraLoop_master nodes _ hadj hdecl hnn
    (nodes.length + 1) (dijState0 nodes startNode) hinv0 hfuel0
  have hfin : dijFinish nodes edges options startNode =
      dijkstraLoop nodes (buildAdjacencyW nodes edges
        (options.isDirected.getD false)) none (nodes.length + 1)
        (dijState0 nodes startNode) := by
    unfold dijFinish
    rw [hend]
  obtain ⟨iK, iN, iSub, iAD, iACH, iREL, iST, iLD⟩ := fInv
  constructor
  · intro v hv
    obtain ⟨dv, hdv⟩ := objGet_some_of_hasKey ((iK v).mpr hv)
    refine ⟨dv, by rw [hfin]; exact hdv, ?_⟩
    by_cases hvS : v ∈ (dijkstraLoop nodes (buildAdjacencyW nodes edges
        (options.isDirected.getD false)) none (nodes.length + 1)
        (dijState0 nodes startNode)).visited
    · obtain ⟨my, h1, h2, h3⟩ := iAD v hvS
      rw [hdv] at h1
      injection h1 with h4
      rw [h4]
      exact ⟨h2, h3⟩
    · rcases fExit with hFull | hUnr
      · exact absurd (hFull v hv) hvS
      · have hnr := hUnr v hvS
        cases dv with
        | inf => exact hnr
        | fin m => exact absurd ⟨m, iACH v m hdv⟩ hnr
  · rcases iLD with ⟨hemp, hvemp⟩ | hlast
    · exfalso
      rcases fExit with hFull | hUnr
      · have h5 := hFull startNode hs
        rw [hvemp] at h5
        exact absurd h5 (List.not_mem_nil _)
      · have h5 := hUnr startNode (by
          rw [hvemp]
          exact List.not_mem_nil _)
        exact h5 ⟨0, [startNode], Walk.nil startNode⟩
    · rw [hfin]
      exact hlast

/-- C6, corrected: with no end node selected (so that Dijkstra's
documented early break is disabled), on nonnegative weights with edges
referencing declared ids and a valid start node, runDijkstra and
runBellmanFord both end in a finished step whose distances map assigns
every declared node the same value, namely the true shortest walk
distance from the start (Infinity exactly for unreachable nodes). -/
theorem C6_dijkstra_bellman_agree (nodes : List Node) (edges : List Edge)
    (options : Options) (startNode : NodeId)
    (hdecl : ∀ e, e ∈ edges → e.from_ ∈ nodes.map Node.id ∧
      e.to_ ∈ nodes.map Node.id)
    (hnn : ∀ e, e ∈ edges → 0 ≤ e.weight.getD 1)
    (hstart : options.startNode = some startNode)
    (hvalid : ¬(startNode == "" ∨
      ¬ nodes.any (fun n => n.id == startNode)))
    (hend : options.endNode = none) :
    ∃ lastD lastB dD dB,
      (runDijkstra nodes edges options).getLast? = some lastD ∧
      lastD.distances = some dD ∧ lastD.finished = some true ∧
      (runBellmanFord nodes edges options).getLast? = some lastB ∧
      lastB.distances = some dB ∧ lastB.finished = some true ∧
      ∀ v, v ∈ nodes.map Node.id → ∃ dv,
        objGet dD v = some dv ∧ objGet dB v = some dv ∧
        IsShortest (options.isDirected.getD false) edges startNode v dv := by
  have hany : nodes.any (fun n => n.id == startNode) = true := by
    rcases not_or.mp hvalid with ⟨_, h2⟩
    exact not_not.mp h2
  have hs : startNode ∈ nodes.map Node.id := by
    obtain ⟨n, hn, hb⟩ := List.any_eq_true.mp hany
    exact List.mem_map.mpr ⟨n, hn, by simpa using hb⟩
  obtain ⟨hDcorr, lastD0, hlastD0, hlastD0d⟩ :=
    dij_correct nodes edges options startNode hdecl hnn hs hend
  have hBcorr := bf_correct nodes edges options startNode hdecl hnn hs
  obtain ⟨lastB, hBlast, hBd, hBfin⟩ :=
    runBellmanFord_last nodes edges options startNode hstart hvalid
  rw [runDijkstra_valid nodes edges options startNode hstart hvalid]
  refine ⟨_, lastB,
    (dijFinish nodes edges options startNode).distances,
    (bfFinish nodes edges options startNode).distances,
    List.getLast?_concat _, ?_, rfl, hBlast, hBd, hBfin, ?_⟩
  · show (((dijFinish nodes edges options
      startNode).steps.getLast?).getD {}).distances = _
    rw [hlastD0]
    exact hlastD0d
  · intro v hv
    obtain ⟨dvD, hdvD, hshD⟩ := hDcorr v hv
    obtain ⟨dvB, hdvB, hshB⟩ := hBcorr v hv
    have heq := isShortest_unique hshD hshB
    refine ⟨dvD, hdvD, ?_, hshD⟩
    rw [heq]
    exact hdvB

/-- Witness for C6 on the undirected two-node graph A-B of weight 1
with start A and no end node. -/
theorem C6_witness :
    ∃ lastD lastB dD dB,
      (runDijkstra [⟨"A"⟩, ⟨"B"⟩]
        [{ from_ := "A", to_ := "B", weight := some 1 }]
        { startNode := some "A" }).getLast? = some lastD ∧
      lastD.distances = some dD ∧ lastD.finished = some true ∧
      (runBellmanFord [⟨"A"⟩, ⟨"B"⟩]
        [{ from_ := "A", to_ := "B", weight := some 1 }]
        { startNode := some "A" }).getLast? = some lastB ∧
      lastB.distances = some dB ∧ lastB.finished = some true ∧
      ∀ v, v ∈ ([⟨"A"⟩, ⟨"B"⟩] : List Node).map Node.id → ∃ dv,
        objGet dD v = some dv ∧ objGet dB v = some dv ∧
        IsShortest (({ startNode := some "A" } : Options).isDirected.getD
          false) [{ from_ := "A", to_ := "B", weight := some 1 }]
          "A" v dv :=
  C6_dijkstra_bellman_agree [⟨"A"⟩, ⟨"B"⟩]
    [{ from_ := "A", to_ := "B", weight := some 1 }]
    { startNode := some "A" } "A"
    (by decide) (by decide) rfl (by decide) rfl

end GraphVoyager
